import Mathlib

/-!
PipelineRun reconciliation controller of ks-devops

A shallow embedding of `controllers/jenkins/pipelinerun/pipelinerun_controller.go`,
with the annotation writer of `controllers/jenkins/pipeline/json_converter.go`, the
branch filter of `pkg/kapis/devops/v1alpha3/pipeline/branch_filter.go` and the run
creation helpers of `pkg/kapis/devops/v1alpha4/util.go`.
Pure helpers are Lean functions.  Code that talks to the record store, to Jenkins,
to the event recorder or to the clock is a program tree (`Prog`) whose nodes are the
external calls; an environment (`Handler`) answers each call, and `exec` runs a tree
against an environment and records the calls together with their answers.
-/

namespace KsDevops

/-! ## Go values -/

/-- The error classes the controller tells apart: the API-machinery reasons
`NotFound` and `Conflict`, and every other error. -/
inductive ErrKind where
  | notFound
  | conflict
  | other
  deriving DecidableEq, Repr

/-- A non-nil Go `error`: its class and the text of `Error()`. -/
structure Err where
  kind : ErrKind
  msg : String
  deriving DecidableEq, Repr

/-- A Go `error` value; `none` is `nil`. -/
abbrev GoError := Option Err

/-- A `fmt.Errorf` / `errors.New` error: a plain error carrying only its text. -/
def errorf (msg : String) : Err := { kind := ErrKind.other, msg := msg }

/-- Go `client.IgnoreNotFound`: `nil` for a not-found error, the error itself otherwise. -/
def IgnoreNotFound : GoError → GoError
  | none => none
  | some e => if e.kind = ErrKind.notFound then none else some e

/-- An instant; `0` is the zero `time.Time`. -/
abbrev Time := Nat

/-- Go `(*v1.Time).IsZero`: a nil pointer or the zero instant. -/
def IsZero : Option Time → Bool
  | none => true
  | some t => t == 0

/-- A `time.Duration`, in nanoseconds. -/
abbrev Duration := Nat

/-- Go `time.Second`. -/
def Second : Duration := 1000000000

/-- Go `strings.Contains`. -/
def stringsContains (s sub : String) : Bool :=
  s.data.tails.any (fun t => sub.data.isPrefixOf t)

/-- A non-nil Go `map[string]string`, as an association list read at the first match. -/
abbrev StrMap := List (String × String)

/-- Go `m[k]` with the comma-ok form, on a map that may be nil. -/
def mapGet (m : Option StrMap) (k : String) : Option String :=
  match m with
  | none => none
  | some l => l.lookup k

/-- Go `m[k] = v` on a non-nil map. -/
def mapSet (m : StrMap) (k v : String) : StrMap :=
  (k, v) :: m.filter (fun p => p.1 != k)

/-- Go `if m == nil { m = make(map[string]string) }`. -/
def makeIfNil (m : Option StrMap) : StrMap :=
  match m with
  | none => []
  | some l => l

/-- Go `reflect.DeepEqual` on two `map[string]string`: both nil, or both non-nil with
the same keys bound to the same values. -/
def mapDeepEqual (a b : Option StrMap) : Bool :=
  match a, b with
  | none, none => true
  | some x, some y =>
      x.all (fun p => y.lookup p.1 == x.lookup p.1) &&
      y.all (fun p => x.lookup p.1 == y.lookup p.1)
  | _, _ => false

/-- Go `sliceutil.HasString`. -/
def HasString (slice : List String) (str : String) : Bool :=
  slice.any (fun s => s == str)

/-- Go `sliceutil.RemoveString`: drops the items the predicate selects. -/
def RemoveString (slice : List String) (remove : String → Bool) : List String :=
  slice.filter (fun s => !remove s)

/-! ## `strconv.Atoi` -/

/-- Value of one decimal digit. -/
def digitValue (c : Char) : Option Nat :=
  if '0' ≤ c ∧ c ≤ '9' then some (c.toNat - '0'.toNat) else none

/-- Reads a run of decimal digits, most significant first, onto an accumulator. -/
def parseDigits : List Char → Nat → Option Nat
  | [], acc => some acc
  | c :: cs, acc =>
      match digitValue c with
      | none => none
      | some d => parseDigits cs (acc * 10 + d)

/-- Smallest Go `int` (64-bit). -/
def minInt : Int := -(2 ^ 63)

/-- Largest Go `int` (64-bit). -/
def maxInt : Int := 2 ^ 63 - 1

/-- Go `strconv.Atoi` for a 64-bit `int`: an optional sign, then one or more decimal
digits, and the value has to fit in `int`. -/
def Atoi (s : String) : Except Err Int :=
  let cs := s.data
  let signed : Bool × List Char :=
    match cs with
    | '-' :: r => (true, r)
    | '+' :: r => (false, r)
    | _ => (false, cs)
  if signed.2.isEmpty then
    Except.error (errorf ("strconv.Atoi: parsing \"" ++ s ++ "\": invalid syntax"))
  else
    match parseDigits signed.2 0 with
    | none => Except.error (errorf ("strconv.Atoi: parsing \"" ++ s ++ "\": invalid syntax"))
    | some n =>
        let v : Int := if signed.1 then -(n : Int) else (n : Int)
        if v < minInt ∨ maxInt < v then
          Except.error (errorf ("strconv.Atoi: parsing \"" ++ s ++ "\": value out of range"))
        else Except.ok v

/-! ## API types (`kubesphere.io/devops/pkg/api/devops/v1alpha3`) -/

/-- Modelled from the spec: the constant declarations of package `v1alpha3` are absent
from the sources; the finalizer marker of a PipelineRun. -/
def PipelineRunFinalizerName : String := "pipelinerun.finalizers.kubesphere.io"

/-- Modelled from the spec: label key holding the parent pipeline name. -/
def PipelineNameLabelKey : String := "devops.kubesphere.io/pipeline"

/-- Modelled from the spec: label key holding the SCM branch name. -/
def SCMRefNameLabelKey : String := "devops.kubesphere.io/scm-ref-name"

/-- Modelled from the spec: metadata key holding the external run identifier. -/
def JenkinsPipelineRunIDKey : String := "devops.kubesphere.io/jenkins-pipelinerun-id"

/-- Modelled from the spec: annotation key holding the latest serialized run result. -/
def JenkinsPipelineRunStatusKey : String := "devops.kubesphere.io/jenkins-pipelinerun-status"

/-- Modelled from the spec: annotation key holding the latest serialized stage tree. -/
def JenkinsPipelineRunStagesStatusKey : String :=
  "devops.kubesphere.io/jenkins-pipelinerun-stages-status"

/-- Modelled from the spec: label key marking a PipelineRun without a parent reference. -/
def PipelineRunOrphanKey : String := "pipelinerun.devops.kubesphere.io/orphan"

/-- Modelled from the spec: the phase `Unknown`. -/
def Unknown : String := "Unknown"

/-- Modelled from the spec: the phase `Pending`. -/
def Pending : String := "Pending"

/-- Modelled from the spec: the condition type `Succeeded`. -/
def ConditionSucceeded : String := "Succeeded"

/-- Modelled from the spec: the condition status `Unknown`. -/
def ConditionUnknown : String := "Unknown"

/-- Modelled from the spec: the pipeline type of a multi-branch pipeline. -/
def MultiBranchPipelineType : String := "multi-branch-pipeline"

/-- Go `corev1.ObjectReference`, of which the controller reads the name. -/
structure ObjectReference where
  Name : String
  deriving DecidableEq, Repr

/-- The SCM reference of a run: the name of the reference and its type. -/
structure SCM where
  RefName : String
  RefType : String := ""
  deriving DecidableEq, Repr

/-- A name/value parameter of a run. -/
structure Parameter where
  Name : String
  Value : String
  deriving DecidableEq, Repr

/-- Spec of a PipelineRun.  `MultiBranch` is modelled from the spec: it carries the value
of the helper `IsMultiBranchPipeline`, which is absent from the sources. -/
structure PipelineRunSpec where
  PipelineRef : Option ObjectReference
  MultiBranch : Bool
  SCM : Option SCM
  Parameters : List Parameter
  deriving DecidableEq, Repr

/-- A status condition. -/
structure Condition where
  Type_ : String
  Status : String
  Reason : String
  Message : String
  LastTransitionTime : Time
  LastProbeTime : Time
  deriving DecidableEq, Repr

/-- Status of a PipelineRun. -/
structure PipelineRunStatus where
  StartTime : Option Time
  UpdateTime : Option Time
  CompletionTime : Option Time
  Phase : String
  Conditions : List Condition
  deriving DecidableEq, Repr

/-- A PipelineRun record: the object metadata the controller uses, spec and status.
`BuildableFlag` is modelled from the spec: it carries the value of the helper
`Buildable` (the policy flag of the resource), which is absent from the sources. -/
structure PipelineRun where
  Namespace : String
  Name : String
  Labels : Option StrMap
  Annotations : Option StrMap
  Finalizers : List String
  DeletionTimestamp : Option Time
  BuildableFlag : Bool
  Spec : PipelineRunSpec
  Status : PipelineRunStatus
  deriving DecidableEq, Repr

/-- The inline definition of a pipeline without SCM (`v1alpha3.NoScmPipeline`), of which
the controllers read the Jenkinsfile. -/
structure NoScmPipeline where
  Jenkinsfile : String
  deriving DecidableEq, Repr

/-- Spec of a Pipeline (`v1alpha3.PipelineSpec`): its type and, for a pipeline without SCM,
its inline definition. -/
structure PipelineSpec where
  Type_ : String
  Pipeline : Option NoScmPipeline := none
  deriving DecidableEq, Repr

/-- A Pipeline record, as far as the controllers read it. -/
structure Pipeline where
  Namespace : String
  Name : String
  Annotations : Option StrMap := none
  Spec : PipelineSpec
  deriving DecidableEq, Repr

/-- Modelled from the spec: `PipelineRun.GetPipelineRunID` is absent from the sources;
the run identifier is the annotation under the run-identifier key, if any. -/
def GetPipelineRunID (pr : PipelineRun) : Option String :=
  mapGet pr.Annotations JenkinsPipelineRunIDKey

/-- Modelled from the spec: `PipelineRun.HasStarted` is absent from the sources; a
PipelineRun has started when it has a recorded run identifier. -/
def HasStarted (pr : PipelineRun) : Bool :=
  (GetPipelineRunID pr).isSome

/-- Modelled from the spec: `PipelineRun.Buildable` is absent from the sources. -/
def Buildable (pr : PipelineRun) : Bool :=
  pr.BuildableFlag

/-- Modelled from the spec: `PipelineRunSpec.IsMultiBranchPipeline` is absent from the
sources. -/
def IsMultiBranchPipeline (prSpec : PipelineRunSpec) : Bool :=
  prSpec.MultiBranch

/-- Modelled from the spec: `PipelineRun.LabelAsAnOrphan` is absent from the sources; it
marks the resource with the orphan label. -/
def LabelAsAnOrphan (pr : PipelineRun) : PipelineRun :=
  { pr with Labels := some (mapSet (makeIfNil pr.Labels) PipelineRunOrphanKey "true") }

/-- Modelled from the spec: `PipelineRunStatus.AddCondition` is absent from the sources;
it appends the condition. -/
def AddCondition (status : PipelineRunStatus) (c : Condition) : PipelineRunStatus :=
  { status with Conditions := status.Conditions ++ [c] }

/-! ## Pure helpers of the controller -/

/-- Go `getJenkinsBuildNumber`. -/
def getJenkinsBuildNumber (pipelineRun : PipelineRun) : Int :=
  match GetPipelineRunID pipelineRun with
  | none => -1
  | some buildNum =>
      match Atoi buildNum with
      | Except.error _ => -1
      | Except.ok num => num

/-- Go `getSCMRefName`. -/
def getSCMRefName (prSpec : PipelineRunSpec) : Except Err String :=
  if IsMultiBranchPipeline prSpec then
    match prSpec.SCM with
    | none => Except.error (errorf "failed to obtain SCM reference name for multi-branch Pipeline")
    | some scm =>
        if scm.RefName = "" then
          Except.error (errorf "failed to obtain SCM reference name for multi-branch Pipeline")
        else Except.ok scm.RefName
  else Except.ok ""

/-! ## External calls -/

/-- Go `client.ObjectKey` / `types.NamespacedName`. -/
structure ObjectKey where
  Namespace : String
  Name : String
  deriving DecidableEq, Repr

/-- Go `ctrl.Request`. -/
structure Request where
  NamespacedName : ObjectKey
  deriving DecidableEq, Repr

/-- Go `ctrl.Result`. -/
structure Result where
  Requeue : Bool := false
  RequeueAfter : Duration := 0
  deriving DecidableEq, Repr

/-- Text of a `NamespacedName` under `%s`. -/
def ObjectKey.String (k : ObjectKey) : String :=
  k.Namespace ++ "/" ++ k.Name

/-- A `client.ListOption` the controller passes to `List`. -/
inductive ListOption where
  | InNamespace (ns : String)
  | MatchingLabels (m : StrMap)
  deriving DecidableEq, Repr

/-- A run as the Jenkins client reports it (`job.PipelineRun`). -/
structure JobRun where
  ID : String
  Pipeline : String
  State : String
  Result : String
  deriving DecidableEq, Repr

/-- A stage node as the Jenkins client reports it (`job.Node`). -/
structure Node where
  ID : String
  DisplayName : String
  State : String
  Result : String
  deriving DecidableEq, Repr

/-- A build parameter handed to Jenkins (`job.ParameterDefinition`). -/
structure ParameterDefinition where
  Name : String
  Value : String
  deriving DecidableEq, Repr

/-- Go `job.BuildOption`. -/
structure BuildOption where
  Pipelines : List String
  Parameters : List ParameterDefinition
  Branch : String
  deriving DecidableEq, Repr

/-- Go `job.GetBuildOption`. -/
structure GetBuildOption where
  RunID : String
  Pipelines : List String
  Branch : String
  deriving DecidableEq, Repr

/-- Go `job.GetNodesOption`. -/
structure GetNodesOption where
  Pipelines : List String
  Branch : String
  RunID : String
  deriving DecidableEq, Repr

/-- The answer of the Jenkins converter (`core.GenericResult`): a status and a result. -/
structure GenericResult where
  Status : String
  Result : String
  deriving DecidableEq, Repr

/-- The calls the controllers make to their collaborators: the record store
(`Get` … `List`, `UpdatePipeline`), Jenkins (`DeleteHistory` … `GetNodes`, `ToJSON`), the
event recorder and the clock. -/
inductive Call where
  | Get (key : ObjectKey)
  | GetPipeline (key : ObjectKey)
  | UpdatePipeline (obj : Pipeline)
  | ToJSON (jenkinsfile : String)
  | Update (obj : PipelineRun)
  | StatusUpdate (obj : PipelineRun)
  | Delete (obj : PipelineRun)
  | List (opts : List ListOption)
  | DeleteHistory (jobName : String) (buildNum : Int)
  | Build (option : BuildOption)
  | GetBuild (option : GetBuildOption)
  | GetNodes (option : GetNodesOption)
  | Eventf (obj : PipelineRun) (eventtype reason message : String)
  | Now
  deriving DecidableEq, Repr

/-- What each call gives back. -/
@[reducible] def Resp : Call → Type
  | Call.Get _ => Except Err PipelineRun
  | Call.GetPipeline _ => Except Err Pipeline
  | Call.UpdatePipeline _ => GoError
  | Call.ToJSON _ => Except Err GenericResult
  | Call.Update _ => GoError
  | Call.StatusUpdate _ => GoError
  | Call.Delete _ => GoError
  | Call.List _ => Except Err (List PipelineRun)
  | Call.DeleteHistory _ _ => GoError
  | Call.Build _ => Except Err JobRun
  | Call.GetBuild _ => Except Err JobRun
  | Call.GetNodes _ => Except Err (List Node)
  | Call.Eventf _ _ _ _ => Unit
  | Call.Now => Time

/-- A program: it returns, it stops on a run-time panic, or it makes a call and goes on
with the answer. -/
inductive Prog (α : Type) where
  | ret : α → Prog α
  | crash : String → Prog α
  | call : (c : Call) → (Resp c → Prog α) → Prog α

/-- Sequencing of programs. -/
def Prog.bind {α β : Type} : Prog α → (α → Prog β) → Prog β
  | Prog.ret a, f => f a
  | Prog.crash m, _ => Prog.crash m
  | Prog.call c k, f => Prog.call c (fun r => (k r).bind f)

instance : Monad Prog where
  pure := Prog.ret
  bind := Prog.bind

/-- One call with its answer. -/
def perform (c : Call) : Prog (Resp c) :=
  Prog.call c Prog.ret

/-- A call together with the answer it got. -/
structure Event where
  call : Call
  resp : Resp call

/-- How a program ended. -/
inductive Outcome (α : Type) where
  | returned (a : α)
  | crashed (msg : String)
  deriving DecidableEq, Repr

/-- An environment: it answers each call from its state and moves to a new state. -/
abbrev Handler (σ : Type) := (c : Call) → σ → Resp c × σ

/-- Runs a program in an environment: the outcome, the calls made with their answers in
order, and the final state of the environment. -/
def exec {σ α : Type} (h : Handler σ) : Prog α → σ → Outcome α × List Event × σ
  | Prog.ret a, s => (Outcome.returned a, [], s)
  | Prog.crash m, s => (Outcome.crashed m, [], s)
  | Prog.call c k, s =>
      let r := h c s
      let rest := exec h (k r.1) r.2
      (rest.1, { call := c, resp := r.1 } :: rest.2.1, rest.2.2)

/-- Go `retry.RetryOnConflict` run for at most `steps` attempts: stops at the first
attempt that succeeds or fails with something other than a conflict; when every attempt
ends in a conflict, the last conflict is the result (`nil` when no attempt was made). -/
def RetryOnConflict (steps : Nat) (fn : Prog GoError) : Prog GoError :=
  match steps with
  | 0 => pure none
  | 1 => fn
  | n + 2 => do
      let err ← fn
      match err with
      | none => pure none
      | some e =>
          if e.kind = ErrKind.conflict then RetryOnConflict (n + 1) fn
          else pure (some e)

/-- Go `retry.DefaultRetry.Steps`. -/
def DefaultRetrySteps : Nat := 5

/-- Helpers of the package that are absent from the sources and on which the controller
depends: the status projector `pipelineBuildApplier.apply`, the parameter converter
`parameterConverter.convert`, and the JSON text of a run and of a stage list. -/
structure Deps where
  apply : JobRun → PipelineRunStatus → PipelineRunStatus
  convert : List Parameter → List ParameterDefinition
  encodeRun : JobRun → String
  encodeNodes : List Node → String

/-- Go `json.Marshal` on a value decoded from JSON: it has a text and does not fail. -/
def jsonMarshal {α : Type} (encode : α → String) (v : α) : Except Err String :=
  Except.ok (encode v)

/-! ## The controller -/

/-- Go `Reconciler.hasSamePendingPipelineRun`. -/
def hasSamePendingPipelineRun (jobRun : JobRun) (pipeline : Pipeline) :
    Prog (Except Err Bool) := do
  let listOptions : List ListOption :=
    [ListOption.InNamespace pipeline.Namespace,
     ListOption.MatchingLabels [(PipelineNameLabelKey, pipeline.Name)],
     ListOption.MatchingLabels [(JenkinsPipelineRunIDKey, jobRun.ID)]]
  let listOptions :=
    if pipeline.Spec.Type_ = MultiBranchPipelineType then
      listOptions ++ [ListOption.MatchingLabels [(SCMRefNameLabelKey, jobRun.Pipeline)]]
    else listOptions
  let res ← perform (Call.List listOptions)
  match res with
  | Except.error err => return Except.error err
  | Except.ok items =>
  if items.length = 0 then
    return Except.ok false
  else
  return Except.ok true

/-- Go `Reconciler.deletePipelineRun`. -/
def deletePipelineRun (pipelineRunKey : ObjectKey) : Prog GoError := do
  let res ← perform (Call.Get pipelineRunKey)
  match res with
  | Except.error err => return some err
  | Except.ok pipelineRunToDelete =>
  perform (Call.Delete pipelineRunToDelete)

/-- Go `Reconciler.deleteJenkinsJobHistory`.  Reading `Spec.PipelineRef.Name` through a
nil `PipelineRef` is a nil-pointer dereference. -/
def deleteJenkinsJobHistory (pipelineRun : PipelineRun) : Prog GoError := do
  let buildNum := getJenkinsBuildNumber pipelineRun
  if buildNum < 0 then
    return none
  else
  match pipelineRun.Spec.PipelineRef with
  | none => Prog.crash "invalid memory address or nil pointer dereference"
  | some pipelineRef =>
  let jobName := "job/" ++ pipelineRun.Namespace ++ "/job/" ++ pipelineRef.Name
  let err ← perform (Call.DeleteHistory jobName buildNum)
  match err with
  | none => return none
  | some e =>
  if stringsContains e.msg "not found resources" then
    return none
  else
  return some (errorf ("failed to delete Jenkins job: " ++ jobName ++ ", build: " ++
    toString buildNum ++ ", error: " ++ e.msg))

/-- Go `Reconciler.triggerJenkinsJob`. -/
def triggerJenkinsJob (d : Deps) (devopsProjectName pipelineName : String)
    (prSpec : PipelineRunSpec) : Prog (Except Err JobRun) := do
  match getSCMRefName prSpec with
  | Except.error err => return Except.error err
  | Except.ok branch =>
  perform (Call.Build
    { Pipelines := [devopsProjectName, pipelineName],
      Parameters := d.convert prSpec.Parameters,
      Branch := branch })

/-- Go `Reconciler.getPipelineRunResult`. -/
def getPipelineRunResult (devopsProjectName pipelineName : String) (pr : PipelineRun) :
    Prog (Except Err JobRun) := do
  match GetPipelineRunID pr with
  | none =>
      return Except.error (errorf "unable to get PipelineRun result due to not found run ID")
  | some runID =>
  match getSCMRefName pr.Spec with
  | Except.error err => return Except.error err
  | Except.ok branch =>
  perform (Call.GetBuild
    { RunID := runID, Pipelines := [devopsProjectName, pipelineName], Branch := branch })

/-- Go `Reconciler.getPipelineNodes`. -/
def getPipelineNodes (devopsProjectName pipelineName : String) (pr : PipelineRun) :
    Prog (Except Err (List Node)) := do
  match GetPipelineRunID pr with
  | none =>
      return Except.error (errorf "unable to get PipelineRun result due to not found run ID")
  | some runID =>
  match getSCMRefName pr.Spec with
  | Except.error err => return Except.error err
  | Except.ok branch =>
  perform (Call.GetNodes
    { Pipelines := [devopsProjectName, pipelineName], Branch := branch, RunID := runID })

/-- Go `Reconciler.updateLabelsAndAnnotations`. -/
def updateLabelsAndAnnotations (pr : PipelineRun) : Prog GoError := do
  let res ← perform (Call.Get { Namespace := pr.Namespace, Name := pr.Name })
  match res with
  | Except.error err => return some err
  | Except.ok prToUpdate =>
  if mapDeepEqual pr.Labels prToUpdate.Labels &&
      mapDeepEqual pr.Annotations prToUpdate.Annotations then
    return none
  else
  let prToUpdate := { prToUpdate with Labels := pr.Labels, Annotations := pr.Annotations }
  let prToUpdate :=
    if !HasString prToUpdate.Finalizers PipelineRunFinalizerName then
      { prToUpdate with Finalizers := prToUpdate.Finalizers ++ [PipelineRunFinalizerName] }
    else prToUpdate
  perform (Call.Update prToUpdate)

/-- Go `Reconciler.updateStatus`. -/
def updateStatus (desiredStatus : PipelineRunStatus) (prKey : ObjectKey) : Prog GoError :=
  RetryOnConflict DefaultRetrySteps (do
    let res ← perform (Call.Get prKey)
    match res with
    | Except.error err => return some err
    | Except.ok prToUpdate =>
    if desiredStatus = prToUpdate.Status then
      return none
    else
    let prToUpdate := { prToUpdate with Status := desiredStatus }
    perform (Call.StatusUpdate prToUpdate))

/-- Go `Reconciler.makePipelineRunOrphan`.  The condition and the phase are set on the
copy `prToUpdate`; the status handed to `updateStatus` is `pr.Status`. -/
def makePipelineRunOrphan (pr : PipelineRun) : Prog GoError := do
  let prToUpdate := pr
  let prToUpdate := LabelAsAnOrphan prToUpdate
  let err ← updateLabelsAndAnnotations prToUpdate
  match err with
  | some e => return some e
  | none =>
  let lastTransitionTime ← perform Call.Now
  let lastProbeTime ← perform Call.Now
  let condition : Condition :=
    { Type_ := ConditionSucceeded,
      Status := ConditionUnknown,
      Reason := "SKIPPED",
      Message :=
        "skipped to reconcile this PipelineRun due to not found Pipeline reference in PipelineRun.",
      LastTransitionTime := lastTransitionTime,
      LastProbeTime := lastProbeTime }
  let prToUpdate := { prToUpdate with Status := AddCondition prToUpdate.Status condition }
  let _prToUpdate := { prToUpdate with Status := { prToUpdate.Status with Phase := Unknown } }
  updateStatus pr.Status { Namespace := pr.Namespace, Name := pr.Name }

/-- Go `corev1.EventTypeWarning`. -/
def EventTypeWarning : String := "Warning"

/-- Go `corev1.EventTypeNormal`. -/
def EventTypeNormal : String := "Normal"

/-- Modelled from the spec: event reason for a failed query of the external run. -/
def RetrieveFailed : String := "RetrieveFailed"

/-- Modelled from the spec: event reason for a failed trigger. -/
def TriggerFailed : String := "TriggerFailed"

/-- Modelled from the spec: event reason for refreshed run data. -/
def Updated : String := "Updated"

/-- Modelled from the spec: event reason for a started run. -/
def Started : String := "Started"

/-- Go `Reconciler.Reconcile`.  Log lines are left out; every other effect is a call. -/
def Reconcile (d : Deps) (req : Request) : Prog (Result × GoError) := do
  -- get PipelineRun
  let res ← perform (Call.Get req.NamespacedName)
  match res with
  | Except.error err => return ({}, IgnoreNotFound (some err))
  | Except.ok pipelineRun =>
  let pipelineRunCopied := pipelineRun
  if !IsZero pipelineRunCopied.DeletionTimestamp then
    let err ← deleteJenkinsJobHistory pipelineRunCopied
    match err with
    | some e => return ({}, some e)
    | none =>
    let pipelineRunCopied :=
      { pipelineRunCopied with
        Finalizers := RemoveString pipelineRunCopied.Finalizers
          (fun item => item == PipelineRunFinalizerName) }
    let err ← perform (Call.Update pipelineRunCopied)
    return ({}, err)
  else
  -- the PipelineRun cannot allow building
  if !Buildable pipelineRunCopied then
    return ({}, none)
  else
  -- check PipelineRef
  match pipelineRunCopied.Spec.PipelineRef with
  | none =>
      let err ← makePipelineRunOrphan pipelineRunCopied
      return ({}, err)
  | some pipelineRef =>
  if pipelineRef.Name = "" then
    let err ← makePipelineRunOrphan pipelineRunCopied
    return ({}, err)
  else
  -- get pipeline
  let res ← perform (Call.GetPipeline
    { Namespace := pipelineRunCopied.Namespace, Name := pipelineRef.Name })
  match res with
  | Except.error err => return ({}, IgnoreNotFound (some err))
  | Except.ok pipeline =>
  let namespaceName := pipeline.Namespace
  let pipelineName := pipeline.Name
  -- set Pipeline name and SCM ref name into labels
  let labels := makeIfNil pipelineRunCopied.Labels
  let labels := mapSet labels PipelineNameLabelKey pipelineName
  let labels :=
    match getSCMRefName pipelineRunCopied.Spec with
    | Except.ok refName =>
        if refName ≠ "" then mapSet labels SCMRefNameLabelKey refName else labels
    | Except.error _ => labels
  let pipelineRunCopied := { pipelineRunCopied with Labels := some labels }
  -- check PipelineRun status
  if HasStarted pipelineRunCopied then
    let res ← getPipelineRunResult namespaceName pipelineName pipelineRunCopied
    match res with
    | Except.error err =>
        perform (Call.Eventf pipelineRunCopied EventTypeWarning RetrieveFailed
          ("Failed to retrieve running data from Jenkins, and error was " ++ err.msg))
        return ({}, some err)
    | Except.ok pipelineBuild =>
    let res ← getPipelineNodes namespaceName pipelineName pipelineRunCopied
    match res with
    | Except.error err =>
        perform (Call.Eventf pipelineRunCopied EventTypeWarning RetrieveFailed
          ("Failed to retrieve nodes detail from Jenkins, and error was " ++ err.msg))
        return ({}, some err)
    | Except.ok prNodes =>
    -- set the latest run result into annotations
    match jsonMarshal d.encodeRun pipelineBuild with
    | Except.error err => return ({}, some err)
    | Except.ok runResultJSON =>
    match jsonMarshal d.encodeNodes prNodes with
    | Except.error err => return ({}, some err)
    | Except.ok prNodesJSON =>
    let annotations := makeIfNil pipelineRunCopied.Annotations
    let annotations := mapSet annotations JenkinsPipelineRunStatusKey runResultJSON
    let annotations := mapSet annotations JenkinsPipelineRunStagesStatusKey prNodesJSON
    let pipelineRunCopied := { pipelineRunCopied with Annotations := some annotations }
    -- update PipelineRun
    let err ← updateLabelsAndAnnotations pipelineRunCopied
    match err with
    | some e => return ({ RequeueAfter := Second }, some e)
    | none =>
    let status := pipelineRunCopied.Status
    let status := d.apply pipelineBuild status
    let err ← updateStatus status req.NamespacedName
    match err with
    | some e => return ({ RequeueAfter := Second }, some e)
    | none =>
    perform (Call.Eventf pipelineRunCopied EventTypeNormal Updated
      ("Updated running data for PipelineRun " ++ req.NamespacedName.String))
    -- until the status is okay
    return ({ RequeueAfter := 3 * Second }, none)
  else
  -- first run
  let res ← triggerJenkinsJob d namespaceName pipelineName pipelineRunCopied.Spec
  match res with
  | Except.error err =>
      perform (Call.Eventf pipelineRunCopied EventTypeWarning TriggerFailed
        ("Failed to trigger PipelineRun " ++ req.NamespacedName.String ++
          ", and error was " ++ err.msg))
      return ({}, some err)
  | Except.ok jobRun =>
  -- check if there is still a same pending PipelineRun
  let res ← hasSamePendingPipelineRun jobRun pipeline
  match res with
  | Except.error err => return ({}, some err)
  | Except.ok found =>
  if found then
    -- if there still exists the same pending PipelineRun, then give up reconciling
    let err ← deletePipelineRun req.NamespacedName
    match err with
    | some e => return ({}, some e)
    | none => return ({}, none)
  else
  -- set Jenkins run ID
  let annotations := makeIfNil pipelineRunCopied.Annotations
  let annotations := mapSet annotations JenkinsPipelineRunIDKey jobRun.ID
  let pipelineRunCopied := { pipelineRunCopied with Annotations := some annotations }
  -- the Update method only updates fields except subresource: status
  let err ← updateLabelsAndAnnotations pipelineRunCopied
  match err with
  | some e => return ({}, some e)
  | none =>
  let startTime ← perform Call.Now
  let updateTime ← perform Call.Now
  let pipelineRunCopied :=
    { pipelineRunCopied with
      Status := { pipelineRunCopied.Status with
        StartTime := some startTime, UpdateTime := some updateTime } }
  let err ← updateStatus pipelineRunCopied.Status req.NamespacedName
  match err with
  | some e => return ({}, some e)
  | none =>
  perform (Call.Eventf pipelineRunCopied EventTypeNormal Started
    ("Started PipelineRun " ++ req.NamespacedName.String))
  -- requeue after 1 second
  return ({ RequeueAfter := 1 * Second }, none)

/-! ## Branch filter (`pkg/kapis/devops/v1alpha3/pipeline/branch_filter.go`) -/

/-- The pull request of a branch (`job.PullRequest` of the Jenkins client), of which the
filter reads the ID. -/
structure PullRequest where
  ID : String
  deriving DecidableEq, Repr

/-- The branch data of the Jenkins client (`job.Branch`); the filter does not read it. -/
structure JobBranch where
  URL : String
  deriving DecidableEq, Repr

/-- Go `pipeline.Cause`. -/
structure Cause where
  ShortDescription : String
  deriving DecidableEq, Repr

/-- Go `pipeline.LatestRun`. -/
structure LatestRun where
  Causes : List Cause
  EndTime : Time
  StartTime : Time
  ID : String
  Name : String
  Pipeline : String
  Result : String
  State : String
  deriving DecidableEq, Repr

set_option linter.dupNamespace false in
/-- Go `pipeline.Branch`: branch metadata with the optional pull request. -/
structure Branch where
  Name : String
  WeatherScore : Int := 0
  LatestRun : Option LatestRun := none
  Branch : Option JobBranch := none
  PullRequest : Option PullRequest := none
  deriving DecidableEq, Repr

/-- Go `job.PullRequestFilter`, with the value the unit test uses. -/
def PullRequestFilter : String := "pull-requests"

/-- Go `job.OriginFilter`, with the value the unit test uses. -/
def OriginFilter : String := "origin"

/-- Go `branchSlice.filter`: the loop appends the branches the predicate holds for; a nil
predicate selects nothing. -/
def branchSlice.filter (branches : List Branch) (predicate : Option (Branch → Bool)) :
    List Branch :=
  branches.foldl
    (fun resultBranches branch =>
      match predicate with
      | none => resultBranches
      | some p => if p branch then resultBranches ++ [branch] else resultBranches)
    []

/-- Go `filterBranches`. -/
def filterBranches (branches : List Branch) (filter : String) : List Branch :=
  let predicate : Option (Branch → Bool) :=
    if filter = PullRequestFilter then
      some (fun branch =>
        match branch.PullRequest with
        | none => false
        | some pullRequest => pullRequest.ID != "")
    else if filter = OriginFilter then
      some (fun branch =>
        match branch.PullRequest with
        | none => true
        | some pullRequest => pullRequest.ID == "")
    else some (fun _ => true)
  branchSlice.filter branches predicate

/-! ## Run creation (`pkg/kapis/devops/v1alpha4/util.go`) -/

/-- A parameter of a run payload (`devops.Parameter`): a name and a dynamic value of type
`V`.  The declaration is absent from the sources, so the type of the value is left open. -/
structure RunParameter (V : Type) where
  Name : String
  Value : V

/-- The payload of a run request (`devops.RunPayload`). -/
structure RunPayload (V : Type) where
  Parameters : List (RunParameter V)

/-- What `convertParameters` asks of a dynamic value: `isEmptyString v` is Go `v == ""`,
and `Sprint v` is Go `fmt.Sprint(v)`. -/
structure Dynamic (V : Type) where
  isEmptyString : V → Bool
  Sprint : V → String

/-- Go `append` on a slice that may be nil (`none`). -/
def sliceAppend {α : Type} (slice : Option (List α)) (item : α) : Option (List α) :=
  match slice with
  | none => some [item]
  | some items => some (items ++ [item])

/-- The items of a slice that may be nil. -/
def sliceItems {α : Type} (slice : Option (List α)) : List α :=
  match slice with
  | none => []
  | some items => items

/-- Go `convertParameters`; the result slice is nil (`none`) until a parameter is
appended. -/
def convertParameters {V : Type} (dyn : Dynamic V) (payload : Option (RunPayload V)) :
    Option (List Parameter) :=
  match payload with
  | none => none
  | some payload =>
      payload.Parameters.foldl
        (fun parameters parameter =>
          if parameter.Name = "" ∨ dyn.isEmptyString parameter.Value = true then parameters
          else sliceAppend parameters
            { Name := parameter.Name, Value := dyn.Sprint parameter.Value })
        none

/-- Go `getScm`; `Except.ok none` is the nil SCM with a nil error. -/
def getScm (ps : PipelineSpec) (branch : String) : Except Err (Option SCM) :=
  if ps.Type_ = MultiBranchPipelineType then
    if branch = "" then
      Except.error (errorf "missing branch name for running a multi-branch Pipeline")
    else Except.ok (some { RefName := branch, RefType := "" })
  else Except.ok none

/-- Go `getPipelineRef`, as far as the run controller reads the reference. -/
def getPipelineRef (pipeline : Pipeline) : ObjectReference :=
  { Name := pipeline.Name }

/-- Go `createPipelineRun`.  The record has no name yet (the store derives it from
`GenerateName`), no metadata and the zero status.  Modelled from the spec: the flag
`MultiBranch` stands for `IsMultiBranchPipeline` on the copied `PipelineSpec`, whose type
is the type of the parent, and a new run is buildable. -/
def createPipelineRun {V : Type} (dyn : Dynamic V) (pipeline : Pipeline)
    (payload : Option (RunPayload V)) (scm : Option SCM) : PipelineRun :=
  { Namespace := pipeline.Namespace, Name := "", Labels := none, Annotations := none,
    Finalizers := [], DeletionTimestamp := none, BuildableFlag := true,
    Spec := { PipelineRef := some (getPipelineRef pipeline),
              MultiBranch := decide (pipeline.Spec.Type_ = MultiBranchPipelineType),
              SCM := scm,
              Parameters := sliceItems (convertParameters dyn payload) },
    Status := { StartTime := none, UpdateTime := none, CompletionTime := none, Phase := "",
                Conditions := [] } }

/-! ## Jenkinsfile controller (`controllers/jenkins/pipeline/json_converter.go`) -/

/-- Modelled from the spec: the constant declarations of package `v1alpha3` are absent
from the sources; annotation key holding the Jenkinsfile in JSON format. -/
def PipelineJenkinsfileValueAnnoKey : String := "pipeline.devops.kubesphere.io/jenkinsfile"

/-- Modelled from the spec: annotation key holding the edit mode of the Jenkinsfile. -/
def PipelineJenkinsfileEditModeAnnoKey : String :=
  "pipeline.devops.kubesphere.io/jenkinsfile.edit.mode"

/-- Modelled from the spec: annotation key holding the result of the validation. -/
def PipelineJenkinsfileValidateAnnoKey : String :=
  "pipeline.devops.kubesphere.io/jenkinsfile.validate"

/-- Modelled from the spec: the validation result for a Jenkinsfile that does not
convert. -/
def PipelineJenkinsfileValidateFailure : String := "failure"

/-- Modelled from the spec: the validation result for a Jenkinsfile that converts. -/
def PipelineJenkinsfileValidateSuccess : String := "success"

/-- Go `m[k]` read as a value: the empty string when the key is missing or the map is
nil. -/
def mapIndex (m : Option StrMap) (k : String) : String :=
  (mapGet m k).getD ""

/-- Go `JenkinsfileReconciler.updateAnnotations`.  The three assignments write into the
annotation map of the pipeline just read; writing into a nil map is a run-time panic. -/
def updateAnnotations (annotations : Option StrMap) (pipelineKey : ObjectKey) :
    Prog GoError :=
  RetryOnConflict DefaultRetrySteps (do
    let res ← perform (Call.GetPipeline pipelineKey)
    match res with
    | Except.error err => return IgnoreNotFound (some err)
    | Except.ok pipeline =>
    if mapDeepEqual pipeline.Annotations annotations then
      return none
    else
    -- update annotations
    match pipeline.Annotations with
    | none => Prog.crash "assignment to entry in nil map"
    | some stored =>
    let stored := mapSet stored PipelineJenkinsfileValueAnnoKey
      (mapIndex annotations PipelineJenkinsfileValueAnnoKey)
    let stored := mapSet stored PipelineJenkinsfileEditModeAnnoKey
      (mapIndex annotations PipelineJenkinsfileEditModeAnnoKey)
    let stored := mapSet stored PipelineJenkinsfileValidateAnnoKey
      (mapIndex annotations PipelineJenkinsfileValidateAnnoKey)
    perform (Call.UpdatePipeline { pipeline with Annotations := some stored }))

/-- Go `JenkinsfileReconciler.reconcileJenkinsfileEditMode`.  It works on its own copy
`pip` of the pipeline, whose annotation map it creates when it is nil, and hands the
annotations of the copy to `updateAnnotations`. -/
def reconcileJenkinsfileEditMode (pip : Pipeline) (pipelineKey : ObjectKey) :
    Prog (Result × GoError) := do
  match pip.Spec.Pipeline with
  | none => Prog.crash "invalid memory address or nil pointer dereference"
  | some definition =>
  let jenkinsfile := definition.Jenkinsfile
  let annotations := makeIfNil pip.Annotations
  let invalid : Prog (Result × GoError) := do
    let annotations := mapSet annotations PipelineJenkinsfileValueAnnoKey ""
    let annotations := mapSet annotations PipelineJenkinsfileEditModeAnnoKey ""
    let annotations := mapSet annotations PipelineJenkinsfileValidateAnnoKey
      PipelineJenkinsfileValidateFailure
    let err ← updateAnnotations (some annotations) pipelineKey
    return ({}, err)
  let valid (toJsonJenkinsfile : String) : Prog (Result × GoError) := do
    let annotations := mapSet annotations PipelineJenkinsfileValueAnnoKey toJsonJenkinsfile
    let annotations := mapSet annotations PipelineJenkinsfileEditModeAnnoKey ""
    let annotations := mapSet annotations PipelineJenkinsfileValidateAnnoKey
      PipelineJenkinsfileValidateSuccess
    let err ← updateAnnotations (some annotations) pipelineKey
    return ({}, err)
  -- Users are able to clean jenkinsfile
  if jenkinsfile ≠ "" then
    let res ← perform (Call.ToJSON jenkinsfile)
    match res with
    | Except.error _ => invalid
    | Except.ok toJSONResult =>
    if toJSONResult.Status ≠ "success" then
      invalid
    else
    valid toJSONResult.Result
  else
  valid ""

/-! ## Reasoning about programs -/

/-- Property `p.all Q`: however the environment answers the calls of `p`, the calls made (with
their answers, in order) and the outcome satisfy `Q`. -/
def Prog.all {α : Type} : Prog α → (List Event → Outcome α → Prop) → Prop
  | Prog.ret a, Q => Q [] (Outcome.returned a)
  | Prog.crash m, Q => Q [] (Outcome.crashed m)
  | Prog.call c k, Q =>
      ∀ r : Resp c, (k r).all (fun tr o => Q ({ call := c, resp := r } :: tr) o)

/-- Property `p.safe good`: every call `p` makes, with the answer it gets, satisfies
`good`. -/
def Prog.safe {α : Type} (good : Event → Prop) (p : Prog α) : Prop :=
  p.all (fun tr _ => ∀ e ∈ tr, good e)

/-- Property `p.yields A R`: whenever every call of `p` is answered as `A` allows, `p` returns
(it does not crash) and the value returned satisfies `R`. -/
def Prog.yields {α : Type} (A : Event → Prop) (p : Prog α) (R : α → Prop) : Prop :=
  p.all (fun tr o => (∀ e ∈ tr, A e) → ∃ a, o = Outcome.returned a ∧ R a)

/-- The calls of a run, with their answers. -/
def trace {σ α : Type} (x : Outcome α × List Event × σ) : List Event := x.2.1

/-- The outcome of a run. -/
def outcome {σ α : Type} (x : Outcome α × List Event × σ) : Outcome α := x.1

/-- The state of the environment after a run. -/
def final {σ α : Type} (x : Outcome α × List Event × σ) : σ := x.2.2

/-- An answer of the right type for each call, used when a script has no answer left. -/
def Resp.fallback : (c : Call) → Resp c
  | Call.Get _ => Except.error (errorf "no answer")
  | Call.GetPipeline _ => Except.error (errorf "no answer")
  | Call.UpdatePipeline _ => none
  | Call.ToJSON _ => Except.error (errorf "no answer")
  | Call.Update _ => none
  | Call.StatusUpdate _ => none
  | Call.Delete _ => none
  | Call.List _ => Except.error (errorf "no answer")
  | Call.DeleteHistory _ _ => none
  | Call.Build _ => Except.error (errorf "no answer")
  | Call.GetBuild _ => Except.error (errorf "no answer")
  | Call.GetNodes _ => Except.error (errorf "no answer")
  | Call.Eventf _ _ _ _ => ()
  | Call.Now => (0 : Nat)

/-- The environment that answers from a script: each call takes the next scripted answer
when that answer is one for this call. -/
def scripted : Handler (List Event) := fun c script =>
  match script with
  | [] => (Resp.fallback c, [])
  | e :: rest => if h : e.call = c then (h ▸ e.resp, rest) else (Resp.fallback c, rest)

/-! ## What a cycle may call -/

/-- Whether a call is the Jenkins trigger. -/
def isBuild : Call → Bool
  | Call.Build _ => true
  | _ => false

/-- Whether a call is a write to the status subresource. -/
def isStatusUpdate : Call → Bool
  | Call.StatusUpdate _ => true
  | _ => false

/-- Whether a call writes to the record store. -/
def isStoreWrite : Call → Bool
  | Call.Update _ => true
  | Call.StatusUpdate _ => true
  | Call.Delete _ => true
  | _ => false

/-- Whether a call goes to the external build system. -/
def isJenkins : Call → Bool
  | Call.DeleteHistory _ _ => true
  | Call.Build _ => true
  | Call.GetBuild _ => true
  | Call.GetNodes _ => true
  | _ => false

/-- Whether a call is a write of a record's metadata. -/
def isUpdate : Call → Bool
  | Call.Update _ => true
  | _ => false

/-- Whether a call is a deletion of a record. -/
def isDelete : Call → Bool
  | Call.Delete _ => true
  | _ => false

/-- The record `Reconcile` writes in the cleanup branch: `pr` without the finalizer. -/
def withoutFinalizer (pr : PipelineRun) : PipelineRun :=
  { pr with
    Finalizers := RemoveString pr.Finalizers (fun item => item == PipelineRunFinalizerName) }

/-- Calls of the cleanup branch on the fetched record `pr`. -/
def mayDeleting (pr : PipelineRun) (c : Call) : Prop :=
  (∃ pipelineRef, pr.Spec.PipelineRef = some pipelineRef ∧ 0 ≤ getJenkinsBuildNumber pr ∧
    c = Call.DeleteHistory ("job/" ++ pr.Namespace ++ "/job/" ++ pipelineRef.Name)
      (getJenkinsBuildNumber pr)) ∨
  c = Call.Update (withoutFinalizer pr)

/-- Calls of the orphan branch on the fetched record `pr`. -/
def mayOrphan (pr : PipelineRun) (c : Call) : Prop :=
  c = Call.Get { Namespace := pr.Namespace, Name := pr.Name } ∨
  (∃ obj, c = Call.Update obj ∧ obj.Labels = (LabelAsAnOrphan pr).Labels ∧
    obj.Annotations = pr.Annotations ∧
    HasString obj.Finalizers PipelineRunFinalizerName = true) ∨
  c = Call.Now ∨
  (∃ obj, c = Call.StatusUpdate obj ∧ obj.Status = pr.Status)

/-- Calls of the polling branch on the fetched record `pr`. -/
def mayPolling (d : Deps) (req : Request) (pr : PipelineRun) (c : Call) : Prop :=
  (∃ option, c = Call.GetBuild option ∧ GetPipelineRunID pr = some option.RunID ∧
    getSCMRefName pr.Spec = Except.ok option.Branch) ∨
  (∃ option, c = Call.GetNodes option ∧ GetPipelineRunID pr = some option.RunID ∧
    getSCMRefName pr.Spec = Except.ok option.Branch) ∨
  (∃ obj eventtype reason message, c = Call.Eventf obj eventtype reason message) ∨
  c = Call.Get { Namespace := pr.Namespace, Name := pr.Name } ∨
  c = Call.Get req.NamespacedName ∨
  (∃ obj runResultJSON prNodesJSON, c = Call.Update obj ∧
    obj.Annotations = some (mapSet (mapSet (makeIfNil pr.Annotations)
      JenkinsPipelineRunStatusKey runResultJSON)
      JenkinsPipelineRunStagesStatusKey prNodesJSON) ∧
    HasString obj.Finalizers PipelineRunFinalizerName = true) ∨
  (∃ obj pipelineBuild, c = Call.StatusUpdate obj ∧
    obj.Status = d.apply pipelineBuild pr.Status)

/-- Calls of the first-run branch on the fetched record `pr`. -/
def mayNotStarted (req : Request) (pr : PipelineRun) (c : Call) : Prop :=
  (∃ option, c = Call.Build option) ∨
  (∃ obj eventtype reason message, c = Call.Eventf obj eventtype reason message) ∨
  (∃ opts, c = Call.List opts) ∨
  c = Call.Get req.NamespacedName ∨
  (∃ obj, c = Call.Delete obj) ∨
  c = Call.Get { Namespace := pr.Namespace, Name := pr.Name } ∨
  (∃ obj runID, c = Call.Update obj ∧
    obj.Annotations = some (mapSet (makeIfNil pr.Annotations) JenkinsPipelineRunIDKey runID) ∧
    HasString obj.Finalizers PipelineRunFinalizerName = true) ∨
  c = Call.Now ∨
  (∃ obj startTime updateTime, c = Call.StatusUpdate obj ∧
    obj.Status = { pr.Status with StartTime := some startTime, UpdateTime := some updateTime })

/-- Calls a cycle may make once it has fetched the record `pr`, by the branch that `pr`
selects. -/
def reconcileMay (d : Deps) (req : Request) (pr : PipelineRun) (c : Call) : Prop :=
  if IsZero pr.DeletionTimestamp = false then mayDeleting pr c
  else if Buildable pr = false then False
  else
    match pr.Spec.PipelineRef with
    | none => mayOrphan pr c
    | some pipelineRef =>
        if pipelineRef.Name = "" then mayOrphan pr c
        else
          c = Call.GetPipeline { Namespace := pr.Namespace, Name := pipelineRef.Name } ∨
          (if HasStarted pr = true then mayPolling d req pr c else mayNotStarted req pr c)

/-! ## Notions used in the statements -/

/-- Whether a recorded run identifier is a valid build number: `strconv.Atoi` reads it
as a non-negative `int`. -/
def validBuildNumber (runID : String) : Bool :=
  match Atoi runID with
  | Except.ok num => decide (0 ≤ num)
  | Except.error _ => false

/-- The name of the Jenkins job of a record with parent reference `pipelineRef`. -/
def jobNameOf (pr : PipelineRun) (pipelineRef : ObjectReference) : String :=
  "job/" ++ pr.Namespace ++ "/job/" ++ pipelineRef.Name

/-- The text of the error `deleteJenkinsJobHistory` returns for a failed deletion. -/
def deleteFailedMessage (jobName : String) (buildNum : Int) (err : Err) : String :=
  "failed to delete Jenkins job: " ++ jobName ++ ", build: " ++ toString buildNum ++
    ", error: " ++ err.msg

/-- Whether a text is an integer text: an optional sign, then one or more decimal
digits. -/
def isIntegerText (s : String) : Bool :=
  let digits : List Char :=
    match s.data with
    | '-' :: r => r
    | '+' :: r => r
    | cs => cs
  !digits.isEmpty && digits.all (fun c => decide ('0' ≤ c ∧ c ≤ '9'))

/-- Whether a call was answered with an error. -/
def failed (e : Event) : Bool :=
  match e with
  | Event.mk (Call.Get _) (Except.error _) => true
  | Event.mk (Call.GetPipeline _) (Except.error _) => true
  | Event.mk (Call.UpdatePipeline _) (some _) => true
  | Event.mk (Call.ToJSON _) (Except.error _) => true
  | Event.mk (Call.Update _) (some _) => true
  | Event.mk (Call.StatusUpdate _) (some _) => true
  | Event.mk (Call.Delete _) (some _) => true
  | Event.mk (Call.List _) (Except.error _) => true
  | Event.mk (Call.DeleteHistory _ _) (some _) => true
  | Event.mk (Call.Build _) (Except.error _) => true
  | Event.mk (Call.GetBuild _) (Except.error _) => true
  | Event.mk (Call.GetNodes _) (Except.error _) => true
  | _ => false

/-- Repeated reconciliation: `n` cycles for the same request, each run from the state the
one before left; for each cycle its outcome and its calls. -/
def reconcileCycles {σ : Type} (h : Handler σ) (d : Deps) (req : Request) :
    Nat → σ → List (Outcome (Result × GoError) × List Event)
  | 0, _ => []
  | n + 1, s =>
      (outcome (exec h (Reconcile d req) s), trace (exec h (Reconcile d req) s)) ::
        reconcileCycles h d req n (final (exec h (Reconcile d req) s))

/-- The listings of a run: for each `List` call that was answered with records, its
options and the records. -/
def listings (tr : List Event) : List (List ListOption × List PipelineRun) :=
  tr.filterMap (fun e =>
    match e with
    | Event.mk (Call.List opts) (Except.ok items) => some (opts, items)
    | _ => none)

/-- Two first reconciliations one after the other: the cycle for `reqA` runs to its end,
then the cycle for `reqB` runs from the state the first one left; the outcomes, the calls
of both cycles and the final state. -/
def reconcileBoth {σ : Type} (h : Handler σ) (d : Deps) (reqA reqB : Request) (s : σ) :
    (Outcome (Result × GoError) × Outcome (Result × GoError)) × List Event × σ :=
  let first := exec h (Reconcile d reqA) s
  let second := exec h (Reconcile d reqB) (final first)
  ((outcome first, outcome second), trace first ++ trace second, final second)

/-- Property of the calls of a run: every status write is issued on a record as a read of
the same run returned it, with only the status replaced. -/
def statusWritesFollowReads (tr : List Event) : Prop :=
  ∀ obj ans, Event.mk (Call.StatusUpdate obj) ans ∈ tr →
    ∃ key cur, Event.mk (Call.Get key) (Except.ok cur) ∈ tr ∧
      obj = { cur with Status := obj.Status }

/-- Whether a stored record is one the dedup guard looks for: it lies in the namespace of
the parent pipeline and carries the parent name and the run identifier of `jobRun` as
labels and, for a multi-branch parent, the branch of `jobRun` as the branch label. -/
def carriesRunLabels (jobRun : JobRun) (pipeline : Pipeline) (run : PipelineRun) : Prop :=
  run.Namespace = pipeline.Namespace ∧
  mapGet run.Labels PipelineNameLabelKey = some pipeline.Name ∧
  mapGet run.Labels JenkinsPipelineRunIDKey = some jobRun.ID ∧
  (pipeline.Spec.Type_ = MultiBranchPipelineType →
    mapGet run.Labels SCMRefNameLabelKey = some jobRun.Pipeline)

/-- The list options `hasSamePendingPipelineRun` hands to the store's listing: the
namespace of the parent pipeline, a label selector for the parent name, a label selector
for the run identifier and, for a multi-branch parent, a label selector for the branch the
run reports. -/
def dedupListOptions (jobRun : JobRun) (pipeline : Pipeline) : List ListOption :=
  if pipeline.Spec.Type_ = MultiBranchPipelineType then
    [ListOption.InNamespace pipeline.Namespace,
      ListOption.MatchingLabels [(PipelineNameLabelKey, pipeline.Name)],
      ListOption.MatchingLabels [(JenkinsPipelineRunIDKey, jobRun.ID)]] ++
      [ListOption.MatchingLabels [(SCMRefNameLabelKey, jobRun.Pipeline)]]
  else
    [ListOption.InNamespace pipeline.Namespace,
      ListOption.MatchingLabels [(PipelineNameLabelKey, pipeline.Name)],
      ListOption.MatchingLabels [(JenkinsPipelineRunIDKey, jobRun.ID)]]

/-- Whether a result asks the scheduler for another cycle. -/
def requestsRequeue (res : Result) : Bool :=
  res.Requeue || decide (0 < res.RequeueAfter)

/-! ## A model of the collaborators

The record store keeps the PipelineRuns under their namespace and name and applies each
write it accepts; it is written by the controller alone, so no write is rejected as a
conflict.  The parent pipelines, the answers of Jenkins and the way a listing is drawn
from the stored records are given with the world. -/

/-- The store, the answers of Jenkins and the clock.  The field `list` draws a listing from
the stored records and the list options; `toJSON` is the Jenkins converter, which by
default accepts every Jenkinsfile. -/
structure World where
  runs : List PipelineRun
  pipelines : List Pipeline
  list : List PipelineRun → List ListOption → Except Err (List PipelineRun)
  build : BuildOption → Except Err JobRun
  getBuild : GetBuildOption → Except Err JobRun
  getNodes : GetNodesOption → Except Err (List Node)
  deleteHistory : String → Int → GoError
  clock : Time
  toJSON : String → Except Err GenericResult :=
    fun jenkinsfile => Except.ok { Status := "success", Result := jenkinsfile }

/-- The key of a record. -/
def keyOf (pr : PipelineRun) : ObjectKey :=
  { Namespace := pr.Namespace, Name := pr.Name }

/-- Whether a record is stored under a key. -/
def sameKey (key : ObjectKey) (pr : PipelineRun) : Bool :=
  pr.Namespace == key.Namespace && pr.Name == key.Name

/-- The record stored under a key. -/
def World.getRun (w : World) (key : ObjectKey) : Option PipelineRun :=
  w.runs.find? (sameKey key)

/-- The parent pipeline stored under a key. -/
def World.getPipeline (w : World) (key : ObjectKey) : Option Pipeline :=
  w.pipelines.find? (fun p => p.Namespace == key.Namespace && p.Name == key.Name)

/-- The store's answer for a missing record. -/
def notFound (key : ObjectKey) : Err :=
  { kind := ErrKind.notFound, msg := "\"" ++ key.Name ++ "\" not found" }

/-- The store with the record under the key of `new` replaced by `new`. -/
def World.replace (w : World) (new : PipelineRun) : World :=
  { w with runs := w.runs.map (fun pr => if sameKey (keyOf new) pr then new else pr) }

/-- The store without the record under `key`. -/
def World.remove (w : World) (key : ObjectKey) : World :=
  { w with runs := w.runs.filter (fun pr => !sameKey key pr) }

/-- How the world answers a call.  `Update` replaces everything but the status and the
deletion marker, and removes a record that is marked for deletion once it has no
finalizer left; `StatusUpdate` replaces the status; `Delete` removes a record without
finalizers and marks any other for deletion; `UpdatePipeline` replaces the stored
pipeline. -/
def World.handle : Handler World := fun c w =>
  match c with
  | Call.Get key =>
      match w.getRun key with
      | some pr => (Except.ok pr, w)
      | none => (Except.error (notFound key), w)
  | Call.GetPipeline key =>
      match w.getPipeline key with
      | some p => (Except.ok p, w)
      | none => (Except.error (notFound key), w)
  | Call.UpdatePipeline obj =>
      match w.getPipeline { Namespace := obj.Namespace, Name := obj.Name } with
      | none => (some (notFound { Namespace := obj.Namespace, Name := obj.Name }), w)
      | some _ =>
          (none, { w with pipelines := w.pipelines.map (fun p =>
            if p.Namespace == obj.Namespace && p.Name == obj.Name then obj else p) })
  | Call.ToJSON jenkinsfile => (w.toJSON jenkinsfile, w)
  | Call.Update obj =>
      match w.getRun (keyOf obj) with
      | none => (some (notFound (keyOf obj)), w)
      | some cur =>
          let new := { obj with Status := cur.Status, DeletionTimestamp := cur.DeletionTimestamp }
          if !IsZero cur.DeletionTimestamp && new.Finalizers.isEmpty then
            (none, w.remove (keyOf obj))
          else (none, w.replace new)
  | Call.StatusUpdate obj =>
      match w.getRun (keyOf obj) with
      | none => (some (notFound (keyOf obj)), w)
      | some cur => (none, w.replace { cur with Status := obj.Status })
  | Call.Delete obj =>
      match w.getRun (keyOf obj) with
      | none => (some (notFound (keyOf obj)), w)
      | some cur =>
          if cur.Finalizers.isEmpty then (none, w.remove (keyOf obj))
          else if IsZero cur.DeletionTimestamp then
            (none, w.replace { cur with DeletionTimestamp := some (w.clock + 1) })
          else (none, w)
  | Call.List opts => (w.list w.runs opts, w)
  | Call.DeleteHistory jobName buildNum => (w.deleteHistory jobName buildNum, w)
  | Call.Build option => (w.build option, w)
  | Call.GetBuild option => (w.getBuild option, w)
  | Call.GetNodes option => (w.getNodes option, w)
  | Call.Eventf _ _ _ _ => ((), w)
  | Call.Now => (w.clock, { w with clock := w.clock + 1 })

/-- The store's answer to a write of a record that has changed since it was read. -/
def conflict (key : ObjectKey) : Err :=
  { kind := ErrKind.conflict,
    msg := "Operation cannot be fulfilled on pipelineruns \"" ++ key.Name ++
      "\": the object has been modified; please apply your changes to the latest version " ++
      "and try again" }

/-- The world with one write conflict ahead: while the flag is set, the next write of a
record or of its status is rejected as a conflict and clears the flag; every other call,
and every later write, is answered as in the world. -/
def World.handleConflictOnce : Handler (World × Bool) := fun c s =>
  match c with
  | Call.Update obj =>
      if s.2 then (some (conflict (keyOf obj)), (s.1, false))
      else ((World.handle (Call.Update obj) s.1).1,
        ((World.handle (Call.Update obj) s.1).2, false))
  | Call.StatusUpdate obj =>
      if s.2 then (some (conflict (keyOf obj)), (s.1, false))
      else ((World.handle (Call.StatusUpdate obj) s.1).1,
        ((World.handle (Call.StatusUpdate obj) s.1).2, false))
  | c => ((World.handle c s.1).1, ((World.handle c s.1).2, s.2))

/-- The world with a deletion request ahead: while the flag is set, the next successful
read of a record is followed at once by a request to delete that record, which the store
handles as a `Delete` and which clears the flag; every other call is answered as in the
world. -/
def World.handleDeleteRequested : Handler (World × Bool) := fun c s =>
  match c with
  | Call.Get key =>
      match s.1.getRun key with
      | some pr =>
          if s.2 then (Except.ok pr, ((World.handle (Call.Delete pr) s.1).2, false))
          else (Except.ok pr, s)
      | none => (Except.error (notFound key), s)
  | c => ((World.handle c s.1).1, ((World.handle c s.1).2, s.2))

/-- Whether a record satisfies one list option: it lies in the namespace, or it carries
every label of the selector with the value asked for. -/
def matchesOption (pr : PipelineRun) : ListOption → Bool
  | ListOption.InNamespace ns => pr.Namespace == ns
  | ListOption.MatchingLabels m => m.all (fun p => mapGet pr.Labels p.1 == some p.2)

/-- Modelled from the spec: the store is outside the sources; its listing gives the stored
records that share all the labels asked for, so every list option restricts the result. -/
def selectRuns (runs : List PipelineRun) (opts : List ListOption) : List PipelineRun :=
  runs.filter (fun pr => opts.all (matchesOption pr))

/-- The label selector a listing keeps when each `MatchingLabels` option replaces the one
before it: the last one among the options, if any. -/
def lastSelector (opts : List ListOption) : Option StrMap :=
  opts.foldl (fun sel opt =>
    match opt with
    | ListOption.MatchingLabels m => some m
    | ListOption.InNamespace _ => sel) none

/-- The listing of a store in which repeated `MatchingLabels` options replace one another:
the stored records in the namespaces asked for that carry the labels of the last
selector. -/
def selectRunsLastSelector (runs : List PipelineRun) (opts : List ListOption) :
    List PipelineRun :=
  runs.filter (fun pr =>
    opts.all (fun opt =>
      match opt with
      | ListOption.InNamespace ns => pr.Namespace == ns
      | ListOption.MatchingLabels _ => true) &&
    match lastSelector opts with
    | some m => matchesOption pr (ListOption.MatchingLabels m)
    | none => true)

/-! ## Notions used in the finalizer statements -/

/-- Whether a call is a metadata write of a record that carries the finalizer. -/
def writesFinalizer : Call → Bool
  | Call.Update obj => HasString obj.Finalizers PipelineRunFinalizerName
  | _ => false

/-- Property of the calls of a run: once a call of the kind `first` is made, no call of
the kind `later` follows. -/
def noneAfter (first later : Call → Bool) (tr : List Event) : Prop :=
  ∀ pre e post, tr = pre ++ e :: post → first e.call = true →
    ∀ e' ∈ post, later e'.call = false

/-- Whether a call is a metadata write, a deletion or a call to the external build
system. -/
def isUpdateDeleteOrJenkins (c : Call) : Bool :=
  isUpdate c || isDelete c || isJenkins c

/-- The state an environment is in after it has answered the calls of `tr` from the state
`s`. -/
def replay {σ : Type} (h : Handler σ) (tr : List Event) (s : σ) : σ :=
  tr.foldl (fun s e => (h e.call s).2) s

/-- Whether the record stored under `key` carries the finalizer. -/
def World.holdsFinalizer (w : World) (key : ObjectKey) : Prop :=
  ∃ stored, w.getRun key = some stored ∧
    HasString stored.Finalizers PipelineRunFinalizerName = true

/-! ## Sample data -/

/-- A status with nothing set. -/
def emptyStatus : PipelineRunStatus :=
  { StartTime := none, UpdateTime := none, CompletionTime := none, Phase := "", Conditions := [] }

/-- The PipelineRun `project1/run-a` of the pipeline `build-a`: buildable, not started. -/
def freshRun : PipelineRun :=
  { Namespace := "project1", Name := "run-a", Labels := none, Annotations := none,
    Finalizers := [], DeletionTimestamp := none, BuildableFlag := true,
    Spec := { PipelineRef := some { Name := "build-a" }, MultiBranch := false, SCM := none,
              Parameters := [] },
    Status := emptyStatus }

/-- The run `freshRun` with the run identifier `42` recorded. -/
def startedRun : PipelineRun :=
  { freshRun with
    Annotations := some [(JenkinsPipelineRunIDKey, "42")],
    Finalizers := [PipelineRunFinalizerName] }

/-- The pipeline `project1/build-a`. -/
def buildA : Pipeline :=
  { Namespace := "project1", Name := "build-a", Spec := { Type_ := "pipeline" } }

/-- The request for `project1/run-a`. -/
def requestA : Request :=
  { NamespacedName := { Namespace := "project1", Name := "run-a" } }

/-- The run Jenkins reports for `build-a`. -/
def run42 : JobRun :=
  { ID := "42", Pipeline := "build-a", State := "FINISHED", Result := "SUCCESS" }

/-- A status projector that copies nothing, a parameter converter that keeps names and
values, and encoders that write the run identifier and the number of stages. -/
def sampleDeps : Deps :=
  { apply := fun _ status => status,
    convert := fun ps => ps.map (fun p => { Name := p.Name, Value := p.Value }),
    encodeRun := fun b => b.ID,
    encodeNodes := fun ns => toString ns.length }

/-- A world that stores the given runs and the pipeline `build-a`, in which every listing
is empty and Jenkins answers every trigger and query with `run42`, every stage query with
no stages and every deletion with success. -/
def sampleWorld (runs : List PipelineRun) : World :=
  { runs := runs,
    pipelines := [buildA],
    list := fun _ _ => Except.ok [],
    build := fun _ => Except.ok run42,
    getBuild := fun _ => Except.ok run42,
    getNodes := fun _ => Except.ok [],
    deleteHistory := fun _ _ => none,
    clock := 100 }

/-- The record `startedRun` with build number `2`, marked for deletion and without parent
reference. -/
def deletingRunWithoutRef : PipelineRun :=
  { startedRun with
    Annotations := some [(JenkinsPipelineRunIDKey, "2")],
    DeletionTimestamp := some 50,
    Spec := { PipelineRef := none, MultiBranch := false, SCM := none, Parameters := [] } }

/-- The record `startedRun` with build number `2`, marked for deletion. -/
def deletingRun : PipelineRun :=
  { startedRun with
    Annotations := some [(JenkinsPipelineRunIDKey, "2")],
    DeletionTimestamp := some 50 }

/-- The empty PipelineRun, Go `&v1alpha3.PipelineRun{}`. -/
def emptyPipelineRun : PipelineRun :=
  { Namespace := "", Name := "", Labels := none, Annotations := none, Finalizers := [],
    DeletionTimestamp := none, BuildableFlag := true,
    Spec := { PipelineRef := none, MultiBranch := false, SCM := none, Parameters := [] },
    Status := emptyStatus }

/-- The PipelineRun of the handler tests: namespace `project1`, build number `2`, parent
`testPipeline`. -/
def testRun : PipelineRun :=
  { emptyPipelineRun with
    Namespace := "project1",
    Annotations := some [(JenkinsPipelineRunIDKey, "2")],
    Spec := { PipelineRef := some { Name := "testPipeline" }, MultiBranch := false,
              SCM := none, Parameters := [] } }

/-- A PipelineRun whose recorded run identifier is the decimal text of `2 ^ 63`. -/
def overflowRun : PipelineRun :=
  { emptyPipelineRun with
    Annotations := some [(JenkinsPipelineRunIDKey, "9223372036854775808")] }

/-- A PipelineRun whose recorded run identifier is `a`. -/
def invalidRun : PipelineRun :=
  { emptyPipelineRun with Annotations := some [(JenkinsPipelineRunIDKey, "a")] }

/-- The record `freshRun` without parent reference. -/
def orphanRun : PipelineRun :=
  { freshRun with
    Spec := { PipelineRef := none, MultiBranch := false, SCM := none, Parameters := [] } }

/-- The record `freshRun` with the policy flag off: it is not buildable. -/
def blockedRun : PipelineRun :=
  { freshRun with BuildableFlag := false }

/-- The sample world without any parent pipeline. -/
def worldWithoutParent (runs : List PipelineRun) : World :=
  { sampleWorld runs with pipelines := [] }

/-- The record `freshRun` as a run of a multi-branch pipeline, without SCM reference. -/
def multiBranchRun : PipelineRun :=
  { freshRun with
    Spec := { PipelineRef := some { Name := "build-a" }, MultiBranch := true, SCM := none,
              Parameters := [] } }

/-- A multi-branch spec with the SCM reference `main`. -/
def multiBranchSpec : PipelineRunSpec :=
  { PipelineRef := some { Name := "build-a" }, MultiBranch := true,
    SCM := some { RefName := "main" }, Parameters := [] }

/-- A spec that is not multi-branch and has the SCM reference `main`. -/
def plainSpecWithRef : PipelineRunSpec :=
  { PipelineRef := some { Name := "build-a" }, MultiBranch := false,
    SCM := some { RefName := "main" }, Parameters := [] }

/-- A world like `sampleWorld` whose listings are the stored records that satisfy every
list option. -/
def storeWorld (runs : List PipelineRun) : World :=
  { sampleWorld runs with list := fun stored opts => Except.ok (selectRuns stored opts) }

/-- A world like `sampleWorld` whose listings keep only the last label selector. -/
def lastSelectorWorld (runs : List PipelineRun) : World :=
  { sampleWorld runs with
    list := fun stored opts => Except.ok (selectRunsLastSelector stored opts) }

/-- The record `project1/run-b` of the pipeline `build-a`, carrying the parent name and
the run identifier `42` as labels. -/
def rivalRun : PipelineRun :=
  { freshRun with
    Name := "run-b",
    Labels := some [(PipelineNameLabelKey, "build-a"), (JenkinsPipelineRunIDKey, "42")] }

/-- The record `project1/run-b`, equivalent to `freshRun`: same parent, no branch, no
parameters, not started. -/
def freshRunB : PipelineRun :=
  { freshRun with Name := "run-b" }

/-- The request for `project1/run-b`. -/
def requestB : Request :=
  { NamespacedName := { Namespace := "project1", Name := "run-b" } }

/-- A status with the phase `Running` and nothing else set. -/
def runningStatus : PipelineRunStatus :=
  { emptyStatus with Phase := "Running" }

/-- Deps like `sampleDeps` whose status projector copies the state of the run into the
phase. -/
def phaseDeps : Deps :=
  { sampleDeps with
    apply := fun pipelineBuild status => { status with Phase := pipelineBuild.State } }

/-- The record `startedRun` as a polling cycle with `run42` leaves its metadata: the parent
name as a label, the serialized run and stages as annotations. -/
def polledRun : PipelineRun :=
  { startedRun with
    Labels := some [(PipelineNameLabelKey, "build-a")],
    Annotations := some [(JenkinsPipelineRunStagesStatusKey, "0"),
      (JenkinsPipelineRunStatusKey, "42"), (JenkinsPipelineRunIDKey, "42")] }

/-- The record `freshRun` with the finalizer in place. -/
def finalizedRun : PipelineRun :=
  { freshRun with Finalizers := [PipelineRunFinalizerName] }

/-- The sample world with a Jenkins that rejects every trigger. -/
def failingJenkinsWorld (runs : List PipelineRun) : World :=
  { sampleWorld runs with build := fun _ => Except.error (errorf "connection refused") }

/-- The branches of the unit test: `main1` without pull request, `main2` with an empty
pull request, `PR1` with the pull request `1`. -/
def testBranches : List Branch :=
  [{ Name := "main1" }, { Name := "main2", PullRequest := some { ID := "" } },
   { Name := "PR1", PullRequest := some { ID := "1" } }]

/-- Dynamic values that are nil or a string: `nil == ""` is false and `fmt.Sprint(nil)` is
`<nil>`. -/
def stringOrNil : Dynamic (Option String) :=
  { isEmptyString := fun v => v == some "",
    Sprint := fun v =>
      match v with
      | none => "<nil>"
      | some s => s }

/-- A payload with four parameters: one without name, one with the empty string as
value, one with a string value and one with a nil value. -/
def samplePayload : RunPayload (Option String) :=
  { Parameters := [{ Name := "", Value := some "x" }, { Name := "empty", Value := some "" },
      { Name := "branch", Value := some "main" }, { Name := "tag", Value := none }] }

/-- The multi-branch pipeline `project1/build-mb`. -/
def buildMB : Pipeline :=
  { Namespace := "project1", Name := "build-mb", Spec := { Type_ := MultiBranchPipelineType } }

/-- The pipeline `project1/build-a` with an inline Jenkinsfile and no annotations, as a
pipeline created without annotations is stored. -/
def jenkinsfilePipeline : Pipeline :=
  { Namespace := "project1", Name := "build-a",
    Spec := { Type_ := "pipeline", Pipeline := some { Jenkinsfile := "pipeline { }" } } }

/-- The pipeline `jenkinsfilePipeline` with an empty, non-nil annotation map. -/
def annotatedPipeline : Pipeline :=
  { jenkinsfilePipeline with Annotations := some [] }

/-- The key of the pipeline `project1/build-a`. -/
def pipelineKeyA : ObjectKey :=
  { Namespace := "project1", Name := "build-a" }

/-- The sample world with the given pipelines and no run. -/
def pipelineWorld (pipelines : List Pipeline) : World :=
  { sampleWorld [] with pipelines := pipelines }

/-- The three Jenkinsfile annotations of a pipeline whose Jenkinsfile converts to the text
`json`. -/
def convertedAnnotations (json : String) : StrMap :=
  [(PipelineJenkinsfileValidateAnnoKey, PipelineJenkinsfileValidateSuccess),
   (PipelineJenkinsfileEditModeAnnoKey, ""), (PipelineJenkinsfileValueAnnoKey, json)]

/-- The record `project1/run-c` that carries the run identifier `42` as a label and no
parent name. -/
def strayRun : PipelineRun :=
  { freshRun with Name := "run-c", Labels := some [(JenkinsPipelineRunIDKey, "42")] }

/-! ## Theorems -/

theorem Prog.all_mono {α : Type} {p : Prog α} :
    ∀ {Q Q' : List Event → Outcome α → Prop}, p.all Q → (∀ tr o, Q tr o → Q' tr o) →
      p.all Q' := by
  induction p with
  | ret a => intro Q Q' hp hQ; exact hQ _ _ hp
  | crash m => intro Q Q' hp hQ; exact hQ _ _ hp
  | call c k ih =>
      intro Q Q' hp hQ r
      exact ih r (hp r) (fun tr o hq => hQ _ _ hq)

theorem Prog.all_of_forall {α : Type} (p : Prog α) :
    ∀ {Q : List Event → Outcome α → Prop}, (∀ tr o, Q tr o) → p.all Q := by
  induction p with
  | ret a => intro Q hQ; exact hQ _ _
  | crash m => intro Q hQ; exact hQ _ _
  | call c k ih => intro Q hQ r; exact ih r (fun tr o => hQ _ _)

theorem Prog.all_bind {α β : Type} (p : Prog α) (f : α → Prog β) :
    ∀ (Q : List Event → Outcome β → Prop),
      (p.bind f).all Q ↔
        p.all (fun tr o =>
          match o with
          | Outcome.returned a => (f a).all (fun tr' o' => Q (tr ++ tr') o')
          | Outcome.crashed m => Q tr (Outcome.crashed m)) := by
  induction p with
  | ret a => intro Q; simp [Prog.bind, Prog.all]
  | crash m => intro Q; simp [Prog.bind, Prog.all]
  | call c k ih =>
      intro Q
      simp only [Prog.bind, Prog.all]
      refine forall_congr' (fun r => ?_)
      rw [ih r]
      exact Iff.rfl

/-- Soundness of `Prog.all` for runs in any environment. -/
theorem exec_of_all {σ α : Type} (p : Prog α) :
    ∀ (Q : List Event → Outcome α → Prop), p.all Q →
      ∀ (h : Handler σ) (s : σ), Q (trace (exec h p s)) (outcome (exec h p s)) := by
  induction p with
  | ret a => intro Q hp h s; exact hp
  | crash m => intro Q hp h s; exact hp
  | call c k ih =>
      intro Q hp h s
      exact ih (h c s).1 _ (hp (h c s).1) h (h c s).2

/-- Every way of answering the calls of a program is the run in some environment: what
holds of the runs in the scripted environments holds however the calls are answered. -/
theorem all_of_exec_scripted {α : Type} (p : Prog α) :
    ∀ (Q : List Event → Outcome α → Prop),
      (∀ script : List Event,
        Q (trace (exec scripted p script)) (outcome (exec scripted p script))) →
      p.all Q := by
  induction p with
  | ret a => intro Q hQ; exact hQ []
  | crash m => intro Q hQ; exact hQ []
  | call c k ih =>
      intro Q hQ r
      refine ih r _ (fun script => ?_)
      have h := hQ (Event.mk c r :: script)
      simpa [exec, scripted, trace, outcome] using h

/-- Quantifying over the environments is quantifying over all answers: a property holds
of the runs of a program in every environment exactly when it holds however the calls
are answered. -/
theorem all_iff_exec {α : Type} (p : Prog α) (Q : List Event → Outcome α → Prop) :
    p.all Q ↔
      ∀ (σ : Type) (h : Handler σ) (s : σ),
        Q (trace (exec h p s)) (outcome (exec h p s)) :=
  ⟨fun hp _ h s => exec_of_all p Q hp h s,
    fun hall => all_of_exec_scripted p Q (fun script => hall _ scripted script)⟩

/-- Run of a sequence: the first part runs, and when it returns the rest runs from the
state it left. -/
theorem exec_bind {σ α β : Type} (h : Handler σ) (p : Prog α) (f : α → Prog β) :
    ∀ s : σ, exec h (p.bind f) s =
      match exec h p s with
      | (Outcome.returned a, tr, s') =>
          ((exec h (f a) s').1, tr ++ (exec h (f a) s').2.1, (exec h (f a) s').2.2)
      | (Outcome.crashed m, tr, s') => (Outcome.crashed m, tr, s') := by
  induction p with
  | ret a => intro s; simp [Prog.bind, exec]
  | crash m => intro s; simp [Prog.bind, exec]
  | call c k ih =>
      intro s
      simp only [Prog.bind, exec]
      rw [ih]
      split <;> simp_all

theorem Prog.safe_pure {α : Type} (good : Event → Prop) (a : α) :
    (pure a : Prog α).safe good := by
  simp [Prog.safe, Prog.all, pure]

theorem Prog.safe_crash {α : Type} (good : Event → Prop) (m : String) :
    (Prog.crash m : Prog α).safe good := by
  simp [Prog.safe, Prog.all]

theorem Prog.safe_perform (good : Event → Prop) (c : Call) :
    (perform c).safe good ↔ ∀ r : Resp c, good (Event.mk (c) r) := by
  simp [Prog.safe, Prog.all, perform]

theorem Prog.safe_bind {α β : Type} {good : Event → Prop} {p : Prog α} {f : α → Prog β}
    (hp : p.safe good) (hf : ∀ a, (f a).safe good) : (p >>= f).safe good := by
  show (p.bind f).all _
  rw [Prog.all_bind]
  refine Prog.all_mono hp (fun tr o htr => ?_)
  cases o with
  | returned a =>
      refine Prog.all_mono (hf a) (fun tr' o' htr' e he => ?_)
      rcases List.mem_append.1 he with h1 | h1
      · exact htr e h1
      · exact htr' e h1
  | crashed m => exact htr

theorem Prog.safe_mono {α : Type} {good good' : Event → Prop} {p : Prog α}
    (hp : p.safe good) (hg : ∀ e, good e → good' e) : p.safe good' :=
  Prog.all_mono hp (fun _ _ htr e he => hg e (htr e he))

theorem Prog.all_perform_bind {α : Type} (c : Call) (f : Resp c → Prog α)
    (Q : List Event → Outcome α → Prop) :
    (perform c >>= f).all Q ↔
      ∀ r : Resp c, (f r).all (fun tr o => Q ((Event.mk (c) r) :: tr) o) :=
  Iff.rfl

theorem Prog.safe_perform_bind {α : Type} {good : Event → Prop} {c : Call}
    {f : Resp c → Prog α} (hc : ∀ r : Resp c, good (Event.mk (c) r))
    (hf : ∀ r, (f r).safe good) : (perform c >>= f).safe good :=
  Prog.safe_bind ((Prog.safe_perform good c).2 hc) hf

theorem safe_RetryOnConflict {good : Event → Prop} {fn : Prog GoError} (h : fn.safe good) :
    ∀ n, (RetryOnConflict n fn).safe good
  | 0 => Prog.safe_pure good none
  | 1 => h
  | n + 2 => by
      rw [RetryOnConflict]
      refine Prog.safe_bind h (fun err => ?_)
      cases err with
      | none => exact Prog.safe_pure good none
      | some e =>
          dsimp only
          split
          · exact safe_RetryOnConflict h (n + 1)
          · exact Prog.safe_pure good (some e)

/-- The calls of `updateStatus`: reads of the record and status writes of the desired
status. -/
theorem safe_updateStatus {good : Event → Prop} (desiredStatus : PipelineRunStatus)
    (prKey : ObjectKey)
    (hget : ∀ r, good (Event.mk (Call.Get prKey) r))
    (hupd : ∀ obj r, obj.Status = desiredStatus →
      good (Event.mk (Call.StatusUpdate obj) r)) :
    (updateStatus desiredStatus prKey).safe good := by
  unfold updateStatus
  refine safe_RetryOnConflict ?_ _
  refine Prog.safe_perform_bind hget (fun res => ?_)
  cases res with
  | error err => exact Prog.safe_pure good _
  | ok prToUpdate =>
      dsimp only
      split
      · exact Prog.safe_pure good _
      · exact (Prog.safe_perform good _).2 (fun r => hupd _ r rfl)

/-- The calls of `updateLabelsAndAnnotations`: a read of the record and a write that
carries the labels and annotations handed in, with the finalizer present. -/
theorem safe_updateLabelsAndAnnotations {good : Event → Prop} (pr : PipelineRun)
    (hget : ∀ r, good (Event.mk (Call.Get { Namespace := pr.Namespace, Name := pr.Name }) r))
    (hupd : ∀ obj r, obj.Labels = pr.Labels → obj.Annotations = pr.Annotations →
      HasString obj.Finalizers PipelineRunFinalizerName = true →
      good (Event.mk (Call.Update obj) r)) :
    (updateLabelsAndAnnotations pr).safe good := by
  unfold updateLabelsAndAnnotations
  refine Prog.safe_perform_bind hget (fun res => ?_)
  cases res with
  | error err => exact Prog.safe_pure good _
  | ok prToUpdate =>
      dsimp only
      split
      · exact Prog.safe_pure good _
      · refine (Prog.safe_perform good _).2 (fun r => hupd _ r ?_ ?_ ?_)
        · split <;> rfl
        · split <;> rfl
        · split
          · simp [HasString]
          · rename_i hfin
            simpa using hfin

/-- The calls of `deleteJenkinsJobHistory`: at most the deletion of the history of the
recorded build of the parent job. -/
theorem safe_deleteJenkinsJobHistory {good : Event → Prop} (pr : PipelineRun)
    (hdel : ∀ pipelineRef r, pr.Spec.PipelineRef = some pipelineRef →
      0 ≤ getJenkinsBuildNumber pr →
      good (Event.mk (Call.DeleteHistory
        ("job/" ++ pr.Namespace ++ "/job/" ++ pipelineRef.Name) (getJenkinsBuildNumber pr)) r)) :
    (deleteJenkinsJobHistory pr).safe good := by
  unfold deleteJenkinsJobHistory
  dsimp only
  split
  · exact Prog.safe_pure good _
  · rename_i hnum
    split
    · exact Prog.safe_crash good _
    · rename_i pipelineRef href
      refine Prog.safe_perform_bind (fun r => hdel pipelineRef r href (by omega)) (fun err => ?_)
      cases err with
      | none => exact Prog.safe_pure good _
      | some e =>
          dsimp only
          split
          · exact Prog.safe_pure good _
          · exact Prog.safe_pure good _

/-- The calls of `makePipelineRunOrphan`: the metadata write of the record labelled as an
orphan, two readings of the clock, and a status write of the status as it was read. -/
theorem safe_makePipelineRunOrphan {good : Event → Prop} (pr : PipelineRun)
    (hget : ∀ r, good (Event.mk (Call.Get { Namespace := pr.Namespace, Name := pr.Name }) r))
    (hupd : ∀ obj r, obj.Labels = (LabelAsAnOrphan pr).Labels →
      obj.Annotations = pr.Annotations →
      HasString obj.Finalizers PipelineRunFinalizerName = true →
      good (Event.mk (Call.Update obj) r))
    (hnow : ∀ r, good (Event.mk Call.Now r))
    (hst : ∀ obj r, obj.Status = pr.Status → good (Event.mk (Call.StatusUpdate obj) r)) :
    (makePipelineRunOrphan pr).safe good := by
  unfold makePipelineRunOrphan
  dsimp only
  refine Prog.safe_bind (safe_updateLabelsAndAnnotations _ hget hupd) (fun err => ?_)
  cases err with
  | some e => exact Prog.safe_pure good _
  | none =>
      dsimp only
      refine Prog.safe_perform_bind hnow (fun _ => ?_)
      refine Prog.safe_perform_bind hnow (fun _ => ?_)
      exact safe_updateStatus _ _ hget hst

/-- The calls of `getPipelineRunResult`: at most one query of the recorded run. -/
theorem safe_getPipelineRunResult {good : Event → Prop} (ns name : String) (pr : PipelineRun)
    (hq : ∀ runID branch r, GetPipelineRunID pr = some runID →
      getSCMRefName pr.Spec = Except.ok branch →
      good (Event.mk (Call.GetBuild
        { RunID := runID, Pipelines := [ns, name], Branch := branch }) r)) :
    (getPipelineRunResult ns name pr).safe good := by
  unfold getPipelineRunResult
  split
  · exact Prog.safe_pure good _
  · rename_i runID hid
    split
    · exact Prog.safe_pure good _
    · rename_i branch hbranch
      exact (Prog.safe_perform good _).2 (fun r => hq runID branch r hid hbranch)

/-- The calls of `getPipelineNodes`: at most one query of the stages of the recorded run. -/
theorem safe_getPipelineNodes {good : Event → Prop} (ns name : String) (pr : PipelineRun)
    (hq : ∀ runID branch r, GetPipelineRunID pr = some runID →
      getSCMRefName pr.Spec = Except.ok branch →
      good (Event.mk (Call.GetNodes
        { Pipelines := [ns, name], Branch := branch, RunID := runID }) r)) :
    (getPipelineNodes ns name pr).safe good := by
  unfold getPipelineNodes
  split
  · exact Prog.safe_pure good _
  · rename_i runID hid
    split
    · exact Prog.safe_pure good _
    · rename_i branch hbranch
      exact (Prog.safe_perform good _).2 (fun r => hq runID branch r hid hbranch)

/-- The calls of `triggerJenkinsJob`: at most one trigger, made when the branch name can
be derived. -/
theorem safe_triggerJenkinsJob {good : Event → Prop} (d : Deps) (ns name : String)
    (prSpec : PipelineRunSpec)
    (hb : ∀ branch r, getSCMRefName prSpec = Except.ok branch →
      good (Event.mk (Call.Build
        { Pipelines := [ns, name], Parameters := d.convert prSpec.Parameters,
          Branch := branch }) r)) :
    (triggerJenkinsJob d ns name prSpec).safe good := by
  unfold triggerJenkinsJob
  split
  · exact Prog.safe_pure good _
  · rename_i branch hbranch
    exact (Prog.safe_perform good _).2 (fun r => hb branch r hbranch)

/-- The calls of `hasSamePendingPipelineRun`: one listing. -/
theorem safe_hasSamePendingPipelineRun {good : Event → Prop} (jobRun : JobRun)
    (pipeline : Pipeline) (hl : ∀ opts r, good (Event.mk (Call.List opts) r)) :
    (hasSamePendingPipelineRun jobRun pipeline).safe good := by
  unfold hasSamePendingPipelineRun
  dsimp only
  refine Prog.safe_perform_bind (fun r => hl _ r) (fun res => ?_)
  cases res with
  | error err => exact Prog.safe_pure good _
  | ok items =>
      dsimp only
      split
      · exact Prog.safe_pure good _
      · exact Prog.safe_pure good _

/-- The calls of `deletePipelineRun`: a read of the record and at most one delete. -/
theorem safe_deletePipelineRun {good : Event → Prop} (key : ObjectKey)
    (hget : ∀ r, good (Event.mk (Call.Get key) r))
    (hdel : ∀ obj r, good (Event.mk (Call.Delete obj) r)) :
    (deletePipelineRun key).safe good := by
  unfold deletePipelineRun
  refine Prog.safe_perform_bind hget (fun res => ?_)
  cases res with
  | error err => exact Prog.safe_pure good _
  | ok obj => exact (Prog.safe_perform good _).2 (fun r => hdel obj r)

/-- The calls of a cycle: the fetch of the record, and then, when a record is fetched,
only calls of the branch that record selects. -/
theorem reconcile_calls (d : Deps) (req : Request) :
    (Reconcile d req).all (fun tr _ =>
      ∃ r rest, tr = Event.mk (Call.Get req.NamespacedName) r :: rest ∧
        (∀ err, r = Except.error err → rest = []) ∧
        (∀ pr, r = Except.ok pr → ∀ e ∈ rest, reconcileMay d req pr e.call)) := by
  unfold Reconcile
  rw [Prog.all_perform_bind]
  intro r
  cases r with
  | error err => exact ⟨_, [], rfl, fun _ _ => rfl, fun pr hpr => (nomatch hpr)⟩
  | ok pr =>
      refine Prog.all_mono (Q := fun tr _ => ∀ e ∈ tr, reconcileMay d req pr e.call) ?_ ?_
      swap
      · intro tr o h
        refine ⟨_, tr, rfl, fun err herr => (nomatch herr), fun pr' hpr' => ?_⟩
        cases hpr'
        exact h
      show Prog.safe (fun e => reconcileMay d req pr e.call) _
      dsimp only
      split
      · -- cleanup branch
        rename_i hdel
        have hmay : ∀ c, mayDeleting pr c → reconcileMay d req pr c := by
          intro c hc
          unfold reconcileMay
          rw [if_pos (by simpa using hdel)]
          exact hc
        refine Prog.safe_bind (safe_deleteJenkinsJobHistory pr
          (fun pipelineRef r href hn => hmay _ (Or.inl ⟨pipelineRef, href, hn, rfl⟩)))
          (fun err => ?_)
        cases err with
        | some e => exact Prog.safe_pure _ _
        | none =>
            dsimp only
            exact Prog.safe_perform_bind (fun r => hmay _ (Or.inr rfl))
              (fun _ => Prog.safe_pure _ _)
      · rename_i hdel
        split
        · exact Prog.safe_pure _ _
        · rename_i hbuildable
          have horphan : (pr.Spec.PipelineRef = none ∨
              ∃ pipelineRef, pr.Spec.PipelineRef = some pipelineRef ∧ pipelineRef.Name = "") →
              (do
                let err ← makePipelineRunOrphan pr
                pure (({} : Result), err)).safe (fun e => reconcileMay d req pr e.call) := by
            intro href
            have hmay : ∀ c, mayOrphan pr c → reconcileMay d req pr c := by
              intro c hc
              unfold reconcileMay
              rw [if_neg (by simpa using hdel), if_neg (by simpa using hbuildable)]
              rcases href with href | ⟨pipelineRef, href, hname⟩
              · rw [href]; exact hc
              · rw [href]; dsimp only; rw [if_pos hname]; exact hc
            exact Prog.safe_bind (safe_makePipelineRunOrphan pr
              (fun r => hmay _ (Or.inl rfl))
              (fun obj r h1 h2 h3 => hmay _ (Or.inr (Or.inl ⟨obj, rfl, h1, h2, h3⟩)))
              (fun r => hmay _ (Or.inr (Or.inr (Or.inl rfl))))
              (fun obj r h1 => hmay _ (Or.inr (Or.inr (Or.inr ⟨obj, rfl, h1⟩)))))
              (fun _ => Prog.safe_pure _ _)
          split
          · rename_i href
            exact horphan (Or.inl href)
          · rename_i pipelineRef href
            split
            · rename_i hname
              exact horphan (Or.inr ⟨pipelineRef, href, hname⟩)
            · rename_i hname
              have hbranch : ∀ c,
                  (c = Call.GetPipeline { Namespace := pr.Namespace, Name := pipelineRef.Name } ∨
                    (if HasStarted pr = true then mayPolling d req pr c
                      else mayNotStarted req pr c)) → reconcileMay d req pr c := by
                intro c hc
                unfold reconcileMay
                rw [if_neg (by simpa using hdel), if_neg (by simpa using hbuildable), href]
                dsimp only
                rw [if_neg hname]
                exact hc
              refine Prog.safe_perform_bind (fun r => hbranch _ (Or.inl rfl)) (fun res => ?_)
              cases res with
              | error err => exact Prog.safe_pure _ _
              | ok pipeline =>
                  dsimp only
                  split
                  · -- polling branch
                    rename_i hstarted
                    have hs : HasStarted pr = true := hstarted
                    have hmay : ∀ c, mayPolling d req pr c → reconcileMay d req pr c :=
                      fun c hc => hbranch c (Or.inr (by rw [if_pos hs]; exact hc))
                    have hevent : ∀ obj eventtype reason message r,
                        reconcileMay d req pr
                          (Event.mk (Call.Eventf obj eventtype reason message) r).call :=
                      fun obj eventtype reason message _ =>
                        hmay _ (Or.inr (Or.inr (Or.inl ⟨obj, eventtype, reason, message, rfl⟩)))
                    refine Prog.safe_bind (safe_getPipelineRunResult _ _ _
                      (fun runID branch r hid hb => hmay _ (Or.inl ⟨_, rfl, hid, hb⟩)))
                      (fun res => ?_)
                    cases res with
                    | error err =>
                        exact Prog.safe_perform_bind (fun r => hevent _ _ _ _ r)
                          (fun _ => Prog.safe_pure _ _)
                    | ok pipelineBuild =>
                        refine Prog.safe_bind (safe_getPipelineNodes _ _ _
                          (fun runID branch r hid hb =>
                            hmay _ (Or.inr (Or.inl ⟨_, rfl, hid, hb⟩))))
                          (fun res => ?_)
                        cases res with
                        | error err =>
                            exact Prog.safe_perform_bind (fun r => hevent _ _ _ _ r)
                              (fun _ => Prog.safe_pure _ _)
                        | ok prNodes =>
                            dsimp only [jsonMarshal]
                            refine Prog.safe_bind (safe_updateLabelsAndAnnotations _
                              (fun r => hmay _ (Or.inr (Or.inr (Or.inr (Or.inl rfl)))))
                              (fun obj r _ h2 h3 => hmay _ (Or.inr (Or.inr (Or.inr (Or.inr
                                (Or.inr (Or.inl ⟨obj, _, _, rfl, h2, h3⟩))))))))
                              (fun err => ?_)
                            cases err with
                            | some e => exact Prog.safe_pure _ _
                            | none =>
                                dsimp only
                                refine Prog.safe_bind (safe_updateStatus _ _
                                  (fun r => hmay _ (Or.inr (Or.inr (Or.inr (Or.inr (Or.inl rfl))))))
                                  (fun obj r h1 => hmay _ (Or.inr (Or.inr (Or.inr (Or.inr
                                    (Or.inr (Or.inr ⟨obj, pipelineBuild, rfl, h1⟩))))))))
                                  (fun err => ?_)
                                cases err with
                                | some e => exact Prog.safe_pure _ _
                                | none =>
                                    exact Prog.safe_perform_bind (fun r => hevent _ _ _ _ r)
                                      (fun _ => Prog.safe_pure _ _)
                  · -- first run
                    rename_i hstarted
                    have hs : ¬ HasStarted pr = true := hstarted
                    have hmay : ∀ c, mayNotStarted req pr c → reconcileMay d req pr c :=
                      fun c hc => hbranch c (Or.inr (by rw [if_neg hs]; exact hc))
                    have hevent : ∀ obj eventtype reason message r,
                        reconcileMay d req pr
                          (Event.mk (Call.Eventf obj eventtype reason message) r).call :=
                      fun obj eventtype reason message _ =>
                        hmay _ (Or.inr (Or.inl ⟨obj, eventtype, reason, message, rfl⟩))
                    refine Prog.safe_bind (safe_triggerJenkinsJob d _ _ _
                      (fun branch r _ => hmay _ (Or.inl ⟨_, rfl⟩))) (fun res => ?_)
                    cases res with
                    | error err =>
                        exact Prog.safe_perform_bind (fun r => hevent _ _ _ _ r)
                          (fun _ => Prog.safe_pure _ _)
                    | ok jobRun =>
                        refine Prog.safe_bind (safe_hasSamePendingPipelineRun _ _
                          (fun opts r => hmay _ (Or.inr (Or.inr (Or.inl ⟨opts, rfl⟩)))))
                          (fun res => ?_)
                        cases res with
                        | error err => exact Prog.safe_pure _ _
                        | ok found =>
                            dsimp only
                            split
                            · refine Prog.safe_bind (safe_deletePipelineRun _
                                (fun r => hmay _ (Or.inr (Or.inr (Or.inr (Or.inl rfl)))))
                                (fun obj r => hmay _ (Or.inr (Or.inr (Or.inr (Or.inr
                                  (Or.inl ⟨obj, rfl⟩)))))))
                                (fun err => ?_)
                              cases err with
                              | some e => exact Prog.safe_pure _ _
                              | none => exact Prog.safe_pure _ _
                            · refine Prog.safe_bind (safe_updateLabelsAndAnnotations _
                                (fun r => hmay _ (Or.inr (Or.inr (Or.inr (Or.inr (Or.inr
                                  (Or.inl rfl)))))))
                                (fun obj r _ h2 h3 => hmay _ (Or.inr (Or.inr (Or.inr (Or.inr
                                  (Or.inr (Or.inr (Or.inl ⟨obj, _, rfl, h2, h3⟩)))))))))
                                (fun err => ?_)
                              cases err with
                              | some e => exact Prog.safe_pure _ _
                              | none =>
                                  dsimp only
                                  have hnow : ∀ r, reconcileMay d req pr (Event.mk Call.Now r).call :=
                                    fun _ => hmay _ (Or.inr (Or.inr (Or.inr (Or.inr (Or.inr
                                      (Or.inr (Or.inr (Or.inl rfl))))))))
                                  refine Prog.safe_perform_bind hnow (fun startTime => ?_)
                                  refine Prog.safe_perform_bind hnow (fun updateTime => ?_)
                                  refine Prog.safe_bind (safe_updateStatus _ _
                                    (fun r => hmay _ (Or.inr (Or.inr (Or.inr (Or.inl rfl)))))
                                    (fun obj r h1 => hmay _ (Or.inr (Or.inr (Or.inr (Or.inr
                                      (Or.inr (Or.inr (Or.inr (Or.inr
                                        ⟨obj, startTime, updateTime, rfl, h1⟩))))))))))
                                    (fun err => ?_)
                                  cases err with
                                  | some e => exact Prog.safe_pure _ _
                                  | none =>
                                      exact Prog.safe_perform_bind (fun r => hevent _ _ _ _ r)
                                        (fun _ => Prog.safe_pure _ _)

/-- A run of `Reconcile` starts with the fetch of the record. -/
theorem trace_Reconcile_head {σ : Type} (d : Deps) (req : Request) (h : Handler σ) (s : σ) :
    ∃ rest, trace (exec h (Reconcile d req) s) =
      Event.mk (Call.Get req.NamespacedName) (h (Call.Get req.NamespacedName) s).1 :: rest :=
  ⟨_, rfl⟩

/-- In any environment, after the fetch answered with `pr`, a cycle makes only calls of
the branch `pr` selects. -/
theorem reconcile_calls_exec {σ : Type} (d : Deps) (req : Request) (h : Handler σ) (s : σ)
    (pr : PipelineRun) (hget : (h (Call.Get req.NamespacedName) s).1 = Except.ok pr) :
    ∃ rest, trace (exec h (Reconcile d req) s) =
        Event.mk (Call.Get req.NamespacedName) (Except.ok pr) :: rest ∧
      ∀ e ∈ rest, reconcileMay d req pr e.call := by
  obtain ⟨r, rest, htr, -, hok⟩ := exec_of_all _ _ (reconcile_calls d req) h s
  obtain ⟨rest', htr'⟩ := trace_Reconcile_head d req h s
  rw [htr'] at htr
  simp only [List.cons.injEq, Event.mk.injEq, heq_eq_eq, true_and] at htr
  obtain ⟨hr, hrest⟩ := htr
  refine ⟨rest, ?_, hok pr (by rw [← hr, hget])⟩
  rw [htr', hrest, hget]

/-- In every environment, a cycle that fetches a record with a recorded run identifier
makes no call to the Jenkins trigger. -/
theorem reconcile_started_no_build {σ : Type} (d : Deps) (req : Request)
    (h : Handler σ) (s : σ) (pr : PipelineRun)
    (hget : (h (Call.Get req.NamespacedName) s).1 = Except.ok pr)
    (hstarted : HasStarted pr = true) :
    ∀ e ∈ trace (exec h (Reconcile d req) s), isBuild e.call = false := by
  obtain ⟨rest, htr, hmay⟩ := reconcile_calls_exec d req h s pr hget
  intro e he
  rw [htr] at he
  rcases List.mem_cons.1 he with rfl | he
  · rfl
  have hc := hmay e he
  unfold reconcileMay at hc
  by_cases hdel : IsZero pr.DeletionTimestamp = false
  · rw [if_pos hdel] at hc
    rcases hc with ⟨_, _, _, hc⟩ | hc <;> rw [hc] <;> rfl
  rw [if_neg hdel] at hc
  by_cases hbuildable : Buildable pr = false
  · rw [if_pos hbuildable] at hc
    exact hc.elim
  rw [if_neg hbuildable] at hc
  have horphan : mayOrphan pr e.call → isBuild e.call = false := by
    rintro (hc | ⟨_, hc, _⟩ | hc | ⟨_, hc, _⟩) <;> rw [hc] <;> rfl
  cases href : pr.Spec.PipelineRef with
  | none =>
      rw [href] at hc
      exact horphan hc
  | some pipelineRef =>
      rw [href] at hc
      dsimp only at hc
      by_cases hname : pipelineRef.Name = ""
      · rw [if_pos hname] at hc
        exact horphan hc
      · rw [if_neg hname, if_pos hstarted] at hc
        rcases hc with hc | ⟨_, hc, _⟩ | ⟨_, hc, _⟩ | ⟨_, _, _, _, hc⟩ | hc | hc |
          ⟨_, _, _, hc, _⟩ | ⟨_, _, hc, _⟩ <;> rw [hc] <;> rfl

/-- Repeated reconciliation never triggers a started record again: in every environment
and for every number of consecutive cycles, when the record each cycle fetches has a
recorded run identifier, no cycle calls the Jenkins trigger. -/
theorem reconcileCycles_never_trigger {σ : Type} (d : Deps) (req : Request) (h : Handler σ) :
    ∀ (n : Nat) (s : σ),
      (∀ cycle ∈ reconcileCycles h d req n s, ∀ pr,
        cycle.2.head? = some (Event.mk (Call.Get req.NamespacedName) (Except.ok pr)) →
        HasStarted pr = true) →
      ∀ cycle ∈ reconcileCycles h d req n s, ∀ e ∈ cycle.2, isBuild e.call = false := by
  intro n
  induction n with
  | zero =>
      intro s _ cycle hcycle
      cases hcycle
  | succ n ih =>
      intro s hfetch cycle hcycle
      rcases List.mem_cons.1 hcycle with rfl | hcycle
      · obtain ⟨rest, htr⟩ := trace_Reconcile_head d req h s
        cases hans : (h (Call.Get req.NamespacedName) s).1 with
        | error err =>
            obtain ⟨r, rest', htr', herr, -⟩ := exec_of_all _ _ (reconcile_calls d req) h s
            rw [htr] at htr'
            simp only [List.cons.injEq, Event.mk.injEq, heq_eq_eq, true_and] at htr'
            obtain ⟨hr, hrest⟩ := htr'
            have hnil : rest' = [] := herr err (by rw [← hr, hans])
            intro e he
            dsimp only at he
            rw [htr, hrest, hnil] at he
            rcases List.mem_cons.1 he with rfl | he
            · rfl
            · cases he
        | ok pr =>
            refine reconcile_started_no_build d req h s pr hans ?_
            refine hfetch _ (List.mem_cons_self _ _) pr ?_
            dsimp only
            rw [htr, hans]
            rfl
      · exact ih _ (fun c hc => hfetch c (List.mem_cons_of_mem _ hc)) cycle hcycle

/-- C1 (idempotent triggering): in every environment, whatever the store and Jenkins
answer, a cycle that fetches a record with a recorded run identifier, without deletion
marker and buildable, makes no call to the Jenkins trigger.  The environment and its
state are arbitrary, so this holds for each cycle of any sequence of reconciliations. -/
theorem reconcile_started_never_triggers {σ : Type} (d : Deps) (req : Request)
    (h : Handler σ) (s : σ) (pr : PipelineRun)
    (hget : (h (Call.Get req.NamespacedName) s).1 = Except.ok pr)
    (hstarted : HasStarted pr = true)
    (hdel : IsZero pr.DeletionTimestamp = true)
    (hbuildable : Buildable pr = true) :
    ∀ e ∈ trace (exec h (Reconcile d req) s), isBuild e.call = false := by
  obtain ⟨rest, htr, hmay⟩ := reconcile_calls_exec d req h s pr hget
  intro e he
  rw [htr] at he
  rcases List.mem_cons.1 he with rfl | he
  · rfl
  · have hc := hmay e he
    unfold reconcileMay at hc
    rw [if_neg (by simp [hdel]), if_neg (by simp [hbuildable])] at hc
    have horphan : mayOrphan pr e.call → isBuild e.call = false := by
      rintro (hc | ⟨_, hc, _⟩ | hc | ⟨_, hc, _⟩) <;> rw [hc] <;> rfl
    cases href : pr.Spec.PipelineRef with
    | none =>
        rw [href] at hc
        exact horphan hc
    | some pipelineRef =>
        rw [href] at hc
        dsimp only at hc
        by_cases hname : pipelineRef.Name = ""
        · rw [if_pos hname] at hc
          exact horphan hc
        · rw [if_neg hname, if_pos hstarted] at hc
          rcases hc with hc | ⟨_, hc, _⟩ | ⟨_, hc, _⟩ | ⟨_, _, _, _, hc⟩ | hc | hc |
            ⟨_, _, _, hc, _⟩ | ⟨_, _, hc, _⟩ <;> rw [hc] <;> rfl

/-- C1 at the record `startedRun` in the sample world. -/
theorem reconcile_started_never_triggers_witness :
    ((World.handle (Call.Get requestA.NamespacedName) (sampleWorld [startedRun])).1
        = Except.ok startedRun ∧
      HasStarted startedRun = true ∧ IsZero startedRun.DeletionTimestamp = true ∧
      Buildable startedRun = true) ∧
    ∀ e ∈ trace (exec World.handle (Reconcile sampleDeps requestA) (sampleWorld [startedRun])),
      isBuild e.call = false :=
  ⟨⟨rfl, rfl, rfl, rfl⟩,
    reconcile_started_never_triggers sampleDeps requestA World.handle
      (sampleWorld [startedRun]) startedRun rfl rfl rfl rfl⟩

/-! ### Maps -/

theorem lookup_filter_ne (k k' : String) (hk : k' ≠ k) (m : StrMap) :
    (m.filter (fun p => p.1 != k)).lookup k' = m.lookup k' := by
  induction m with
  | nil => rfl
  | cons p m ih =>
      obtain ⟨a, b⟩ := p
      by_cases ha : a = k
      · subst ha
        have h1 : (k' == a) = false := by simpa using hk
        simp [List.filter, List.lookup, h1, ih]
      · have h2 : (a != k) = true := by simpa using ha
        simp only [List.filter, h2, List.lookup, ih]

theorem mapGet_mapSet_ne (m : StrMap) (k k' v : String) (hk : k' ≠ k) :
    mapGet (some (mapSet m k v)) k' = mapGet (some m) k' := by
  have h1 : (k' == k) = false := by simpa using hk
  simp only [mapGet, mapSet, List.lookup, h1]
  exact lookup_filter_ne k k' hk m

theorem mapGet_mapSet_self (m : StrMap) (k v : String) :
    mapGet (some (mapSet m k v)) k = some v := by
  simp [mapGet, mapSet, List.lookup]

theorem mapGet_makeIfNil (m : Option StrMap) (k : String) :
    mapGet (some (makeIfNil m)) k = mapGet m k := by
  cases m <;> rfl

/-- C2 (invariant I4): in every environment, every metadata write (`Update`) of a cycle
that fetched the record `pr` carries the run identifier `pr` had, whenever `pr` had one;
and a write that carries another run identifier than `pr` is made only in the first-run
branch, on a record that had none. -/
theorem reconcile_keeps_run_identifier {σ : Type} (d : Deps) (req : Request)
    (h : Handler σ) (s : σ) (pr : PipelineRun)
    (hget : (h (Call.Get req.NamespacedName) s).1 = Except.ok pr) :
    ∀ e ∈ trace (exec h (Reconcile d req) s), ∀ obj, e.call = Call.Update obj →
      (∀ runID, GetPipelineRunID pr = some runID → GetPipelineRunID obj = some runID) ∧
      (GetPipelineRunID obj ≠ GetPipelineRunID pr →
        GetPipelineRunID pr = none ∧ IsZero pr.DeletionTimestamp = true ∧
        Buildable pr = true ∧
        ∃ runID, obj.Annotations =
          some (mapSet (makeIfNil pr.Annotations) JenkinsPipelineRunIDKey runID)) := by
  obtain ⟨rest, htr, hmay⟩ := reconcile_calls_exec d req h s pr hget
  intro e he obj hobj
  rw [htr] at he
  rcases List.mem_cons.1 he with rfl | he
  · cases hobj
  have hc := hmay e he
  rw [hobj] at hc
  -- a write that keeps the annotations, or adds the two status annotations, keeps the
  -- run identifier
  have hsame : GetPipelineRunID obj = GetPipelineRunID pr →
      (∀ runID, GetPipelineRunID pr = some runID → GetPipelineRunID obj = some runID) ∧
      (GetPipelineRunID obj ≠ GetPipelineRunID pr →
        GetPipelineRunID pr = none ∧ IsZero pr.DeletionTimestamp = true ∧
        Buildable pr = true ∧
        ∃ runID, obj.Annotations =
          some (mapSet (makeIfNil pr.Annotations) JenkinsPipelineRunIDKey runID)) :=
    fun heq => ⟨fun runID hid => by rw [heq, hid], fun hne => absurd heq hne⟩
  have horphan : mayOrphan pr (Call.Update obj) → GetPipelineRunID obj = GetPipelineRunID pr := by
    rintro (hc | ⟨obj', hc, _, hann, _⟩ | hc | ⟨_, hc, _⟩)
    · cases hc
    · cases hc
      unfold GetPipelineRunID
      rw [hann]
    · cases hc
    · cases hc
  unfold reconcileMay at hc
  by_cases hdel : IsZero pr.DeletionTimestamp = false
  · rw [if_pos hdel] at hc
    rcases hc with ⟨_, _, _, hc⟩ | hc
    · cases hc
    · cases hc
      exact hsame rfl
  rw [if_neg hdel] at hc
  by_cases hbuildable : Buildable pr = false
  · rw [if_pos hbuildable] at hc
    exact hc.elim
  rw [if_neg hbuildable] at hc
  cases href : pr.Spec.PipelineRef with
  | none =>
      rw [href] at hc
      exact hsame (horphan hc)
  | some pipelineRef =>
      rw [href] at hc
      dsimp only at hc
      by_cases hname : pipelineRef.Name = ""
      · rw [if_pos hname] at hc
        exact hsame (horphan hc)
      rw [if_neg hname] at hc
      rcases hc with hc | hc
      · cases hc
      by_cases hstarted : HasStarted pr = true
      · rw [if_pos hstarted] at hc
        rcases hc with ⟨_, hc, _⟩ | ⟨_, hc, _⟩ | ⟨_, _, _, _, hc⟩ | hc | hc |
          ⟨obj', v1, v2, hc, hann, _⟩ | ⟨_, _, hc, _⟩
        · cases hc
        · cases hc
        · cases hc
        · cases hc
        · cases hc
        · cases hc
          refine hsame ?_
          unfold GetPipelineRunID
          rw [hann, mapGet_mapSet_ne _ _ _ _ (by decide), mapGet_mapSet_ne _ _ _ _ (by decide),
            mapGet_makeIfNil]
        · cases hc
      · rw [if_neg hstarted] at hc
        have hnone : GetPipelineRunID pr = none := by
          cases hid : GetPipelineRunID pr with
          | none => rfl
          | some v => exact absurd (by simp [HasStarted, hid]) hstarted
        rcases hc with ⟨_, hc⟩ | ⟨_, _, _, _, hc⟩ | ⟨_, hc⟩ | hc | ⟨_, hc⟩ | hc |
          ⟨obj', runID, hc, hann, _⟩ | hc | ⟨_, _, _, hc, _⟩
        · cases hc
        · cases hc
        · cases hc
        · cases hc
        · cases hc
        · cases hc
        · cases hc
          refine ⟨fun runID' hid => ?_, fun _ => ⟨hnone, ?_, ?_, runID, hann⟩⟩
          · rw [hnone] at hid
            cases hid
          · simpa using hdel
          · simpa using hbuildable
        · cases hc
        · cases hc

/-- C2 at the record `startedRun` in the sample world. -/
theorem reconcile_keeps_run_identifier_witness :
    (World.handle (Call.Get requestA.NamespacedName) (sampleWorld [startedRun])).1
        = Except.ok startedRun ∧
    ∀ e ∈ trace (exec World.handle (Reconcile sampleDeps requestA) (sampleWorld [startedRun])),
      ∀ obj, e.call = Call.Update obj →
        (∀ runID, GetPipelineRunID startedRun = some runID →
          GetPipelineRunID obj = some runID) ∧
        (GetPipelineRunID obj ≠ GetPipelineRunID startedRun →
          GetPipelineRunID startedRun = none ∧ IsZero startedRun.DeletionTimestamp = true ∧
          Buildable startedRun = true ∧
          ∃ runID, obj.Annotations =
            some (mapSet (makeIfNil startedRun.Annotations) JenkinsPipelineRunIDKey runID)) :=
  ⟨rfl, reconcile_keeps_run_identifier sampleDeps requestA World.handle
    (sampleWorld [startedRun]) startedRun rfl⟩

/-! ### Cleanup -/

theorem getJenkinsBuildNumber_neg_of_not_valid (pr : PipelineRun)
    (hno : ∀ runID, GetPipelineRunID pr = some runID → validBuildNumber runID = false) :
    getJenkinsBuildNumber pr < 0 := by
  unfold getJenkinsBuildNumber
  cases hid : GetPipelineRunID pr with
  | none => exact (by decide : (-1 : Int) < 0)
  | some runID =>
      have hv := hno runID hid
      unfold validBuildNumber at hv
      dsimp only
      cases hnum : Atoi runID with
      | error err => exact (by decide : (-1 : Int) < 0)
      | ok num =>
          rw [hnum] at hv
          dsimp only
          simpa using hv

theorem getJenkinsBuildNumber_of_valid (pr : PipelineRun) (runID : String) (num : Int)
    (hid : GetPipelineRunID pr = some runID) (hnum : Atoi runID = Except.ok num) :
    getJenkinsBuildNumber pr = num := by
  unfold getJenkinsBuildNumber
  rw [hid]
  dsimp only
  rw [hnum]

/-- C5 (cleanup with nothing to clean): in every environment, for a PipelineRun with no
recorded run identifier, or with one that is not a valid build number,
`deleteJenkinsJobHistory` returns nil and makes no call at all, so none to the Jenkins
`DeleteHistory` operation. -/
theorem deleteJenkinsJobHistory_nothing_to_clean {σ : Type} (h : Handler σ) (s : σ)
    (pr : PipelineRun)
    (hno : ∀ runID, GetPipelineRunID pr = some runID → validBuildNumber runID = false) :
    exec h (deleteJenkinsJobHistory pr) s = (Outcome.returned none, [], s) := by
  have hneg := getJenkinsBuildNumber_neg_of_not_valid pr hno
  unfold deleteJenkinsJobHistory
  dsimp only
  rw [if_pos hneg]
  rfl

/-- C5 at the empty PipelineRun and at a PipelineRun whose run identifier is `a`. -/
theorem deleteJenkinsJobHistory_nothing_to_clean_witness :
    ((∀ runID, GetPipelineRunID emptyPipelineRun = some runID →
        validBuildNumber runID = false) ∧
      exec World.handle (deleteJenkinsJobHistory emptyPipelineRun) (sampleWorld []) =
        (Outcome.returned none, [], sampleWorld [])) ∧
    ((∀ runID, GetPipelineRunID invalidRun = some runID →
        validBuildNumber runID = false) ∧
      exec World.handle (deleteJenkinsJobHistory invalidRun) (sampleWorld []) =
        (Outcome.returned none, [], sampleWorld [])) := by
  have hempty : ∀ runID, GetPipelineRunID emptyPipelineRun = some runID →
      validBuildNumber runID = false := fun _ hid => (nomatch hid)
  have hinvalid : ∀ runID, GetPipelineRunID invalidRun = some runID →
      validBuildNumber runID = false := by
    intro runID hid
    have ha : GetPipelineRunID invalidRun = some "a" := rfl
    rw [ha] at hid
    cases hid
    rfl
  exact ⟨⟨hempty,
      deleteJenkinsJobHistory_nothing_to_clean World.handle (sampleWorld []) emptyPipelineRun
        hempty⟩,
    ⟨hinvalid,
      deleteJenkinsJobHistory_nothing_to_clean World.handle (sampleWorld []) invalidRun
        hinvalid⟩⟩

/-- The run of `deleteJenkinsJobHistory` on a record with a valid build number and a
parent reference: one `DeleteHistory` call, and the result decided by its answer. -/
theorem exec_deleteJenkinsJobHistory_valid {σ : Type} (h : Handler σ) (s : σ)
    (pr : PipelineRun) (pipelineRef : ObjectReference)
    (hnum : 0 ≤ getJenkinsBuildNumber pr) (href : pr.Spec.PipelineRef = some pipelineRef) :
    exec h (deleteJenkinsJobHistory pr) s =
      (Outcome.returned
        (match (h (Call.DeleteHistory (jobNameOf pr pipelineRef) (getJenkinsBuildNumber pr)) s).1 with
          | none => none
          | some e =>
              if stringsContains e.msg "not found resources" then none
              else some (errorf (deleteFailedMessage (jobNameOf pr pipelineRef)
                (getJenkinsBuildNumber pr) e))),
        [Event.mk (Call.DeleteHistory (jobNameOf pr pipelineRef) (getJenkinsBuildNumber pr))
          (h (Call.DeleteHistory (jobNameOf pr pipelineRef) (getJenkinsBuildNumber pr)) s).1],
        (h (Call.DeleteHistory (jobNameOf pr pipelineRef) (getJenkinsBuildNumber pr)) s).2) := by
  unfold deleteJenkinsJobHistory
  dsimp only
  rw [if_neg (by omega), href]
  dsimp only
  show exec h (Prog.call _ _) s = _
  unfold exec
  dsimp only [jobNameOf, deleteFailedMessage]
  cases hans : (h (Call.DeleteHistory ("job/" ++ pr.Namespace ++ "/job/" ++ pipelineRef.Name)
      (getJenkinsBuildNumber pr)) s).1 with
  | none => rfl
  | some e =>
      by_cases hnf : stringsContains e.msg "not found resources" = true
      · simp [Prog.bind, exec, pure, hnf]
      · simp [Prog.bind, exec, pure, hnf]

/-- The run of `deleteJenkinsJobHistory` on a record with a valid build number and no
parent reference: a nil-pointer dereference before any call. -/
theorem exec_deleteJenkinsJobHistory_nil_ref {σ : Type} (h : Handler σ) (s : σ)
    (pr : PipelineRun)
    (hnum : 0 ≤ getJenkinsBuildNumber pr) (href : pr.Spec.PipelineRef = none) :
    exec h (deleteJenkinsJobHistory pr) s =
      (Outcome.crashed "invalid memory address or nil pointer dereference", [], s) := by
  unfold deleteJenkinsJobHistory
  dsimp only
  rw [if_neg (by omega), href]
  rfl

/-- C6 (idempotent delete): in every environment, for a PipelineRun whose recorded run
identifier is the valid build number `num`, `deleteJenkinsJobHistory` returns nil exactly
when its `DeleteHistory` call is answered with nil or with an error whose text contains
"not found resources"; when the call is answered with any other error, it returns the
error that names the job and the build number; and when the parent reference is present
it makes exactly that one call, for the job of the parent and the build `num`. -/
theorem deleteJenkinsJobHistory_idempotent_delete {σ : Type} (h : Handler σ) (s : σ)
    (pr : PipelineRun) (runID : String) (num : Int)
    (hid : GetPipelineRunID pr = some runID) (hnum : Atoi runID = Except.ok num)
    (hpos : 0 ≤ num) :
    (outcome (exec h (deleteJenkinsJobHistory pr) s) = Outcome.returned none ↔
      ∃ jobName ans,
        Event.mk (Call.DeleteHistory jobName num) ans ∈
          trace (exec h (deleteJenkinsJobHistory pr) s) ∧
        (ans = none ∨
          ∃ e, ans = some e ∧ stringsContains e.msg "not found resources" = true)) ∧
    (∀ jobName e,
      Event.mk (Call.DeleteHistory jobName num) (some e) ∈
        trace (exec h (deleteJenkinsJobHistory pr) s) →
      stringsContains e.msg "not found resources" = false →
      outcome (exec h (deleteJenkinsJobHistory pr) s) =
        Outcome.returned (some (errorf (deleteFailedMessage jobName num e)))) ∧
    (∀ pipelineRef, pr.Spec.PipelineRef = some pipelineRef →
      trace (exec h (deleteJenkinsJobHistory pr) s) =
        [Event.mk (Call.DeleteHistory (jobNameOf pr pipelineRef) num)
          (h (Call.DeleteHistory (jobNameOf pr pipelineRef) num) s).1]) := by
  have hbuild : getJenkinsBuildNumber pr = num := getJenkinsBuildNumber_of_valid pr runID num hid hnum
  cases href : pr.Spec.PipelineRef with
  | none =>
      rw [exec_deleteJenkinsJobHistory_nil_ref h s pr (by omega) href]
      simp [outcome, trace]
  | some pipelineRef =>
      rw [exec_deleteJenkinsJobHistory_valid h s pr pipelineRef (by omega) href, hbuild]
      simp only [outcome, trace, List.mem_singleton, Event.mk.injEq, Call.DeleteHistory.injEq,
        and_true, heq_eq_eq, Option.some.injEq, forall_eq']
      refine ⟨?_, ?_⟩
      · cases hans : (h (Call.DeleteHistory (jobNameOf pr pipelineRef) num) s).1 with
        | none =>
            simp only [true_iff]
            exact ⟨_, none, ⟨rfl, rfl⟩, Or.inl rfl⟩
        | some e =>
            by_cases hnf : stringsContains e.msg "not found resources" = true
            · simp only [hnf, if_true, true_iff]
              exact ⟨_, some e, ⟨rfl, rfl⟩, Or.inr ⟨e, rfl, hnf⟩⟩
            · simp only [hnf, Bool.false_eq_true, if_false, Outcome.returned.injEq,
                reduceCtorEq, false_iff]
              rintro ⟨jobName, ans, ⟨-, rfl⟩, hans' | ⟨e', hans', hnf'⟩⟩
              · cases hans'
              · cases hans'
                exact hnf hnf'
      · intro jobName e hmem hnf
        obtain ⟨rfl, he⟩ := hmem
        rw [← he]
        simp [hnf]

/-- C6 at the PipelineRun of the handler tests, with Jenkins answering the deletion with
success. -/
theorem deleteJenkinsJobHistory_idempotent_delete_witness :
    (GetPipelineRunID testRun = some "2" ∧ Atoi "2" = Except.ok 2 ∧ (0 : Int) ≤ 2) ∧
    ((outcome (exec World.handle (deleteJenkinsJobHistory testRun) (sampleWorld [])) =
        Outcome.returned none ↔
      ∃ jobName ans,
        Event.mk (Call.DeleteHistory jobName 2) ans ∈
          trace (exec World.handle (deleteJenkinsJobHistory testRun) (sampleWorld [])) ∧
        (ans = none ∨
          ∃ e, ans = some e ∧ stringsContains e.msg "not found resources" = true)) ∧
    (∀ jobName e,
      Event.mk (Call.DeleteHistory jobName 2) (some e) ∈
        trace (exec World.handle (deleteJenkinsJobHistory testRun) (sampleWorld [])) →
      stringsContains e.msg "not found resources" = false →
      outcome (exec World.handle (deleteJenkinsJobHistory testRun) (sampleWorld [])) =
        Outcome.returned (some (errorf (deleteFailedMessage jobName 2 e)))) ∧
    (∀ pipelineRef, testRun.Spec.PipelineRef = some pipelineRef →
      trace (exec World.handle (deleteJenkinsJobHistory testRun) (sampleWorld [])) =
        [Event.mk (Call.DeleteHistory (jobNameOf testRun pipelineRef) 2)
          (World.handle (Call.DeleteHistory (jobNameOf testRun pipelineRef) 2)
            (sampleWorld [])).1])) :=
  ⟨⟨rfl, rfl, by decide⟩,
    deleteJenkinsJobHistory_idempotent_delete World.handle (sampleWorld []) testRun "2" 2
      rfl rfl (by decide)⟩

theorem exec_bind_do {σ α β : Type} (h : Handler σ) (p : Prog α) (f : α → Prog β) (s : σ) :
    exec h (p >>= f) s =
      match exec h p s with
      | (Outcome.returned a, tr, s') =>
          ((exec h (f a) s').1, tr ++ (exec h (f a) s').2.1, (exec h (f a) s').2.2)
      | (Outcome.crashed m, tr, s') => (Outcome.crashed m, tr, s') :=
  exec_bind h p f s

theorem exec_perform {σ : Type} (h : Handler σ) (c : Call) (s : σ) :
    exec h (perform c) s = (Outcome.returned (h c s).1, [Event.mk c (h c s).1], (h c s).2) :=
  rfl

theorem exec_pure {σ α : Type} (h : Handler σ) (a : α) (s : σ) :
    exec h (pure a) s = (Outcome.returned a, [], s) :=
  rfl

/-- The run of a cycle whose fetch is answered with a record marked for deletion: the
cleanup, and after a successful cleanup the write of the record without the finalizer. -/
theorem exec_Reconcile_deleting {σ : Type} (d : Deps) (req : Request) (h : Handler σ)
    (s : σ) (pr : PipelineRun)
    (hget : (h (Call.Get req.NamespacedName) s).1 = Except.ok pr)
    (hdel : IsZero pr.DeletionTimestamp = false) :
    exec h (Reconcile d req) s =
      match exec h (deleteJenkinsJobHistory pr) (h (Call.Get req.NamespacedName) s).2 with
      | (Outcome.returned none, tr, s') =>
          (Outcome.returned ({}, (h (Call.Update (withoutFinalizer pr)) s').1),
            Event.mk (Call.Get req.NamespacedName) (Except.ok pr) ::
              (tr ++ [Event.mk (Call.Update (withoutFinalizer pr))
                (h (Call.Update (withoutFinalizer pr)) s').1]),
            (h (Call.Update (withoutFinalizer pr)) s').2)
      | (Outcome.returned (some e), tr, s') =>
          (Outcome.returned ({}, some e),
            Event.mk (Call.Get req.NamespacedName) (Except.ok pr) :: tr, s')
      | (Outcome.crashed m, tr, s') =>
          (Outcome.crashed m, Event.mk (Call.Get req.NamespacedName) (Except.ok pr) :: tr, s') := by
  unfold Reconcile
  rw [exec_bind_do, exec_perform]
  dsimp only
  rw [hget]
  dsimp only
  rw [if_pos (by simp [hdel]), exec_bind_do]
  rcases hc : exec h (deleteJenkinsJobHistory pr) (h (Call.Get req.NamespacedName) s).2 with
    ⟨o, tr, s'⟩
  cases o with
  | crashed m => rfl
  | returned err =>
      cases err with
      | some e => simp [exec_pure]
      | none => simp [exec_bind_do, exec_perform, exec_pure, withoutFinalizer]

theorem deleteJenkinsJobHistory_no_store_write {σ : Type} (h : Handler σ) (s : σ)
    (pr : PipelineRun) :
    ∀ e ∈ trace (exec h (deleteJenkinsJobHistory pr) s), isStoreWrite e.call = false :=
  exec_of_all _ _
    (@safe_deleteJenkinsJobHistory (fun e => isStoreWrite e.call = false) pr
      (fun _ _ _ _ => rfl)) h s

theorem finalizer_not_mem_withoutFinalizer (pr : PipelineRun) :
    PipelineRunFinalizerName ∉ (withoutFinalizer pr).Finalizers := by
  simp [withoutFinalizer, RemoveString]

/-- C4 (invariant I3): in every environment, in a cycle whose fetch is answered with a
record `pr` marked for deletion, the write that removes the PipelineRun finalizer is
issued exactly when the cleanup `deleteJenkinsJobHistory` of the cycle returned nil; then
it is the last call of the cycle, it carries `pr` without the finalizer, and its answer
is the error the cycle returns.  When the cleanup returned an error, the cycle makes no
store write and returns that error. -/
theorem reconcile_removes_finalizer_iff_cleanup_succeeded {σ : Type} (d : Deps)
    (req : Request) (h : Handler σ) (s : σ) (pr : PipelineRun)
    (hget : (h (Call.Get req.NamespacedName) s).1 = Except.ok pr)
    (hdel : IsZero pr.DeletionTimestamp = false) :
    ((∃ e ∈ trace (exec h (Reconcile d req) s), ∃ obj, e.call = Call.Update obj) ↔
      outcome (exec h (deleteJenkinsJobHistory pr) (h (Call.Get req.NamespacedName) s).2) =
        Outcome.returned none) ∧
    (outcome (exec h (deleteJenkinsJobHistory pr) (h (Call.Get req.NamespacedName) s).2) =
        Outcome.returned none →
      ∃ ans : GoError,
        trace (exec h (Reconcile d req) s) =
          Event.mk (Call.Get req.NamespacedName) (Except.ok pr) ::
            (trace (exec h (deleteJenkinsJobHistory pr) (h (Call.Get req.NamespacedName) s).2)
              ++ [Event.mk (Call.Update (withoutFinalizer pr)) ans]) ∧
        outcome (exec h (Reconcile d req) s) = Outcome.returned ({}, ans) ∧
        PipelineRunFinalizerName ∉ (withoutFinalizer pr).Finalizers) ∧
    (∀ err,
      outcome (exec h (deleteJenkinsJobHistory pr) (h (Call.Get req.NamespacedName) s).2) =
        Outcome.returned (some err) →
      (∀ e ∈ trace (exec h (Reconcile d req) s), isStoreWrite e.call = false) ∧
      outcome (exec h (Reconcile d req) s) = Outcome.returned ({}, some err)) := by
  have hnw := deleteJenkinsJobHistory_no_store_write h (h (Call.Get req.NamespacedName) s).2 pr
  have hnu : ∀ e ∈ trace (exec h (deleteJenkinsJobHistory pr)
      (h (Call.Get req.NamespacedName) s).2), ∀ obj, e.call ≠ Call.Update obj := by
    intro e he obj hobj
    have := hnw e he
    rw [hobj] at this
    cases this
  rw [exec_Reconcile_deleting d req h s pr hget hdel]
  rcases hc : exec h (deleteJenkinsJobHistory pr) (h (Call.Get req.NamespacedName) s).2 with
    ⟨o, tr, s'⟩
  rw [hc] at hnw hnu
  simp only [trace] at hnw hnu
  cases o with
  | crashed m =>
      refine ⟨?_, ?_, ?_⟩
      · simp only [outcome, trace, reduceCtorEq, iff_false, not_exists, not_and]
        intro e he obj hobj
        rcases List.mem_cons.1 he with rfl | he
        · cases hobj
        · exact hnu e he obj hobj
      · intro hcon; cases hcon
      · intro err hcon; cases hcon
  | returned err =>
      cases err with
      | some e0 =>
          refine ⟨?_, ?_, ?_⟩
          · simp only [outcome, trace, Outcome.returned.injEq, reduceCtorEq, iff_false,
              not_exists, not_and]
            intro e he obj hobj
            rcases List.mem_cons.1 he with rfl | he
            · cases hobj
            · exact hnu e he obj hobj
          · intro hcon; cases hcon
          · intro err herr
            simp only [outcome, Outcome.returned.injEq, Option.some.injEq] at herr
            subst herr
            refine ⟨?_, rfl⟩
            intro e he
            rcases List.mem_cons.1 he with rfl | he
            · rfl
            · exact hnw e he
      | none =>
          refine ⟨?_, ?_, ?_⟩
          · simp only [outcome, trace, iff_true]
            exact ⟨_, List.mem_cons_of_mem _ (List.mem_append_right _ (List.mem_singleton.2 rfl)),
              _, rfl⟩
          · intro _
            exact ⟨_, rfl, rfl, finalizer_not_mem_withoutFinalizer pr⟩
          · intro err hcon; cases hcon

/-- C4 at the record `deletingRun` in the sample world. -/
theorem reconcile_removes_finalizer_iff_cleanup_succeeded_witness :
    ((World.handle (Call.Get requestA.NamespacedName) (sampleWorld [deletingRun])).1
        = Except.ok deletingRun ∧
      IsZero deletingRun.DeletionTimestamp = false) ∧
    outcome (exec World.handle (Reconcile sampleDeps requestA) (sampleWorld [deletingRun])) =
      Outcome.returned ({}, none) ∧
    ∃ e ∈ trace (exec World.handle (Reconcile sampleDeps requestA) (sampleWorld [deletingRun])),
      ∃ obj, e.call = Call.Update obj :=
  ⟨⟨rfl, rfl⟩, rfl,
    (reconcile_removes_finalizer_iff_cleanup_succeeded sampleDeps requestA World.handle
      (sampleWorld [deletingRun]) deletingRun rfl rfl).1.2 rfl⟩

/-! ### Build numbers -/

theorem digitValue_digitChar : ∀ k < 10, digitValue (Nat.digitChar k) = some k := by
  decide

theorem parseDigits_toDigitsCore :
    ∀ fuel n ds, n < fuel →
      parseDigits (Nat.toDigitsCore 10 fuel n ds) 0 = parseDigits ds n := by
  intro fuel
  induction fuel with
  | zero => intro n ds hn; omega
  | succ fuel ih =>
      intro n ds hn
      have hd := digitValue_digitChar (n % 10) (Nat.mod_lt _ (by decide))
      simp only [Nat.toDigitsCore]
      split
      · rename_i hq
        simp only [parseDigits, hd]
        congr 1
        omega
      · rename_i hq
        rw [ih (n / 10) _ (by omega)]
        simp only [parseDigits, hd]
        congr 1
        omega

theorem toDigitsCore_head :
    ∀ fuel n ds, n < fuel →
      ∃ k, k < 10 ∧ ∃ rest, Nat.toDigitsCore 10 fuel n ds = Nat.digitChar k :: rest := by
  intro fuel
  induction fuel with
  | zero => intro n ds hn; omega
  | succ fuel ih =>
      intro n ds hn
      simp only [Nat.toDigitsCore]
      split
      · exact ⟨n % 10, Nat.mod_lt _ (by decide), ds, rfl⟩
      · exact ih (n / 10) _ (by omega)

/-- Go `strconv.Atoi` on a text that starts with a digit and reads as `n`. -/
theorem Atoi_unsigned (s : String) (k : Nat) (rest : List Char) (n : Nat) (hk : k < 10)
    (hs : s.data = Nat.digitChar k :: rest) (hp : parseDigits s.data 0 = some n) :
    Atoi s =
      if maxInt < (n : Int) then
        Except.error (errorf ("strconv.Atoi: parsing \"" ++ s ++ "\": value out of range"))
      else Except.ok (n : Int) := by
  unfold Atoi
  rw [hs] at hp
  have hmin : ¬ ((n : Int) < minInt) := by
    unfold minInt
    omega
  interval_cases k <;> simp [Nat.digitChar] at hs hp <;> simp [hs, hp, hmin]

/-- Go `strconv.Atoi` on a minus sign followed by a text that reads as `n`. -/
theorem Atoi_negative (s : String) (ds : List Char) (n : Nat)
    (hs : s.data = '-' :: ds) (hne : ds ≠ []) (hp : parseDigits ds 0 = some n) :
    Atoi s =
      if -(n : Int) < minInt then
        Except.error (errorf ("strconv.Atoi: parsing \"" ++ s ++ "\": value out of range"))
      else Except.ok (-(n : Int)) := by
  unfold Atoi
  have hmax : ¬ (maxInt < -(n : Int)) := by
    unfold maxInt
    omega
  simp [hs, hne, hp, hmax]

/-- The decimal text of a natural number reads back as that number. -/
theorem parseDigits_repr (n : Nat) : parseDigits (toString n).data 0 = some n := by
  show parseDigits (Nat.toDigits 10 n) 0 = some n
  unfold Nat.toDigits
  rw [parseDigits_toDigitsCore (n + 1) n [] (by omega)]
  rfl

/-- Go `strconv.Atoi` on the decimal text of an integer: the integer when it fits in `int`,
an error otherwise. -/
theorem Atoi_toString (n : Int) :
    Atoi (toString n) =
      if n < minInt ∨ maxInt < n then
        Except.error (errorf ("strconv.Atoi: parsing \"" ++ toString n ++ "\": value out of range"))
      else Except.ok n := by
  cases n with
  | ofNat m =>
      obtain ⟨k, hk, rest, hrest⟩ := toDigitsCore_head (m + 1) m [] (by omega)
      have hs : (toString (Int.ofNat m)).data = Nat.digitChar k :: rest := hrest
      have hp : parseDigits (toString (Int.ofNat m)).data 0 = some m := parseDigits_repr m
      rw [Atoi_unsigned _ k rest m hk hs hp]
      have hmin : ¬ ((m : Int) < minInt) := by
        unfold minInt
        omega
      simp [hmin]
  | negSucc m =>
      have hs : (toString (Int.negSucc m)).data = '-' :: (toString (m + 1)).data := by
        show ("-" ++ toString (m + 1)).data = _
        rw [String.data_append]
        rfl
      obtain ⟨k, hk, rest, hrest⟩ := toDigitsCore_head (m + 1 + 1) (m + 1) [] (by omega)
      have hne : (toString (m + 1)).data ≠ [] := by
        have h1 : (toString (m + 1)).data = Nat.digitChar k :: rest := hrest
        rw [h1]
        exact List.cons_ne_nil _ _
      rw [Atoi_negative _ _ (m + 1) hs hne (parseDigits_repr (m + 1))]
      have hval : -((m + 1 : Nat) : Int) = Int.negSucc m := by
        rw [Int.negSucc_eq]
        push_cast
        ring
      have hmax : ¬ (maxInt < Int.negSucc m) := by
        unfold maxInt
        have : Int.negSucc m < 0 := Int.negSucc_lt_zero m
        omega
      rw [hval]
      simp [hmax]

theorem parseDigits_none_of_not_digits :
    ∀ (ds : List Char) (acc : Nat),
      ds.all (fun c => decide ('0' ≤ c ∧ c ≤ '9')) = false → parseDigits ds acc = none := by
  intro ds
  induction ds with
  | nil => intro acc h; simp at h
  | cons c cs ih =>
      intro acc h
      by_cases hc : '0' ≤ c ∧ c ≤ '9'
      · have hcs : cs.all (fun c => decide ('0' ≤ c ∧ c ≤ '9')) = false := by
          simpa [List.all_cons, hc] using h
        simp only [parseDigits, digitValue, hc, and_self, if_true]
        exact ih _ hcs
      · simp only [parseDigits, digitValue, hc, if_false]

/-- The digits `strconv.Atoi` reads after the optional sign. -/
theorem Atoi_error_of_digits (s : String) (ds : List Char)
    (hds : ds = (match s.data with
      | '-' :: r => r
      | '+' :: r => r
      | cs => cs))
    (hbad : ds = [] ∨ parseDigits ds 0 = none) :
    ∃ err, Atoi s = Except.error err := by
  unfold Atoi
  have hsnd : (match s.data with
      | '-' :: r => (true, r)
      | '+' :: r => (false, r)
      | _ => (false, s.data)).2 = ds := by
    rw [hds]
    split <;> rfl
  dsimp only
  rw [hsnd]
  rcases hbad with hnil | hnone
  · subst hnil
    exact ⟨_, rfl⟩
  · by_cases hempty : ds.isEmpty = true
    · rw [if_pos hempty]
      exact ⟨_, rfl⟩
    · rw [if_neg hempty, hnone]
      exact ⟨_, rfl⟩

/-- Go `strconv.Atoi` fails on a text that is not an integer text. -/
theorem Atoi_error_of_not_integer_text (s : String) (h : isIntegerText s = false) :
    ∃ err, Atoi s = Except.error err := by
  refine Atoi_error_of_digits s _ rfl ?_
  unfold isIntegerText at h
  dsimp only at h
  rcases Bool.and_eq_false_iff.1 h with h1 | h2
  · left
    simpa using h1
  · right
    exact parseDigits_none_of_not_digits _ _ h2

/-- C7, as amended: `getJenkinsBuildNumber` returns `n` for a PipelineRun whose run
identifier is the decimal text of an integer `n` that fits in a 64-bit `int`; it returns
`-1` when there is no run identifier, when the run identifier is not an integer text, and
when it is the decimal text of an integer that does not fit in `int`. -/
theorem getJenkinsBuildNumber_spec (pr : PipelineRun) :
    (∀ n : Int, minInt ≤ n → n ≤ maxInt → GetPipelineRunID pr = some (toString n) →
      getJenkinsBuildNumber pr = n) ∧
    (GetPipelineRunID pr = none → getJenkinsBuildNumber pr = -1) ∧
    (∀ runID, GetPipelineRunID pr = some runID → isIntegerText runID = false →
      getJenkinsBuildNumber pr = -1) ∧
    (∀ n : Int, n < minInt ∨ maxInt < n → GetPipelineRunID pr = some (toString n) →
      getJenkinsBuildNumber pr = -1) := by
  refine ⟨?_, ?_, ?_, ?_⟩
  · intro n hmin hmax hid
    refine getJenkinsBuildNumber_of_valid pr _ n hid ?_
    rw [Atoi_toString, if_neg (by omega)]
  · intro hid
    unfold getJenkinsBuildNumber
    rw [hid]
  · intro runID hid htext
    obtain ⟨err, herr⟩ := Atoi_error_of_not_integer_text runID htext
    unfold getJenkinsBuildNumber
    rw [hid]
    dsimp only
    rw [herr]
  · intro n hout hid
    unfold getJenkinsBuildNumber
    rw [hid]
    dsimp only
    rw [Atoi_toString, if_pos hout]

/-- C7 at the PipelineRuns of the unit test and at one beyond the range of `int`. -/
theorem getJenkinsBuildNumber_spec_witness :
    (GetPipelineRunID testRun = some (toString (2 : Int)) ∧ getJenkinsBuildNumber testRun = 2) ∧
    (GetPipelineRunID emptyPipelineRun = none ∧ getJenkinsBuildNumber emptyPipelineRun = -1) ∧
    (GetPipelineRunID invalidRun = some "a" ∧ isIntegerText "a" = false ∧
      getJenkinsBuildNumber invalidRun = -1) ∧
    (GetPipelineRunID overflowRun = some (toString (9223372036854775808 : Int)) ∧
      getJenkinsBuildNumber overflowRun = -1) :=
  ⟨⟨rfl, (getJenkinsBuildNumber_spec testRun).1 2 (by decide) (by decide) rfl⟩,
    ⟨rfl, (getJenkinsBuildNumber_spec emptyPipelineRun).2.1 rfl⟩,
    ⟨rfl, rfl, (getJenkinsBuildNumber_spec invalidRun).2.2.1 "a" rfl rfl⟩,
    ⟨rfl, (getJenkinsBuildNumber_spec overflowRun).2.2.2 9223372036854775808
      (Or.inr (by decide)) rfl⟩⟩

/-- C7 as stated fails: the run identifier of `overflowRun` is the decimal text of the
integer `2 ^ 63`, and `getJenkinsBuildNumber` returns `-1` for it. -/
theorem getJenkinsBuildNumber_overflow :
    ¬ (∀ (pr : PipelineRun) (n : Int), GetPipelineRunID pr = some (toString n) →
      getJenkinsBuildNumber pr = n) := by
  intro hall
  have h := hall overflowRun 9223372036854775808 rfl
  have h' : getJenkinsBuildNumber overflowRun = -1 := rfl
  rw [h'] at h
  exact absurd h (by decide)

/-! ### Records marked for deletion -/

/-- In every environment, a cycle that fetches a record marked for deletion makes, after
the fetch, only calls of the cleanup branch: the deletion of the Jenkins history and the
write of the record without the finalizer.  It writes no label, no status and triggers no
run. -/
theorem reconcile_deleting_calls {σ : Type} (d : Deps) (req : Request) (h : Handler σ)
    (s : σ) (pr : PipelineRun)
    (hget : (h (Call.Get req.NamespacedName) s).1 = Except.ok pr)
    (hdel : IsZero pr.DeletionTimestamp = false) :
    ∃ rest, trace (exec h (Reconcile d req) s) =
        Event.mk (Call.Get req.NamespacedName) (Except.ok pr) :: rest ∧
      ∀ e ∈ rest, mayDeleting pr e.call := by
  obtain ⟨rest, htr, hmay⟩ := reconcile_calls_exec d req h s pr hget
  refine ⟨rest, htr, fun e he => ?_⟩
  have hc := hmay e he
  unfold reconcileMay at hc
  rw [if_pos hdel] at hc
  exact hc

/-- C3 at a record marked for deletion, without parent reference and with the recorded
build number `2`: the cleanup dereferences the nil parent reference, so the cycle stops
on a run-time panic right after the fetch instead of completing. -/
theorem reconcile_deleting_without_ref_crashes :
    IsZero deletingRunWithoutRef.DeletionTimestamp = false ∧
    deletingRunWithoutRef.Spec.PipelineRef = none ∧
    outcome (exec World.handle (Reconcile sampleDeps requestA)
        (sampleWorld [deletingRunWithoutRef])) =
      Outcome.crashed "invalid memory address or nil pointer dereference" ∧
    trace (exec World.handle (Reconcile sampleDeps requestA)
        (sampleWorld [deletingRunWithoutRef])) =
      [Event.mk (Call.Get requestA.NamespacedName) (Except.ok deletingRunWithoutRef)] :=
  ⟨rfl, rfl, rfl, rfl⟩

/-! ### Cycles in which every call succeeds -/

theorem Prog.yields_pure {α : Type} {A : Event → Prop} {R : α → Prop} {a : α} (h : R a) :
    (pure a : Prog α).yields A R :=
  fun _ => ⟨a, rfl, h⟩

theorem Prog.yields_bind {α β : Type} {A : Event → Prop} {p : Prog α} {f : α → Prog β}
    {R : α → Prop} {R' : β → Prop} (hp : p.yields A R)
    (hf : ∀ a, R a → (f a).yields A R') : (p >>= f).yields A R' := by
  show (p.bind f).all _
  rw [Prog.all_bind]
  refine Prog.all_mono hp (fun tr o h1 => ?_)
  cases o with
  | returned a =>
      by_cases hA : ∀ e ∈ tr, A e
      · obtain ⟨a', ha', hR⟩ := h1 hA
        cases ha'
        refine Prog.all_mono (hf a hR) (fun tr' o' h2 hall => ?_)
        exact h2 (fun e he => hall e (List.mem_append_right _ he))
      · refine Prog.all_of_forall _ (fun tr' o' hall => ?_)
        exact absurd (fun e he => hall e (List.mem_append_left _ he)) hA
  | crashed m =>
      intro hA
      obtain ⟨a', ha', -⟩ := h1 hA
      cases ha'

theorem Prog.yields_perform {A : Event → Prop} {c : Call} {R : Resp c → Prop}
    (h : ∀ r : Resp c, A (Event.mk c r) → R r) : (perform c).yields A R :=
  fun r hall => ⟨r, rfl, h r (hall _ (List.mem_singleton.2 rfl))⟩

theorem Prog.yields_perform_bind {β : Type} {A : Event → Prop} {c : Call}
    {f : Resp c → Prog β} {R' : β → Prop}
    (hf : ∀ r : Resp c, A (Event.mk c r) → (f r).yields A R') :
    (perform c >>= f).yields A R' :=
  Prog.yields_bind (R := fun r => A (Event.mk c r)) (Prog.yields_perform (fun _ hr => hr))
    hf

theorem yields_RetryOnConflict {A : Event → Prop} {fn : Prog GoError}
    (h : fn.yields A (fun err => err = none)) :
    ∀ n, (RetryOnConflict n fn).yields A (fun err => err = none)
  | 0 => Prog.yields_pure rfl
  | 1 => h
  | n + 2 => by
      rw [RetryOnConflict]
      refine Prog.yields_bind h (fun err herr => ?_)
      subst herr
      exact Prog.yields_pure rfl

/-- When its calls succeed, `updateStatus` returns nil. -/
theorem yields_updateStatus (desiredStatus : PipelineRunStatus) (prKey : ObjectKey) :
    (updateStatus desiredStatus prKey).yields (fun e => failed e = false)
      (fun err => err = none) := by
  unfold updateStatus
  refine yields_RetryOnConflict ?_ _
  refine Prog.yields_perform_bind (fun res hres => ?_)
  cases res with
  | error err => cases hres
  | ok prToUpdate =>
      dsimp only
      split
      · exact Prog.yields_pure rfl
      · refine Prog.yields_perform (fun r hr => ?_)
        cases r with
        | none => rfl
        | some e => cases hr

/-- When its calls succeed, `updateLabelsAndAnnotations` returns nil. -/
theorem yields_updateLabelsAndAnnotations (pr : PipelineRun) :
    (updateLabelsAndAnnotations pr).yields (fun e => failed e = false)
      (fun err => err = none) := by
  unfold updateLabelsAndAnnotations
  refine Prog.yields_perform_bind (fun res hres => ?_)
  cases res with
  | error err => cases hres
  | ok prToUpdate =>
      dsimp only
      split
      · exact Prog.yields_pure rfl
      · refine Prog.yields_perform (fun r hr => ?_)
        cases r with
        | none => rfl
        | some e => cases hr

/-- When the run identifier and the branch are at hand and its call succeeds,
`getPipelineRunResult` returns a run. -/
theorem yields_getPipelineRunResult (ns name : String) (pr : PipelineRun)
    (runID branch : String) (hid : GetPipelineRunID pr = some runID)
    (hbranch : getSCMRefName pr.Spec = Except.ok branch) :
    (getPipelineRunResult ns name pr).yields (fun e => failed e = false)
      (fun res => ∃ pipelineBuild, res = Except.ok pipelineBuild) := by
  unfold getPipelineRunResult
  rw [hid]
  dsimp only
  rw [hbranch]
  refine Prog.yields_perform (fun r hr => ?_)
  cases r with
  | error err => cases hr
  | ok pipelineBuild => exact ⟨pipelineBuild, rfl⟩

/-- When the run identifier and the branch are at hand and its call succeeds,
`getPipelineNodes` returns the stages. -/
theorem yields_getPipelineNodes (ns name : String) (pr : PipelineRun)
    (runID branch : String) (hid : GetPipelineRunID pr = some runID)
    (hbranch : getSCMRefName pr.Spec = Except.ok branch) :
    (getPipelineNodes ns name pr).yields (fun e => failed e = false)
      (fun res => ∃ prNodes, res = Except.ok prNodes) := by
  unfold getPipelineNodes
  rw [hid]
  dsimp only
  rw [hbranch]
  refine Prog.yields_perform (fun r hr => ?_)
  cases r with
  | error err => cases hr
  | ok prNodes => exact ⟨prNodes, rfl⟩

/-- The polling branch: a cycle that fetches a started record with a parent reference
and a derivable branch returns a requeue after three seconds when all its calls
succeed. -/
theorem reconcile_polling_all (d : Deps) (req : Request) (pr : PipelineRun)
    (pipelineRef : ObjectReference) (runID branch : String)
    (hdel : IsZero pr.DeletionTimestamp = true) (hbuildable : Buildable pr = true)
    (href : pr.Spec.PipelineRef = some pipelineRef) (hname : pipelineRef.Name ≠ "")
    (hid : GetPipelineRunID pr = some runID)
    (hbranch : getSCMRefName pr.Spec = Except.ok branch) :
    (Reconcile d req).all (fun tr o =>
      tr.head? = some (Event.mk (Call.Get req.NamespacedName) (Except.ok pr)) →
      (∀ e ∈ tr, failed e = false) →
      o = Outcome.returned ({ RequeueAfter := 3 * Second }, none)) := by
  unfold Reconcile
  rw [Prog.all_perform_bind]
  intro r
  cases r with
  | error err =>
      intro hhead
      simp at hhead
  | ok pr0 =>
      by_cases hpr : pr0 = pr
      swap
      · refine Prog.all_of_forall _ (fun tr o hhead => ?_)
        simp only [List.head?_cons, Option.some.injEq, Event.mk.injEq, heq_eq_eq,
          true_and] at hhead
        exact (hpr (Except.ok.inj hhead)).elim
      subst hpr
      refine Prog.all_mono
        (Q := fun tr o => (∀ e ∈ tr, failed e = false) →
          ∃ a, o = Outcome.returned a ∧ a = ({ RequeueAfter := 3 * Second }, none)) ?_ ?_
      swap
      · intro tr o hy _ hall
        obtain ⟨a, ha, hval⟩ := hy (fun e he => hall e (List.mem_cons_of_mem _ he))
        rw [ha, hval]
      show Prog.yields (fun e => failed e = false) _ _
      dsimp only
      rw [if_neg (by simp [hdel]), if_neg (by simp [hbuildable]), href]
      dsimp only
      rw [if_neg hname]
      refine Prog.yields_perform_bind (fun res hres => ?_)
      cases res with
      | error err => cases hres
      | ok pipeline =>
          dsimp only
          split
          swap
          · rename_i hns
            have hs : HasStarted pr0 = true := by
              unfold HasStarted
              rw [hid]
              rfl
            exact absurd hs hns
          refine Prog.yields_bind
            (yields_getPipelineRunResult _ _ _ runID branch hid hbranch) (fun res hres => ?_)
          obtain ⟨pipelineBuild, rfl⟩ := hres
          refine Prog.yields_bind
            (yields_getPipelineNodes _ _ _ runID branch hid hbranch) (fun res hres => ?_)
          obtain ⟨prNodes, rfl⟩ := hres
          dsimp only [jsonMarshal]
          refine Prog.yields_bind (yields_updateLabelsAndAnnotations _) (fun err herr => ?_)
          subst herr
          dsimp only
          refine Prog.yields_bind (yields_updateStatus _ _) (fun err herr => ?_)
          subst herr
          exact Prog.yields_perform_bind (fun _ _ => Prog.yields_pure rfl)

/-- C9 (polling requeue): in every environment, a cycle that fetches a record with a
recorded run identifier, without deletion marker, buildable and with a parent reference,
in which the run query reaches Jenkins and every call (the parent fetch, the run query,
the stage query, the metadata write and the status write with their reads) is answered
without error, returns `RequeueAfter` of three seconds and no error, whatever run
Jenkins reports. -/
theorem reconcile_polling_requeue {σ : Type} (d : Deps) (req : Request) (h : Handler σ)
    (s : σ) (pr : PipelineRun) (pipelineRef : ObjectReference)
    (hget : (h (Call.Get req.NamespacedName) s).1 = Except.ok pr)
    (hdel : IsZero pr.DeletionTimestamp = true) (hbuildable : Buildable pr = true)
    (href : pr.Spec.PipelineRef = some pipelineRef) (hname : pipelineRef.Name ≠ "")
    (hstarted : HasStarted pr = true)
    (hrun : ∃ e ∈ trace (exec h (Reconcile d req) s), ∃ option, e.call = Call.GetBuild option)
    (hok : ∀ e ∈ trace (exec h (Reconcile d req) s), failed e = false) :
    outcome (exec h (Reconcile d req) s) =
      Outcome.returned ({ RequeueAfter := 3 * Second }, none) := by
  obtain ⟨rest, htr, hmay⟩ := reconcile_calls_exec d req h s pr hget
  -- the run query reached Jenkins, so the branch could be derived
  obtain ⟨e, he, option, hcall⟩ := hrun
  rw [htr] at he
  have hbranch : getSCMRefName pr.Spec = Except.ok option.Branch := by
    rcases List.mem_cons.1 he with rfl | he
    · cases hcall
    have hc := hmay e he
    unfold reconcileMay at hc
    rw [if_neg (by simp [hdel]), if_neg (by simp [hbuildable]), href] at hc
    dsimp only at hc
    rw [if_neg hname, if_pos hstarted, hcall] at hc
    rcases hc with hc | ⟨_, hc, _, hb⟩ | ⟨_, hc, _⟩ | ⟨_, _, _, _, hc⟩ | hc | hc |
      ⟨_, _, _, hc, _⟩ | ⟨_, _, hc, _⟩
    · cases hc
    · cases hc
      exact hb
    · cases hc
    · cases hc
    · cases hc
    · cases hc
    · cases hc
    · cases hc
  obtain ⟨runID, hid⟩ : ∃ runID, GetPipelineRunID pr = some runID := by
    cases hv : GetPipelineRunID pr with
    | none => simp [HasStarted, hv] at hstarted
    | some v => exact ⟨v, rfl⟩
  refine exec_of_all _ _
    (reconcile_polling_all d req pr pipelineRef runID option.Branch hdel hbuildable href hname
      hid hbranch) h s ?_ hok
  rw [htr]
  rfl

/-- C9 at the record `startedRun` in the sample world. -/
theorem reconcile_polling_requeue_witness :
    ((World.handle (Call.Get requestA.NamespacedName) (sampleWorld [startedRun])).1
        = Except.ok startedRun ∧
      IsZero startedRun.DeletionTimestamp = true ∧ Buildable startedRun = true ∧
      startedRun.Spec.PipelineRef = some { Name := "build-a" } ∧
      ({ Name := "build-a" } : ObjectReference).Name ≠ "" ∧ HasStarted startedRun = true ∧
      (∃ e ∈ trace (exec World.handle (Reconcile sampleDeps requestA)
          (sampleWorld [startedRun])), ∃ option, e.call = Call.GetBuild option) ∧
      (∀ e ∈ trace (exec World.handle (Reconcile sampleDeps requestA)
          (sampleWorld [startedRun])), failed e = false)) ∧
    outcome (exec World.handle (Reconcile sampleDeps requestA) (sampleWorld [startedRun])) =
      Outcome.returned ({ RequeueAfter := 3 * Second }, none) := by
  have hrun : ∃ e ∈ trace (exec World.handle (Reconcile sampleDeps requestA)
      (sampleWorld [startedRun])), ∃ option, e.call = Call.GetBuild option :=
    ⟨(trace (exec World.handle (Reconcile sampleDeps requestA)
        (sampleWorld [startedRun]))).get ⟨2, by decide⟩, List.get_mem _ _ _, _, rfl⟩
  have hok : ∀ e ∈ trace (exec World.handle (Reconcile sampleDeps requestA)
      (sampleWorld [startedRun])), failed e = false := by decide
  exact ⟨⟨rfl, rfl, rfl, rfl, by decide, rfl, hrun, hok⟩,
    reconcile_polling_requeue sampleDeps requestA World.handle (sampleWorld [startedRun])
      startedRun { Name := "build-a" } rfl rfl rfl rfl (by decide) rfl hrun hok⟩

/-! ### Records without parent reference -/

/-- In every environment, a cycle that fetches a buildable record without deletion
marker and without parent reference makes, after the fetch, only calls of the orphan
branch; the only status it ever writes is the status it fetched. -/
theorem reconcile_orphan_calls {σ : Type} (d : Deps) (req : Request) (h : Handler σ)
    (s : σ) (pr : PipelineRun)
    (hget : (h (Call.Get req.NamespacedName) s).1 = Except.ok pr)
    (hdel : IsZero pr.DeletionTimestamp = true) (hbuildable : Buildable pr = true)
    (href : pr.Spec.PipelineRef = none ∨
      ∃ pipelineRef, pr.Spec.PipelineRef = some pipelineRef ∧ pipelineRef.Name = "") :
    ∃ rest, trace (exec h (Reconcile d req) s) =
        Event.mk (Call.Get req.NamespacedName) (Except.ok pr) :: rest ∧
      ∀ e ∈ rest, mayOrphan pr e.call := by
  obtain ⟨rest, htr, hmay⟩ := reconcile_calls_exec d req h s pr hget
  refine ⟨rest, htr, fun e he => ?_⟩
  have hc := hmay e he
  unfold reconcileMay at hc
  rw [if_neg (by simp [hdel]), if_neg (by simp [hbuildable])] at hc
  rcases href with href | ⟨pipelineRef, href, hname⟩
  · rw [href] at hc
    exact hc
  · rw [href] at hc
    dsimp only at hc
    rw [if_pos hname] at hc
    exact hc

/-- C10 at the buildable record `orphanRun`, stored without deletion marker and without
parent reference, in a world where every store write succeeds: the cycle returns no
requeue and no error, makes no call to Jenkins and stores the orphan label, but it makes
no status write, and the stored status keeps its empty phase and has no condition. -/
theorem reconcile_orphan_status_not_persisted :
    (Buildable orphanRun = true ∧ IsZero orphanRun.DeletionTimestamp = true ∧
      orphanRun.Spec.PipelineRef = none) ∧
    outcome (exec World.handle (Reconcile sampleDeps requestA) (sampleWorld [orphanRun])) =
      Outcome.returned ({}, none) ∧
    (∀ e ∈ trace (exec World.handle (Reconcile sampleDeps requestA) (sampleWorld [orphanRun])),
      failed e = false ∧ isJenkins e.call = false ∧ isStatusUpdate e.call = false) ∧
    ((final (exec World.handle (Reconcile sampleDeps requestA)
        (sampleWorld [orphanRun]))).getRun requestA.NamespacedName).map
      (fun stored => (mapGet stored.Labels PipelineRunOrphanKey, stored.Status.Phase,
        stored.Status.Conditions)) = some (some "true", "", []) :=
  ⟨⟨rfl, rfl, rfl⟩, rfl, by decide, rfl⟩

/-! ### The store -/

theorem keyOf_of_getRun (w : World) (key : ObjectKey) (pr : PipelineRun)
    (h : w.getRun key = some pr) : keyOf pr = key := by
  have hs : sameKey key pr = true := List.find?_some h
  unfold sameKey at hs
  simp only [Bool.and_eq_true, beq_iff_eq] at hs
  cases key
  simp only [keyOf, ObjectKey.mk.injEq]
  exact hs

theorem find?_map_replace (new : PipelineRun) :
    ∀ (runs : List PipelineRun) (cur : PipelineRun),
      runs.find? (sameKey (keyOf new)) = some cur →
      (runs.map (fun pr => if sameKey (keyOf new) pr then new else pr)).find?
        (sameKey (keyOf new)) = some new := by
  have hnew : sameKey (keyOf new) new = true := by simp [sameKey, keyOf]
  intro runs
  induction runs with
  | nil => intro cur h; cases h
  | cons r rs ih =>
      intro cur h
      by_cases hr : sameKey (keyOf new) r = true
      · simp [List.find?, hr, hnew]
      · have hr' : sameKey (keyOf new) r = false := by simpa using hr
        rw [List.find?, hr'] at h
        simp only [List.map, hr', Bool.false_eq_true, if_false, List.find?]
        exact ih cur h

/-- After a record is replaced, the store holds the new record under its key. -/
theorem getRun_replace (w : World) (new cur : PipelineRun)
    (h : w.getRun (keyOf new) = some cur) : (w.replace new).getRun (keyOf new) = some new :=
  find?_map_replace new w.runs cur h

theorem lookup_mem (k : String) :
    ∀ (m : StrMap) (v : String), m.lookup k = some v → ∃ p ∈ m, p.1 = k := by
  intro m
  induction m with
  | nil => intro v h; cases h
  | cons p m ih =>
      intro v h
      obtain ⟨a, b⟩ := p
      by_cases hk : k = a
      · exact ⟨(a, b), List.mem_cons_self _ _, hk.symm⟩
      · have hk' : (k == a) = false := by simpa using hk
        simp only [List.lookup, hk'] at h
        obtain ⟨p, hp, hpk⟩ := ih v h
        exact ⟨p, List.mem_cons_of_mem _ hp, hpk⟩

/-- Maps that `reflect.DeepEqual` finds equal bind every key alike. -/
theorem mapGet_eq_of_mapDeepEqual (a b : Option StrMap) (h : mapDeepEqual a b = true)
    (k : String) : mapGet a k = mapGet b k := by
  cases a with
  | none =>
      cases b with
      | none => rfl
      | some y => cases h
  | some x =>
      cases b with
      | none => cases h
      | some y =>
          simp only [mapDeepEqual, Bool.and_eq_true, List.all_eq_true, beq_iff_eq] at h
          obtain ⟨hx, hy⟩ := h
          simp only [mapGet]
          cases hxk : x.lookup k with
          | some v =>
              obtain ⟨p, hp, hpk⟩ := lookup_mem k x v hxk
              have := hx p hp
              rw [hpk] at this
              rw [this, hxk]
          | none =>
              cases hyk : y.lookup k with
              | none => rfl
              | some v =>
                  obtain ⟨p, hp, hpk⟩ := lookup_mem k y v hyk
                  have := hy p hp
                  rw [hpk, hxk, hyk] at this
                  cases this

/-- In the world, `updateStatus` on a stored record returns nil and leaves the record
with the desired status. -/
theorem exec_updateStatus_world (w : World) (desiredStatus : PipelineRunStatus)
    (key : ObjectKey) (cur : PipelineRun) (hcur : w.getRun key = some cur) :
    ∃ tr w', exec World.handle (updateStatus desiredStatus key) w =
        (Outcome.returned none, tr, w') ∧
      (∀ e ∈ tr, isBuild e.call = false) ∧
      w'.getRun key = some { cur with Status := desiredStatus } := by
  have hkey : keyOf cur = key := keyOf_of_getRun w key cur hcur
  have hfn : exec World.handle (perform (Call.Get key)) w =
      (Outcome.returned (Except.ok cur), [Event.mk (Call.Get key) (Except.ok cur)], w) := by
    rw [exec_perform]
    simp only [World.handle, hcur]
  unfold updateStatus DefaultRetrySteps
  rw [RetryOnConflict, exec_bind_do, exec_bind_do, hfn]
  dsimp only
  by_cases hst : desiredStatus = cur.Status
  · rw [if_pos hst]
    refine ⟨_, _, rfl, ?_, ?_⟩
    · intro e he
      simp only [exec_pure, List.append_nil, List.mem_singleton] at he
      rw [he]
      rfl
    · rw [hst]
      exact hcur
  · rw [if_neg hst, exec_perform]
    have hcur' : w.getRun (keyOf { cur with Status := desiredStatus }) = some cur := by
      show w.getRun (keyOf cur) = some cur
      rw [hkey]
      exact hcur
    have hans : World.handle (Call.StatusUpdate { cur with Status := desiredStatus }) w =
        (none, w.replace { cur with Status := desiredStatus }) := by
      simp only [World.handle, hcur']
    rw [hans]
    refine ⟨_, _, rfl, ?_, ?_⟩
    · intro e he
      simp only [exec_pure, List.append_nil, List.mem_cons, List.mem_singleton,
        List.cons_append, List.nil_append, List.not_mem_nil, or_false] at he
      rcases he with he | he <;> rw [he] <;> rfl
    · have := getRun_replace w { cur with Status := desiredStatus } cur hcur'
      have hk2 : keyOf { cur with Status := desiredStatus } = key := hkey
      rw [hk2] at this
      exact this

/-- In the world, `updateLabelsAndAnnotations` on a stored record that is not marked for
deletion and whose annotations differ from the ones handed in returns nil and leaves the
record with the labels and annotations handed in, its status untouched. -/
theorem exec_updateLabelsAndAnnotations_world (w : World) (pr cur : PipelineRun)
    (hcur : w.getRun (keyOf pr) = some cur)
    (hzero : IsZero cur.DeletionTimestamp = true)
    (hdiff : mapDeepEqual pr.Annotations cur.Annotations = false) :
    ∃ tr w' new, exec World.handle (updateLabelsAndAnnotations pr) w =
        (Outcome.returned none, tr, w') ∧
      (∀ e ∈ tr, isBuild e.call = false) ∧
      w'.getRun (keyOf pr) = some new ∧ w'.clock = w.clock ∧
      new.Labels = pr.Labels ∧ new.Annotations = pr.Annotations ∧
      new.Status = cur.Status := by
  have hkey : keyOf cur = keyOf pr := keyOf_of_getRun w _ cur hcur
  have hfn : exec World.handle (perform (Call.Get { Namespace := pr.Namespace, Name := pr.Name })) w
      = (Outcome.returned (Except.ok cur),
          [Event.mk (Call.Get { Namespace := pr.Namespace, Name := pr.Name }) (Except.ok cur)],
          w) := by
    rw [exec_perform]
    have hcur' : w.getRun { Namespace := pr.Namespace, Name := pr.Name } = some cur := hcur
    simp only [World.handle, hcur']
  unfold updateLabelsAndAnnotations
  rw [exec_bind_do, hfn]
  dsimp only
  rw [hdiff, Bool.and_false, if_neg (by simp), exec_perform]
  -- the record written
  generalize hobj : (if (!HasString cur.Finalizers PipelineRunFinalizerName) = true then
      ({ cur with Labels := pr.Labels, Annotations := pr.Annotations,
                  Finalizers := cur.Finalizers ++ [PipelineRunFinalizerName] } : PipelineRun)
    else { cur with Labels := pr.Labels, Annotations := pr.Annotations }) = obj
  have hobjkey : keyOf obj = keyOf pr := by
    rw [← hobj, ← hkey]
    split <;> rfl
  have hobjl : obj.Labels = pr.Labels := by
    rw [← hobj]
    split <;> rfl
  have hobja : obj.Annotations = pr.Annotations := by
    rw [← hobj]
    split <;> rfl
  have hcur' : w.getRun (keyOf obj) = some cur := by
    rw [hobjkey]
    exact hcur
  have hans : World.handle (Call.Update obj) w =
      (none, w.replace { obj with Status := cur.Status,
                                  DeletionTimestamp := cur.DeletionTimestamp }) := by
    simp only [World.handle, hcur', hzero, Bool.not_true, Bool.false_and, Bool.false_eq_true,
      if_false]
  rw [hans]
  refine ⟨_, _, { obj with Status := cur.Status, DeletionTimestamp := cur.DeletionTimestamp },
    rfl, ?_, ?_, rfl, hobjl, hobja, rfl⟩
  · intro e he
    simp only [List.mem_cons, List.mem_singleton, List.cons_append, List.nil_append,
      List.not_mem_nil, or_false] at he
    rcases he with he | he <;> rw [he] <;> rfl
  · have := getRun_replace w
      { obj with Status := cur.Status, DeletionTimestamp := cur.DeletionTimestamp } cur hcur'
    have hk2 :
        keyOf { obj with Status := cur.Status, DeletionTimestamp := cur.DeletionTimestamp } =
          keyOf pr := hobjkey
    rw [hk2] at this
    exact this

/-- In the world, a trigger that returns a run made exactly one `Build` call. -/
theorem exec_triggerJenkinsJob_world (w : World) (d : Deps) (ns name : String)
    (prSpec : PipelineRunSpec) (jobRun : JobRun)
    (h : outcome (exec World.handle (triggerJenkinsJob d ns name prSpec) w) =
      Outcome.returned (Except.ok jobRun)) :
    ∃ option, exec World.handle (triggerJenkinsJob d ns name prSpec) w =
      (Outcome.returned (Except.ok jobRun),
        [Event.mk (Call.Build option) (Except.ok jobRun)], w) := by
  unfold triggerJenkinsJob at h ⊢
  cases hb : getSCMRefName prSpec with
  | error err =>
      rw [hb] at h
      cases h
  | ok branch =>
      rw [hb] at h
      dsimp only at h ⊢
      rw [exec_perform] at h ⊢
      simp only [outcome, World.handle, Outcome.returned.injEq] at h
      refine ⟨{ Pipelines := [ns, name], Parameters := d.convert prSpec.Parameters,
                Branch := branch }, ?_⟩
      simp only [World.handle, h]

/-- In the world, the dedup guard makes exactly one `List` call. -/
theorem exec_hasSamePendingPipelineRun_world (w : World) (jobRun : JobRun)
    (pipeline : Pipeline) (found : Bool)
    (h : outcome (exec World.handle (hasSamePendingPipelineRun jobRun pipeline) w) =
      Outcome.returned (Except.ok found)) :
    ∃ opts ans, exec World.handle (hasSamePendingPipelineRun jobRun pipeline) w =
      (Outcome.returned (Except.ok found), [Event.mk (Call.List opts) ans], w) := by
  unfold hasSamePendingPipelineRun at h ⊢
  dsimp only at h ⊢
  generalize (if pipeline.Spec.Type_ = MultiBranchPipelineType then _ else _ : List ListOption) =
    opts at h ⊢
  rw [exec_bind_do, exec_perform] at h ⊢
  have hans : World.handle (Call.List opts) w = (w.list w.runs opts, w) := rfl
  rw [hans] at h ⊢
  dsimp only at h ⊢
  cases hl : w.list w.runs opts with
  | error err =>
      rw [hl] at h
      cases h
  | ok items =>
      rw [hl] at h
      dsimp only at h ⊢
      by_cases hlen : items.length = 0
      · rw [if_pos hlen] at h ⊢
        simp only [exec_pure, outcome, Outcome.returned.injEq, Except.ok.injEq] at h
        subst h
        exact ⟨_, _, rfl⟩
      · rw [if_neg hlen] at h ⊢
        simp only [exec_pure, outcome, Outcome.returned.injEq, Except.ok.injEq] at h
        subst h
        exact ⟨_, _, rfl⟩

/-- C8 (first trigger): in the world, for a stored record that is buildable, not marked
for deletion, with a parent reference that resolves and without run identifier, when the
trigger returns the run `jobRun` and the dedup guard finds no duplicate, the cycle
returns `RequeueAfter` of one second and no error, makes exactly one `Build` call, and
leaves the record stored with the run identifier `jobRun.ID` and with the start and
update timestamps set to the two readings of the clock. -/
theorem reconcile_first_trigger (d : Deps) (req : Request) (w : World)
    (pr : PipelineRun) (pipelineRef : ObjectReference) (pipeline : Pipeline)
    (jobRun : JobRun)
    (hstored : w.getRun req.NamespacedName = some pr)
    (hdel : IsZero pr.DeletionTimestamp = true) (hbuildable : Buildable pr = true)
    (href : pr.Spec.PipelineRef = some pipelineRef) (hname : pipelineRef.Name ≠ "")
    (hparent : w.getPipeline { Namespace := pr.Namespace, Name := pipelineRef.Name } =
      some pipeline)
    (hnew : HasStarted pr = false)
    (htrigger : outcome (exec World.handle
        (triggerJenkinsJob d pipeline.Namespace pipeline.Name pr.Spec) w) =
      Outcome.returned (Except.ok jobRun))
    (hnodup : outcome (exec World.handle (hasSamePendingPipelineRun jobRun pipeline) w) =
      Outcome.returned (Except.ok false)) :
    outcome (exec World.handle (Reconcile d req) w) =
      Outcome.returned ({ RequeueAfter := 1 * Second }, none) ∧
    ((trace (exec World.handle (Reconcile d req) w)).filter
      (fun e => isBuild e.call)).length = 1 ∧
    ∃ stored,
      (final (exec World.handle (Reconcile d req) w)).getRun req.NamespacedName =
        some stored ∧
      GetPipelineRunID stored = some jobRun.ID ∧
      stored.Status.StartTime = some w.clock ∧
      stored.Status.UpdateTime = some (w.clock + 1) := by
  suffices hx : ∃ tr w' stored, exec World.handle (Reconcile d req) w =
        (Outcome.returned ({ RequeueAfter := 1 * Second }, none), tr, w') ∧
      (tr.filter (fun e => isBuild e.call)).length = 1 ∧
      w'.getRun req.NamespacedName = some stored ∧
      GetPipelineRunID stored = some jobRun.ID ∧
      stored.Status.StartTime = some w.clock ∧
      stored.Status.UpdateTime = some (w.clock + 1) by
    obtain ⟨tr, w', stored, hx, hcount, hget, hid, hstart, hupdate⟩ := hx
    rw [hx]
    exact ⟨rfl, hcount, stored, hget, hid, hstart, hupdate⟩
  have hkey : keyOf pr = req.NamespacedName := keyOf_of_getRun w _ pr hstored
  obtain ⟨option, hT⟩ := exec_triggerJenkinsJob_world w d _ _ _ jobRun htrigger
  obtain ⟨opts, ans, hD⟩ := exec_hasSamePendingPipelineRun_world w jobRun pipeline false hnodup
  have hget : exec World.handle (perform (Call.Get req.NamespacedName)) w =
      (Outcome.returned (Except.ok pr),
        [Event.mk (Call.Get req.NamespacedName) (Except.ok pr)], w) := by
    rw [exec_perform]
    simp only [World.handle, hstored]
  have hgp : exec World.handle
      (perform (Call.GetPipeline { Namespace := pr.Namespace, Name := pipelineRef.Name })) w =
      (Outcome.returned (Except.ok pipeline),
        [Event.mk (Call.GetPipeline { Namespace := pr.Namespace, Name := pipelineRef.Name })
          (Except.ok pipeline)], w) := by
    rw [exec_perform]
    simp only [World.handle, hparent]
  unfold Reconcile
  rw [exec_bind_do, hget]
  dsimp only
  rw [if_neg (by simp [hdel]), if_neg (by simp [hbuildable]), href]
  dsimp only
  rw [if_neg hname, exec_bind_do, hgp]
  dsimp only
  generalize (some _ : Option StrMap) = labels
  have hns : HasStarted { pr with Labels := labels } = false := hnew
  rw [hns, if_neg (by simp), exec_bind_do, hT]
  dsimp only
  rw [exec_bind_do, hD]
  dsimp only
  rw [if_neg (by simp)]
  -- the metadata write
  have hnone : mapGet pr.Annotations JenkinsPipelineRunIDKey = none := by
    cases hv : mapGet pr.Annotations JenkinsPipelineRunIDKey with
    | none => rfl
    | some v => simp [HasStarted, GetPipelineRunID, hv] at hnew
  have hdiff : mapDeepEqual
      (some (mapSet (makeIfNil pr.Annotations) JenkinsPipelineRunIDKey jobRun.ID))
      pr.Annotations = false := by
    cases hde : mapDeepEqual
        (some (mapSet (makeIfNil pr.Annotations) JenkinsPipelineRunIDKey jobRun.ID))
        pr.Annotations with
    | false => rfl
    | true =>
        have := mapGet_eq_of_mapDeepEqual _ _ hde JenkinsPipelineRunIDKey
        rw [mapGet_mapSet_self, hnone] at this
        cases this
  have hcur : w.getRun (keyOf pr) = some pr := by
    rw [hkey]
    exact hstored
  obtain ⟨trU, wU, new, hU, hUb, hUget, hUclock, -, hUa, hUs⟩ :=
    exec_updateLabelsAndAnnotations_world w
      { pr with
        Labels := labels,
        Annotations := some (mapSet (makeIfNil pr.Annotations) JenkinsPipelineRunIDKey jobRun.ID) }
      pr hcur hdel hdiff
  rw [exec_bind_do, hU]
  dsimp only
  -- the clock is read twice
  have hnow1 : exec World.handle (perform Call.Now) wU =
      (Outcome.returned wU.clock, [Event.mk Call.Now wU.clock],
        { wU with clock := wU.clock + 1 }) := rfl
  rw [exec_bind_do, hnow1]
  have hget1 : ({ wU with clock := wU.clock + 1 } : World).getRun req.NamespacedName =
      some new := by
    rw [← hkey]
    exact hUget
  generalize hw1 : ({ wU with clock := wU.clock + 1 } : World) = w1 at hget1 ⊢
  have hc1 : w1.clock = w.clock + 1 := by
    rw [← hw1, ← hUclock]
  dsimp only
  have hnow2 : exec World.handle (perform Call.Now) w1 =
      (Outcome.returned w1.clock, [Event.mk Call.Now w1.clock],
        { w1 with clock := w1.clock + 1 }) := rfl
  rw [exec_bind_do, hnow2]
  have hget2 : ({ w1 with clock := w1.clock + 1 } : World).getRun req.NamespacedName =
      some new := hget1
  generalize ({ w1 with clock := w1.clock + 1 } : World) = w2 at hget2 ⊢
  dsimp only
  -- the status write
  obtain ⟨trS, wS, hS, hSb, hSget⟩ := exec_updateStatus_world w2
    { pr.Status with StartTime := some wU.clock, UpdateTime := some w1.clock }
    req.NamespacedName new hget2
  rw [exec_bind_do, hS]
  dsimp only
  rw [exec_bind_do, exec_perform]
  refine ⟨_, _, _, rfl, ?_, hSget, ?_, ?_, ?_⟩
  · simp [List.filter_append, List.filter, isBuild, exec_pure]
    exact ⟨fun a ha => by simpa [isBuild] using hUb a ha,
      fun a ha => by simpa [isBuild] using hSb a ha⟩
  · show mapGet new.Annotations JenkinsPipelineRunIDKey = some jobRun.ID
    rw [hUa]
    exact mapGet_mapSet_self _ _ _
  · show some wU.clock = some w.clock
    rw [hUclock]
  · show some w1.clock = some (w.clock + 1)
    rw [hc1]

/-- C8 at the record `freshRun` in the sample world, where Jenkins answers the trigger
with the run `42`. -/
theorem reconcile_first_trigger_witness :
    ((sampleWorld [freshRun]).getRun requestA.NamespacedName = some freshRun ∧
      IsZero freshRun.DeletionTimestamp = true ∧ Buildable freshRun = true ∧
      freshRun.Spec.PipelineRef = some { Name := "build-a" } ∧
      ({ Name := "build-a" } : ObjectReference).Name ≠ "" ∧
      (sampleWorld [freshRun]).getPipeline { Namespace := "project1", Name := "build-a" } =
        some buildA ∧
      HasStarted freshRun = false ∧
      outcome (exec World.handle
          (triggerJenkinsJob sampleDeps buildA.Namespace buildA.Name freshRun.Spec)
          (sampleWorld [freshRun])) = Outcome.returned (Except.ok run42) ∧
      outcome (exec World.handle (hasSamePendingPipelineRun run42 buildA)
          (sampleWorld [freshRun])) = Outcome.returned (Except.ok false)) ∧
    outcome (exec World.handle (Reconcile sampleDeps requestA) (sampleWorld [freshRun])) =
      Outcome.returned ({ RequeueAfter := 1 * Second }, none) ∧
    ((trace (exec World.handle (Reconcile sampleDeps requestA)
      (sampleWorld [freshRun]))).filter (fun e => isBuild e.call)).length = 1 ∧
    ∃ stored,
      (final (exec World.handle (Reconcile sampleDeps requestA)
        (sampleWorld [freshRun]))).getRun requestA.NamespacedName = some stored ∧
      GetPipelineRunID stored = some run42.ID ∧
      stored.Status.StartTime = some (sampleWorld [freshRun]).clock ∧
      stored.Status.UpdateTime = some ((sampleWorld [freshRun]).clock + 1) :=
  ⟨⟨rfl, rfl, rfl, rfl, by decide, rfl, rfl, rfl, rfl⟩,
    reconcile_first_trigger sampleDeps requestA (sampleWorld [freshRun]) freshRun
      { Name := "build-a" } buildA run42 rfl rfl rfl rfl (by decide) rfl rfl rfl rfl⟩

/-! ### Records that are not buildable -/

/-- C11 (blocked is quiescent): in every environment, a cycle whose fetch is answered with
a record without deletion marker that is not buildable makes no call after the fetch, so
no store write and no call to Jenkins, and returns the empty result (no requeue) with a
nil error. -/
theorem reconcile_blocked_quiescent {σ : Type} (d : Deps) (req : Request) (h : Handler σ)
    (s : σ) (pr : PipelineRun)
    (hget : (h (Call.Get req.NamespacedName) s).1 = Except.ok pr)
    (hdel : IsZero pr.DeletionTimestamp = true) (hblocked : Buildable pr = false) :
    outcome (exec h (Reconcile d req) s) =
      Outcome.returned ({ Requeue := false, RequeueAfter := 0 }, none) ∧
    trace (exec h (Reconcile d req) s) =
      [Event.mk (Call.Get req.NamespacedName) (Except.ok pr)] ∧
    (∀ e ∈ trace (exec h (Reconcile d req) s),
      isStoreWrite e.call = false ∧ isJenkins e.call = false) := by
  have hx : exec h (Reconcile d req) s =
      (Outcome.returned ({}, none), [Event.mk (Call.Get req.NamespacedName) (Except.ok pr)],
        (h (Call.Get req.NamespacedName) s).2) := by
    unfold Reconcile
    rw [exec_bind_do, exec_perform]
    dsimp only
    rw [hget]
    dsimp only
    rw [if_neg (by simp [hdel]), if_pos (by simp [hblocked])]
    rfl
  rw [hx]
  refine ⟨rfl, rfl, fun e he => ?_⟩
  rw [List.mem_singleton.1 he]
  exact ⟨rfl, rfl⟩

/-- C11 at the record `blockedRun` in the sample world. -/
theorem reconcile_blocked_quiescent_witness :
    ((World.handle (Call.Get requestA.NamespacedName) (sampleWorld [blockedRun])).1
        = Except.ok blockedRun ∧
      IsZero blockedRun.DeletionTimestamp = true ∧ Buildable blockedRun = false) ∧
    outcome (exec World.handle (Reconcile sampleDeps requestA) (sampleWorld [blockedRun])) =
      Outcome.returned ({ Requeue := false, RequeueAfter := 0 }, none) ∧
    trace (exec World.handle (Reconcile sampleDeps requestA) (sampleWorld [blockedRun])) =
      [Event.mk (Call.Get requestA.NamespacedName) (Except.ok blockedRun)] ∧
    (∀ e ∈ trace (exec World.handle (Reconcile sampleDeps requestA) (sampleWorld [blockedRun])),
      isStoreWrite e.call = false ∧ isJenkins e.call = false) :=
  ⟨⟨rfl, rfl, rfl⟩,
    reconcile_blocked_quiescent sampleDeps requestA World.handle (sampleWorld [blockedRun])
      blockedRun rfl rfl rfl⟩

/-! ### Parent pipelines that are not found -/

/-- C12 as stated does not hold: in the sample world without parent pipeline, the cycle
for the buildable record `freshRun`, whose parent `build-a` the store reports as not
found, returns the empty result and a nil error, so neither an error nor a requeue. -/
theorem reconcile_parent_not_found_no_retry :
    ¬ (∀ (w : World) (req : Request) (pr : PipelineRun) (pipelineRef : ObjectReference),
        w.getRun req.NamespacedName = some pr → IsZero pr.DeletionTimestamp = true →
        Buildable pr = true → pr.Spec.PipelineRef = some pipelineRef →
        pipelineRef.Name ≠ "" →
        w.getPipeline { Namespace := pr.Namespace, Name := pipelineRef.Name } = none →
        ∃ res err, outcome (exec World.handle (Reconcile sampleDeps req) w) =
            Outcome.returned (res, err) ∧
          (err ≠ none ∨ requestsRequeue res = true)) := by
  intro hall
  obtain ⟨res, err, hout, hretry⟩ :=
    hall (worldWithoutParent [freshRun]) requestA freshRun { Name := "build-a" }
      rfl rfl rfl rfl (by decide) rfl
  have hrun : outcome (exec World.handle (Reconcile sampleDeps requestA)
      (worldWithoutParent [freshRun])) = Outcome.returned ({}, none) := rfl
  rw [hrun] at hout
  cases hout
  rcases hretry with hretry | hretry
  · exact hretry rfl
  · cases hretry

/-- C12, amended (parent not found ends the cycle quietly): in every environment, a cycle
whose fetch is answered with a buildable record without deletion marker and with a
non-empty parent reference, and whose fetch of the parent is answered with a not-found
error, returns the empty result and a nil error, and makes no call beyond the two
fetches: it writes nothing, so it does not orphan the record. -/
theorem reconcile_parent_not_found {σ : Type} (d : Deps) (req : Request) (h : Handler σ)
    (s : σ) (pr : PipelineRun) (pipelineRef : ObjectReference) (err : Err)
    (hget : (h (Call.Get req.NamespacedName) s).1 = Except.ok pr)
    (hdel : IsZero pr.DeletionTimestamp = true) (hbuildable : Buildable pr = true)
    (href : pr.Spec.PipelineRef = some pipelineRef) (hname : pipelineRef.Name ≠ "")
    (hparent : (h (Call.GetPipeline { Namespace := pr.Namespace, Name := pipelineRef.Name })
      (h (Call.Get req.NamespacedName) s).2).1 = Except.error err)
    (hnf : err.kind = ErrKind.notFound) :
    outcome (exec h (Reconcile d req) s) =
      Outcome.returned ({ Requeue := false, RequeueAfter := 0 }, none) ∧
    trace (exec h (Reconcile d req) s) =
      [Event.mk (Call.Get req.NamespacedName) (Except.ok pr),
       Event.mk (Call.GetPipeline { Namespace := pr.Namespace, Name := pipelineRef.Name })
         (Except.error err)] ∧
    (∀ e ∈ trace (exec h (Reconcile d req) s), isStoreWrite e.call = false) := by
  have hx : exec h (Reconcile d req) s =
      (Outcome.returned ({}, IgnoreNotFound (some err)),
        [Event.mk (Call.Get req.NamespacedName) (Except.ok pr),
         Event.mk (Call.GetPipeline { Namespace := pr.Namespace, Name := pipelineRef.Name })
           (Except.error err)],
        (h (Call.GetPipeline { Namespace := pr.Namespace, Name := pipelineRef.Name })
          (h (Call.Get req.NamespacedName) s).2).2) := by
    unfold Reconcile
    rw [exec_bind_do, exec_perform]
    dsimp only
    rw [hget]
    dsimp only
    rw [if_neg (by simp [hdel]), if_neg (by simp [hbuildable]), href]
    dsimp only
    rw [if_neg hname, exec_bind_do, exec_perform]
    dsimp only
    rw [hparent]
    rfl
  have hignore : IgnoreNotFound (some err) = none := by
    show (if err.kind = ErrKind.notFound then none else some err) = none
    rw [if_pos hnf]
  rw [hx, hignore]
  refine ⟨rfl, rfl, fun e he => ?_⟩
  simp only [trace, List.mem_cons, List.mem_singleton, List.not_mem_nil, or_false] at he
  rcases he with he | he <;> rw [he] <;> rfl

/-- C12, amended, at the record `freshRun` in the sample world without parent pipeline. -/
theorem reconcile_parent_not_found_witness :
    ((World.handle (Call.Get requestA.NamespacedName) (worldWithoutParent [freshRun])).1
        = Except.ok freshRun ∧
      IsZero freshRun.DeletionTimestamp = true ∧ Buildable freshRun = true ∧
      freshRun.Spec.PipelineRef = some { Name := "build-a" } ∧
      ({ Name := "build-a" } : ObjectReference).Name ≠ "" ∧
      (World.handle (Call.GetPipeline { Namespace := "project1", Name := "build-a" })
        (worldWithoutParent [freshRun])).1 =
        Except.error (notFound { Namespace := "project1", Name := "build-a" }) ∧
      (notFound { Namespace := "project1", Name := "build-a" }).kind = ErrKind.notFound) ∧
    outcome (exec World.handle (Reconcile sampleDeps requestA)
        (worldWithoutParent [freshRun])) =
      Outcome.returned ({ Requeue := false, RequeueAfter := 0 }, none) ∧
    trace (exec World.handle (Reconcile sampleDeps requestA) (worldWithoutParent [freshRun])) =
      [Event.mk (Call.Get requestA.NamespacedName) (Except.ok freshRun),
       Event.mk (Call.GetPipeline { Namespace := "project1", Name := "build-a" })
         (Except.error (notFound { Namespace := "project1", Name := "build-a" }))] ∧
    (∀ e ∈ trace (exec World.handle (Reconcile sampleDeps requestA)
        (worldWithoutParent [freshRun])), isStoreWrite e.call = false) :=
  ⟨⟨rfl, rfl, rfl, rfl, by decide, rfl, rfl⟩,
    reconcile_parent_not_found sampleDeps requestA World.handle (worldWithoutParent [freshRun])
      freshRun { Name := "build-a" } (notFound { Namespace := "project1", Name := "build-a" })
      rfl rfl rfl rfl (by decide) rfl rfl⟩

/-! ### The branch name -/

/-- C13 (`getSCMRefName`): for a multi-branch spec the function returns the SCM reference
name when the reference is present with a non-empty name and an error when the reference
is missing or its name is empty; for any other spec it returns the empty branch name and
no error, whatever the SCM reference holds.  It fails exactly when the spec is
multi-branch and the reference is missing or empty. -/
theorem getSCMRefName_spec (prSpec : PipelineRunSpec) :
    (IsMultiBranchPipeline prSpec = true →
      (∀ scm, prSpec.SCM = some scm → scm.RefName ≠ "" →
        getSCMRefName prSpec = Except.ok scm.RefName) ∧
      ((prSpec.SCM = none ∨ ∃ scm, prSpec.SCM = some scm ∧ scm.RefName = "") →
        ∃ err, getSCMRefName prSpec = Except.error err)) ∧
    (IsMultiBranchPipeline prSpec = false → getSCMRefName prSpec = Except.ok "") ∧
    ((∃ err, getSCMRefName prSpec = Except.error err) ↔
      IsMultiBranchPipeline prSpec = true ∧
        (prSpec.SCM = none ∨ ∃ scm, prSpec.SCM = some scm ∧ scm.RefName = "")) := by
  unfold getSCMRefName
  cases hmulti : IsMultiBranchPipeline prSpec with
  | false =>
      refine ⟨fun hcon => (nomatch hcon), fun _ => rfl, ?_⟩
      constructor
      · rintro ⟨err, herr⟩
        cases herr
      · rintro ⟨hcon, -⟩
        cases hcon
  | true =>
      cases hscm : prSpec.SCM with
      | none =>
          refine ⟨fun _ => ⟨fun scm hcon => (nomatch hcon), fun _ => ⟨_, rfl⟩⟩,
            fun hcon => (nomatch hcon), ?_⟩
          exact ⟨fun _ => ⟨rfl, Or.inl rfl⟩, fun _ => ⟨_, rfl⟩⟩
      | some scm =>
          by_cases hname : scm.RefName = ""
          · refine ⟨fun _ => ⟨?_, ?_⟩, fun hcon => (nomatch hcon), ?_⟩
            · intro scm' hscm' hne
              cases hscm'
              exact absurd hname hne
            · intro _
              simp only [if_true, hname]
              exact ⟨_, rfl⟩
            · simp only [if_true, hname, true_and]
              exact ⟨fun _ => Or.inr ⟨scm, rfl, hname⟩, fun _ => ⟨_, rfl⟩⟩
          · refine ⟨fun _ => ⟨?_, ?_⟩, fun hcon => (nomatch hcon), ?_⟩
            · intro scm' hscm' _
              cases hscm'
              simp only [if_true, hname, if_false]
            · rintro (hcon | ⟨scm', hscm', hempty⟩)
              · cases hcon
              · cases hscm'
                exact absurd hempty hname
            · simp only [if_true, hname, if_false, true_and]
              constructor
              · rintro ⟨err, herr⟩
                cases herr
              · rintro (hcon | ⟨scm', hscm', hempty⟩)
                · cases hcon
                · cases hscm'
                  exact absurd hempty hname

/-- C13 at three specs: multi-branch with the branch `main`, multi-branch without SCM
reference, and not multi-branch with the branch `main`. -/
theorem getSCMRefName_spec_witness :
    getSCMRefName multiBranchSpec = Except.ok "main" ∧
    (∃ err, getSCMRefName multiBranchRun.Spec = Except.error err) ∧
    getSCMRefName plainSpecWithRef = Except.ok "" :=
  ⟨((getSCMRefName_spec multiBranchSpec).1 rfl).1 { RefName := "main" } rfl (by decide),
    ((getSCMRefName_spec multiBranchRun.Spec).1 rfl).2 (Or.inl rfl),
    (getSCMRefName_spec plainSpecWithRef).2.1 rfl⟩

/-- C14 as stated does not hold: in the sample world, the cycle for the buildable,
not-yet-started record `multiBranchRun` of a multi-branch pipeline without SCM reference
returns a non-nil error to the scheduler. -/
theorem reconcile_missing_branch_returns_error :
    ¬ (∀ (w : World) (req : Request) (pr : PipelineRun) (pipelineRef : ObjectReference)
        (pipeline : Pipeline),
        w.getRun req.NamespacedName = some pr → IsZero pr.DeletionTimestamp = true →
        Buildable pr = true → pr.Spec.PipelineRef = some pipelineRef →
        pipelineRef.Name ≠ "" →
        w.getPipeline { Namespace := pr.Namespace, Name := pipelineRef.Name } = some pipeline →
        HasStarted pr = false → IsMultiBranchPipeline pr.Spec = true →
        (pr.Spec.SCM = none ∨ ∃ scm, pr.Spec.SCM = some scm ∧ scm.RefName = "") →
        ∃ res, outcome (exec World.handle (Reconcile sampleDeps req) w) =
            Outcome.returned (res, none) ∧ requestsRequeue res = false) := by
  intro hall
  obtain ⟨res, hout, -⟩ :=
    hall (sampleWorld [multiBranchRun]) requestA multiBranchRun { Name := "build-a" } buildA
      rfl rfl rfl rfl (by decide) rfl rfl rfl (Or.inl rfl)
  have hrun : outcome (exec World.handle (Reconcile sampleDeps requestA)
      (sampleWorld [multiBranchRun])) =
      Outcome.returned ({},
        some (errorf "failed to obtain SCM reference name for multi-branch Pipeline")) := rfl
  rw [hrun] at hout
  cases hout

/-- C14, amended (a missing branch is reported and returned as an error): in every
environment, a cycle whose fetch is answered with a buildable, not-yet-started record
without deletion marker, whose parent is fetched, and whose spec is multi-branch with the
SCM reference absent or empty, makes no trigger call, reports the failure with one warning
event of reason `TriggerFailed`, and returns the empty result (no requeue delay) together
with the non-nil error of `getSCMRefName`. -/
theorem reconcile_missing_branch {σ : Type} (d : Deps) (req : Request) (h : Handler σ)
    (s : σ) (pr : PipelineRun) (pipelineRef : ObjectReference) (pipeline : Pipeline)
    (hget : (h (Call.Get req.NamespacedName) s).1 = Except.ok pr)
    (hdel : IsZero pr.DeletionTimestamp = true) (hbuildable : Buildable pr = true)
    (href : pr.Spec.PipelineRef = some pipelineRef) (hname : pipelineRef.Name ≠ "")
    (hparent : (h (Call.GetPipeline { Namespace := pr.Namespace, Name := pipelineRef.Name })
      (h (Call.Get req.NamespacedName) s).2).1 = Except.ok pipeline)
    (hnew : HasStarted pr = false) (hmulti : IsMultiBranchPipeline pr.Spec = true)
    (hscm : pr.Spec.SCM = none ∨ ∃ scm, pr.Spec.SCM = some scm ∧ scm.RefName = "") :
    ∃ err obj message,
      getSCMRefName pr.Spec = Except.error err ∧
      outcome (exec h (Reconcile d req) s) =
        Outcome.returned ({ Requeue := false, RequeueAfter := 0 }, some err) ∧
      trace (exec h (Reconcile d req) s) =
        [Event.mk (Call.Get req.NamespacedName) (Except.ok pr),
         Event.mk (Call.GetPipeline { Namespace := pr.Namespace, Name := pipelineRef.Name })
           (Except.ok pipeline),
         Event.mk (Call.Eventf obj EventTypeWarning TriggerFailed message) ()] ∧
      (∀ e ∈ trace (exec h (Reconcile d req) s), isBuild e.call = false) := by
  obtain ⟨err, herr⟩ : ∃ err, getSCMRefName pr.Spec = Except.error err := by
    unfold getSCMRefName
    rw [if_pos hmulti]
    rcases hscm with hscm | ⟨scm, hscm, hempty⟩
    · rw [hscm]
      exact ⟨_, rfl⟩
    · rw [hscm]
      dsimp only
      rw [if_pos hempty]
      exact ⟨_, rfl⟩
  suffices hx : ∃ obj message s', exec h (Reconcile d req) s =
      (Outcome.returned ({}, some err),
        [Event.mk (Call.Get req.NamespacedName) (Except.ok pr),
         Event.mk (Call.GetPipeline { Namespace := pr.Namespace, Name := pipelineRef.Name })
           (Except.ok pipeline),
         Event.mk (Call.Eventf obj EventTypeWarning TriggerFailed message) ()], s') by
    obtain ⟨obj, message, s', hx⟩ := hx
    refine ⟨err, obj, message, herr, ?_, ?_, ?_⟩
    · rw [hx]
      rfl
    · rw [hx]
      rfl
    · rw [hx]
      intro e he
      simp only [trace, List.mem_cons, List.mem_singleton, List.not_mem_nil, or_false] at he
      rcases he with he | he | he <;> rw [he] <;> rfl
  unfold Reconcile
  rw [exec_bind_do, exec_perform]
  dsimp only
  rw [hget]
  dsimp only
  rw [if_neg (by simp [hdel]), if_neg (by simp [hbuildable]), href]
  dsimp only
  rw [if_neg hname, exec_bind_do, exec_perform]
  dsimp only
  rw [hparent]
  dsimp only
  rw [herr]
  dsimp only
  have hns : HasStarted { pr with
      Labels := some (mapSet (makeIfNil pr.Labels) PipelineNameLabelKey pipeline.Name) } =
      false := hnew
  rw [hns, if_neg (by simp), exec_bind_do]
  have htrigger : ∀ st, exec h (triggerJenkinsJob d pipeline.Namespace pipeline.Name pr.Spec) st =
      (Outcome.returned (Except.error err), [], st) := by
    intro st
    unfold triggerJenkinsJob
    rw [herr]
    rfl
  rw [htrigger]
  dsimp only
  rw [exec_bind_do, exec_perform]
  exact ⟨_, _, _, rfl⟩

/-- C14, amended, at the record `multiBranchRun` in the sample world. -/
theorem reconcile_missing_branch_witness :
    ((World.handle (Call.Get requestA.NamespacedName) (sampleWorld [multiBranchRun])).1
        = Except.ok multiBranchRun ∧
      IsZero multiBranchRun.DeletionTimestamp = true ∧ Buildable multiBranchRun = true ∧
      multiBranchRun.Spec.PipelineRef = some { Name := "build-a" } ∧
      ({ Name := "build-a" } : ObjectReference).Name ≠ "" ∧
      (World.handle (Call.GetPipeline { Namespace := "project1", Name := "build-a" })
        (sampleWorld [multiBranchRun])).1 = Except.ok buildA ∧
      HasStarted multiBranchRun = false ∧ IsMultiBranchPipeline multiBranchRun.Spec = true ∧
      multiBranchRun.Spec.SCM = none) ∧
    ∃ err obj message,
      getSCMRefName multiBranchRun.Spec = Except.error err ∧
      outcome (exec World.handle (Reconcile sampleDeps requestA)
          (sampleWorld [multiBranchRun])) =
        Outcome.returned ({ Requeue := false, RequeueAfter := 0 }, some err) ∧
      trace (exec World.handle (Reconcile sampleDeps requestA)
          (sampleWorld [multiBranchRun])) =
        [Event.mk (Call.Get requestA.NamespacedName) (Except.ok multiBranchRun),
         Event.mk (Call.GetPipeline { Namespace := "project1", Name := "build-a" })
           (Except.ok buildA),
         Event.mk (Call.Eventf obj EventTypeWarning TriggerFailed message) ()] ∧
      (∀ e ∈ trace (exec World.handle (Reconcile sampleDeps requestA)
          (sampleWorld [multiBranchRun])), isBuild e.call = false) :=
  ⟨⟨rfl, rfl, rfl, rfl, by decide, rfl, rfl, rfl, rfl⟩,
    reconcile_missing_branch sampleDeps requestA World.handle (sampleWorld [multiBranchRun])
      multiBranchRun { Name := "build-a" } buildA rfl rfl rfl rfl (by decide) rfl rfl rfl
      (Or.inl rfl)⟩

/-! ### Duplicates -/

theorem Prog.pure_bind_eq {α β : Type} (a : α) (f : α → Prog β) : (pure a >>= f) = f a :=
  rfl

theorem Prog.bind_assoc_eq {α β γ : Type} (p : Prog α) (f : α → Prog β) (g : β → Prog γ) :
    (p >>= f >>= g) = (p >>= fun a => f a >>= g) := by
  show (p.bind f).bind g = p.bind (fun a => (f a).bind g)
  induction p with
  | ret a => rfl
  | crash m => rfl
  | call c k ih =>
      simp only [Prog.bind]
      congr 1
      funext r
      exact ih r

/-- The duplicate branch: a cycle whose first four calls are the fetch of a buildable,
not-yet-started record, the fetch of its parent, a trigger answered with a run and a
listing answered with at least one record goes on with the fetch of the record under the
request key and, when that fetch succeeds, the deletion of the record fetched; it returns
the empty result with the error of the failing call, if any. -/
theorem reconcile_duplicate_all (d : Deps) (req : Request) (pr : PipelineRun)
    (pipelineRef : ObjectReference) (pipeline : Pipeline) (option : BuildOption)
    (jobRun : JobRun) (opts : List ListOption) (items : List PipelineRun)
    (hdel : IsZero pr.DeletionTimestamp = true) (hbuildable : Buildable pr = true)
    (href : pr.Spec.PipelineRef = some pipelineRef) (hname : pipelineRef.Name ≠ "")
    (hnew : HasStarted pr = false) (hdup : items ≠ []) :
    (Reconcile d req).all (fun tr o => ∀ rest,
      tr = Event.mk (Call.Get req.NamespacedName) (Except.ok pr) ::
        Event.mk (Call.GetPipeline { Namespace := pr.Namespace, Name := pipelineRef.Name })
          (Except.ok pipeline) ::
        Event.mk (Call.Build option) (Except.ok jobRun) ::
        Event.mk (Call.List opts) (Except.ok items) :: rest →
      (∃ err, rest = [Event.mk (Call.Get req.NamespacedName) (Except.error err)] ∧
        o = Outcome.returned ({}, some err)) ∨
      (∃ obj ans, rest = [Event.mk (Call.Get req.NamespacedName) (Except.ok obj),
          Event.mk (Call.Delete obj) ans] ∧
        o = Outcome.returned ({}, ans))) := by
  unfold Reconcile
  rw [Prog.all_perform_bind]
  intro r
  by_cases hr : r = Except.ok pr
  swap
  · refine Prog.all_of_forall _ (fun tr o rest htr => ?_)
    simp only [List.cons.injEq, Event.mk.injEq, heq_eq_eq, true_and] at htr
    exact absurd htr.1 hr
  subst hr
  dsimp only
  rw [if_neg (by simp [hdel]), if_neg (by simp [hbuildable]), href]
  dsimp only
  rw [if_neg hname, Prog.all_perform_bind]
  intro r
  cases r with
  | error err =>
      intro rest htr
      simp at htr
  | ok pipeline0 =>
      dsimp only
      generalize (some _ : Option StrMap) = labels
      have hns : HasStarted { pr with Labels := labels } = false := hnew
      rw [hns, if_neg (by simp)]
      unfold triggerJenkinsJob
      cases hb : getSCMRefName pr.Spec with
      | error err =>
          dsimp only
          rw [Prog.pure_bind_eq]
          dsimp only
          rw [Prog.all_perform_bind]
          intro _ rest htr
          simp at htr
      | ok branch =>
          dsimp only
          rw [Prog.all_perform_bind]
          intro r
          cases r with
          | error err =>
              dsimp only
              rw [Prog.all_perform_bind]
              intro _ rest htr
              simp at htr
          | ok jobRun0 =>
              dsimp only
              unfold hasSamePendingPipelineRun
              dsimp only
              rw [Prog.bind_assoc_eq, Prog.all_perform_bind]
              intro r
              cases r with
              | error err =>
                  intro rest htr
                  simp at htr
              | ok items0 =>
                  dsimp only
                  by_cases hlen : items0.length = 0
                  · refine Prog.all_of_forall _ (fun tr o rest htr => ?_)
                    simp only [List.cons.injEq, Event.mk.injEq, heq_eq_eq, true_and,
                      Except.ok.injEq] at htr
                    obtain ⟨-, -, ⟨-, hitems⟩, -⟩ := htr
                    cases hitems
                    exact absurd (List.length_eq_zero.1 hlen) hdup
                  · rw [if_neg hlen, Prog.pure_bind_eq]
                    dsimp only
                    rw [if_pos rfl]
                    unfold deletePipelineRun
                    rw [Prog.bind_assoc_eq, Prog.all_perform_bind]
                    intro r
                    cases r with
                    | error err =>
                        intro rest htr
                        simp only [List.cons.injEq, Event.mk.injEq, heq_eq_eq, true_and] at htr
                        obtain ⟨-, -, -, hrest⟩ := htr
                        exact Or.inl ⟨err, hrest.symm, rfl⟩
                    | ok obj =>
                        dsimp only
                        rw [Prog.all_perform_bind]
                        intro ans
                        cases ans with
                        | none =>
                            intro rest htr
                            simp only [List.cons.injEq, Event.mk.injEq, heq_eq_eq, true_and] at htr
                            obtain ⟨-, -, -, hrest⟩ := htr
                            exact Or.inr ⟨obj, none, hrest.symm, rfl⟩
                        | some e =>
                            intro rest htr
                            simp only [List.cons.injEq, Event.mk.injEq, heq_eq_eq, true_and] at htr
                            obtain ⟨-, -, -, hrest⟩ := htr
                            exact Or.inr ⟨obj, some e, hrest.symm, rfl⟩

/-- C15 (duplicate resolution): in every environment, in a cycle on a buildable,
not-yet-started record without deletion marker whose trigger is answered with a run and
whose dedup listing is answered with at least one record, the cycle writes neither
metadata nor status (no `Update` and no `Status().Update` call is made, so the new run
identifier is never persisted); it fetches the record under the request key and deletes
the record it fetched, and it returns the empty result (no requeue) with the answer of
the delete, so no error when the delete succeeds.  When that fetch fails, its error is
returned instead. -/
theorem reconcile_duplicate_deletes {σ : Type} (d : Deps) (req : Request) (h : Handler σ)
    (s : σ) (pr : PipelineRun) (pipelineRef : ObjectReference) (pipeline : Pipeline)
    (option : BuildOption) (jobRun : JobRun) (opts : List ListOption)
    (items : List PipelineRun) (rest : List Event)
    (hdel : IsZero pr.DeletionTimestamp = true) (hbuildable : Buildable pr = true)
    (href : pr.Spec.PipelineRef = some pipelineRef) (hname : pipelineRef.Name ≠ "")
    (hnew : HasStarted pr = false) (hdup : items ≠ [])
    (htrace : trace (exec h (Reconcile d req) s) =
      Event.mk (Call.Get req.NamespacedName) (Except.ok pr) ::
        Event.mk (Call.GetPipeline { Namespace := pr.Namespace, Name := pipelineRef.Name })
          (Except.ok pipeline) ::
        Event.mk (Call.Build option) (Except.ok jobRun) ::
        Event.mk (Call.List opts) (Except.ok items) :: rest) :
    (∀ e ∈ trace (exec h (Reconcile d req) s),
      (∀ obj, e.call ≠ Call.Update obj) ∧ isStatusUpdate e.call = false) ∧
    ((∃ err, rest = [Event.mk (Call.Get req.NamespacedName) (Except.error err)] ∧
        outcome (exec h (Reconcile d req) s) = Outcome.returned ({}, some err)) ∨
      (∃ obj ans, rest = [Event.mk (Call.Get req.NamespacedName) (Except.ok obj),
          Event.mk (Call.Delete obj) ans] ∧
        outcome (exec h (Reconcile d req) s) =
          Outcome.returned ({ Requeue := false, RequeueAfter := 0 }, ans))) := by
  have hrest := exec_of_all _ _
    (reconcile_duplicate_all d req pr pipelineRef pipeline option jobRun opts items
      hdel hbuildable href hname hnew hdup) h s rest htrace
  refine ⟨fun e he => ?_, hrest⟩
  rw [htrace] at he
  have hcalls : e.call = Call.Get req.NamespacedName ∨
      e.call = Call.GetPipeline { Namespace := pr.Namespace, Name := pipelineRef.Name } ∨
      e.call = Call.Build option ∨ e.call = Call.List opts ∨
      ∃ obj, e.call = Call.Delete obj := by
    simp only [List.mem_cons] at he
    rcases he with he | he | he | he | he
    · exact Or.inl (by rw [he])
    · exact Or.inr (Or.inl (by rw [he]))
    · exact Or.inr (Or.inr (Or.inl (by rw [he])))
    · exact Or.inr (Or.inr (Or.inr (Or.inl (by rw [he]))))
    · rcases hrest with ⟨err, hr, -⟩ | ⟨obj, ans, hr, -⟩
      · rw [hr, List.mem_singleton] at he
        exact Or.inl (by rw [he])
      · rw [hr] at he
        simp only [List.mem_cons, List.mem_singleton, List.not_mem_nil, or_false] at he
        rcases he with he | he
        · exact Or.inl (by rw [he])
        · exact Or.inr (Or.inr (Or.inr (Or.inr ⟨obj, by rw [he]⟩)))
  rcases hcalls with hc | hc | hc | hc | ⟨obj, hc⟩ <;> rw [hc] <;>
    exact ⟨fun _ hcon => (nomatch hcon), rfl⟩

/-- C15 at the record `freshRun` in a world that also stores `rivalRun`, which carries
the parent name and the run identifier `42` as labels: the cycle deletes `freshRun` and
returns no requeue and no error. -/
theorem reconcile_duplicate_deletes_witness :
    (IsZero freshRun.DeletionTimestamp = true ∧ Buildable freshRun = true ∧
      freshRun.Spec.PipelineRef = some { Name := "build-a" } ∧
      ({ Name := "build-a" } : ObjectReference).Name ≠ "" ∧ HasStarted freshRun = false ∧
      [rivalRun] ≠ [] ∧
      trace (exec World.handle (Reconcile sampleDeps requestA)
          (storeWorld [freshRun, rivalRun])) =
        Event.mk (Call.Get requestA.NamespacedName) (Except.ok freshRun) ::
          Event.mk (Call.GetPipeline { Namespace := "project1", Name := "build-a" })
            (Except.ok buildA) ::
          Event.mk (Call.Build { Pipelines := ["project1", "build-a"], Parameters := [],
                                 Branch := "" }) (Except.ok run42) ::
          Event.mk (Call.List [ListOption.InNamespace "project1",
              ListOption.MatchingLabels [(PipelineNameLabelKey, "build-a")],
              ListOption.MatchingLabels [(JenkinsPipelineRunIDKey, "42")]])
            (Except.ok [rivalRun]) ::
          [Event.mk (Call.Get requestA.NamespacedName) (Except.ok freshRun),
           Event.mk (Call.Delete freshRun) none]) ∧
    outcome (exec World.handle (Reconcile sampleDeps requestA)
        (storeWorld [freshRun, rivalRun])) =
      Outcome.returned ({ Requeue := false, RequeueAfter := 0 }, none) ∧
    (final (exec World.handle (Reconcile sampleDeps requestA)
        (storeWorld [freshRun, rivalRun]))).runs = [rivalRun] ∧
    ∀ e ∈ trace (exec World.handle (Reconcile sampleDeps requestA)
        (storeWorld [freshRun, rivalRun])),
      (∀ obj, e.call ≠ Call.Update obj) ∧ isStatusUpdate e.call = false :=
  ⟨⟨rfl, rfl, rfl, by decide, rfl, by decide, rfl⟩, rfl, rfl,
    (reconcile_duplicate_deletes sampleDeps requestA World.handle
      (storeWorld [freshRun, rivalRun]) freshRun { Name := "build-a" } buildA
      { Pipelines := ["project1", "build-a"], Parameters := [], Branch := "" } run42
      [ListOption.InNamespace "project1",
        ListOption.MatchingLabels [(PipelineNameLabelKey, "build-a")],
        ListOption.MatchingLabels [(JenkinsPipelineRunIDKey, "42")]]
      [rivalRun]
      [Event.mk (Call.Get requestA.NamespacedName) (Except.ok freshRun),
        Event.mk (Call.Delete freshRun) none]
      rfl rfl rfl (by decide) rfl (by decide) rfl).1⟩

/-- The records a listing with the options of the dedup guard selects are the records
that carry the labels the guard looks for. -/
theorem dedup_options_select (jobRun : JobRun) (pipeline : Pipeline) (run : PipelineRun) :
    (List.all
      (if pipeline.Spec.Type_ = MultiBranchPipelineType then
        [ListOption.InNamespace pipeline.Namespace,
          ListOption.MatchingLabels [(PipelineNameLabelKey, pipeline.Name)],
          ListOption.MatchingLabels [(JenkinsPipelineRunIDKey, jobRun.ID)]] ++
          [ListOption.MatchingLabels [(SCMRefNameLabelKey, jobRun.Pipeline)]]
      else
        [ListOption.InNamespace pipeline.Namespace,
          ListOption.MatchingLabels [(PipelineNameLabelKey, pipeline.Name)],
          ListOption.MatchingLabels [(JenkinsPipelineRunIDKey, jobRun.ID)]])
      (matchesOption run) = true) ↔ carriesRunLabels jobRun pipeline run := by
  unfold carriesRunLabels
  by_cases hmulti : pipeline.Spec.Type_ = MultiBranchPipelineType
  · rw [if_pos hmulti]
    simp [matchesOption, hmulti, and_assoc]
  · rw [if_neg hmulti]
    simp [matchesOption, hmulti]

/-- In a world whose listings are the stored records that satisfy every option, the dedup
guard makes its listing and returns whether the listing has a record. -/
theorem exec_hasSamePendingPipelineRun_store (w : World) (jobRun : JobRun)
    (pipeline : Pipeline)
    (hlist : w.list = fun stored opts => Except.ok (selectRuns stored opts)) :
    ∃ opts, exec World.handle (hasSamePendingPipelineRun jobRun pipeline) w =
        (Outcome.returned (Except.ok (decide (selectRuns w.runs opts ≠ []))),
          [Event.mk (Call.List opts) (Except.ok (selectRuns w.runs opts))], w) ∧
      ∀ run, List.all opts (matchesOption run) = true ↔ carriesRunLabels jobRun pipeline run := by
  refine ⟨_, ?_, dedup_options_select jobRun pipeline⟩
  unfold hasSamePendingPipelineRun
  dsimp only
  generalize (if pipeline.Spec.Type_ = MultiBranchPipelineType then _ else _ : List ListOption) =
    opts
  rw [exec_bind_do, exec_perform]
  have hans : World.handle (Call.List opts) w = (Except.ok (selectRuns w.runs opts), w) := by
    show (w.list w.runs opts, w) = _
    rw [hlist]
  rw [hans]
  dsimp only
  by_cases hlen : (selectRuns w.runs opts).length = 0
  · rw [if_pos hlen]
    have hnil : selectRuns w.runs opts = [] := List.length_eq_zero.1 hlen
    simp [exec_pure, hnil]
  · rw [if_neg hlen]
    have hne : selectRuns w.runs opts ≠ [] := fun hnil => hlen (by rw [hnil]; rfl)
    simp [exec_pure, hne]

/-- C16 as stated does not hold: in a store whose only record is `rivalRun`, which carries
the parent name and the run identifier `42` as labels, the dedup guard for the run `42`
of `build-a` returns true although no record other than `rivalRun` exists; the guard does
not know which record is being reconciled. -/
theorem hasSamePendingPipelineRun_counts_self :
    ¬ (∀ (w : World) (self : PipelineRun) (jobRun : JobRun) (pipeline : Pipeline),
        w.list = (fun stored opts => Except.ok (selectRuns stored opts)) →
        self ∈ w.runs →
        (outcome (exec World.handle (hasSamePendingPipelineRun jobRun pipeline) w) =
            Outcome.returned (Except.ok true) ↔
          ∃ run ∈ w.runs, keyOf run ≠ keyOf self ∧ carriesRunLabels jobRun pipeline run)) := by
  intro hall
  have hrun : outcome (exec World.handle (hasSamePendingPipelineRun run42 buildA)
      (storeWorld [rivalRun])) = Outcome.returned (Except.ok true) := rfl
  obtain ⟨run, hmem, hne, -⟩ :=
    (hall (storeWorld [rivalRun]) rivalRun run42 buildA rfl (List.mem_singleton.2 rfl)).1 hrun
  have hself : run = rivalRun := List.mem_singleton.1 hmem
  rw [hself] at hne
  exact hne rfl

/-- In every environment, the dedup guard makes one listing, with the options
`dedupListOptions`, and returns whether the listing has a record, or the error of the
listing. -/
theorem exec_hasSamePendingPipelineRun_listing {σ : Type} (h : Handler σ) (s : σ)
    (jobRun : JobRun) (pipeline : Pipeline) :
    exec h (hasSamePendingPipelineRun jobRun pipeline) s =
      ((match (h (Call.List (dedupListOptions jobRun pipeline)) s).1 with
        | Except.error err => Outcome.returned (Except.error err)
        | Except.ok items => Outcome.returned (Except.ok (decide (items ≠ [])))),
        [Event.mk (Call.List (dedupListOptions jobRun pipeline))
          (h (Call.List (dedupListOptions jobRun pipeline)) s).1],
        (h (Call.List (dedupListOptions jobRun pipeline)) s).2) := by
  unfold hasSamePendingPipelineRun
  dsimp only
  have hopts : (if pipeline.Spec.Type_ = MultiBranchPipelineType then
      [ListOption.InNamespace pipeline.Namespace,
        ListOption.MatchingLabels [(PipelineNameLabelKey, pipeline.Name)],
        ListOption.MatchingLabels [(JenkinsPipelineRunIDKey, jobRun.ID)]] ++
        [ListOption.MatchingLabels [(SCMRefNameLabelKey, jobRun.Pipeline)]]
    else
      [ListOption.InNamespace pipeline.Namespace,
        ListOption.MatchingLabels [(PipelineNameLabelKey, pipeline.Name)],
        ListOption.MatchingLabels [(JenkinsPipelineRunIDKey, jobRun.ID)]]) =
      dedupListOptions jobRun pipeline := rfl
  rw [hopts]
  generalize dedupListOptions jobRun pipeline = opts
  rw [exec_bind_do, exec_perform]
  dsimp only
  cases hl : (h (Call.List opts) s).1 with
  | error err => simp [exec_pure]
  | ok items =>
      dsimp only
      by_cases hlen : items.length = 0
      · rw [if_pos hlen]
        have hnil : items = [] := List.length_eq_zero.1 hlen
        simp [exec_pure, hnil]
      · rw [if_neg hlen]
        have hne : items ≠ [] := fun hnil => hlen (by rw [hnil]; rfl)
        simp [exec_pure, hne]

/-- C16, amended (dedup guard result).  In every environment, for every run and parent
pipeline, `hasSamePendingPipelineRun` makes one listing, for the namespace of the parent
with a label selector for the parent name, one for the run identifier and, for a
multi-branch parent, one for the branch the run reports; it returns true exactly when the
listing is answered with at least one record, false exactly when it is answered with no
record, and an error exactly when the listing fails.  A record satisfies every one of
these options exactly when it lies in the namespace of the parent and carries these
labels.  So in a store whose listings are the stored records that satisfy every list
option, for every store content, the guard returns true exactly when at least one stored
PipelineRun lies in the namespace of the parent and carries the labels, and false
otherwise.  The record being reconciled is not set apart: a stored record that matches
counts, whichever record it is. -/
theorem hasSamePendingPipelineRun_spec (jobRun : JobRun) (pipeline : Pipeline) :
    (∀ (σ : Type) (h : Handler σ) (s : σ),
      trace (exec h (hasSamePendingPipelineRun jobRun pipeline) s) =
        [Event.mk (Call.List (dedupListOptions jobRun pipeline))
          (h (Call.List (dedupListOptions jobRun pipeline)) s).1] ∧
      (outcome (exec h (hasSamePendingPipelineRun jobRun pipeline) s) =
          Outcome.returned (Except.ok true) ↔
        ∃ items, (h (Call.List (dedupListOptions jobRun pipeline)) s).1 = Except.ok items ∧
          items ≠ []) ∧
      (outcome (exec h (hasSamePendingPipelineRun jobRun pipeline) s) =
          Outcome.returned (Except.ok false) ↔
        (h (Call.List (dedupListOptions jobRun pipeline)) s).1 = Except.ok []) ∧
      (∀ err, outcome (exec h (hasSamePendingPipelineRun jobRun pipeline) s) =
          Outcome.returned (Except.error err) ↔
        (h (Call.List (dedupListOptions jobRun pipeline)) s).1 = Except.error err)) ∧
    (∀ run, List.all (dedupListOptions jobRun pipeline) (matchesOption run) = true ↔
      carriesRunLabels jobRun pipeline run) ∧
    (∀ w : World, w.list = (fun stored opts => Except.ok (selectRuns stored opts)) →
      (outcome (exec World.handle (hasSamePendingPipelineRun jobRun pipeline) w) =
          Outcome.returned (Except.ok true) ↔
        ∃ run ∈ w.runs, carriesRunLabels jobRun pipeline run) ∧
      (outcome (exec World.handle (hasSamePendingPipelineRun jobRun pipeline) w) =
          Outcome.returned (Except.ok false) ↔
        ¬ ∃ run ∈ w.runs, carriesRunLabels jobRun pipeline run)) := by
  have hsel : ∀ run, List.all (dedupListOptions jobRun pipeline) (matchesOption run) = true ↔
      carriesRunLabels jobRun pipeline run := by
    intro run
    unfold carriesRunLabels dedupListOptions
    by_cases hmulti : pipeline.Spec.Type_ = MultiBranchPipelineType
    · rw [if_pos hmulti]
      simp [matchesOption, hmulti, and_assoc]
    · rw [if_neg hmulti]
      simp [matchesOption, hmulti]
  refine ⟨fun σ h s => ?_, hsel, fun w hlist => ?_⟩
  · rw [exec_hasSamePendingPipelineRun_listing]
    refine ⟨rfl, ?_, ?_, ?_⟩
    · simp only [outcome]
      cases hl : (h (Call.List (dedupListOptions jobRun pipeline)) s).1 with
      | error err =>
          refine ⟨fun hx => (by cases hx), ?_⟩
          rintro ⟨items, hitems, -⟩
          cases hitems
      | ok items =>
          simp only [Outcome.returned.injEq, Except.ok.injEq, decide_eq_true_eq]
          refine ⟨fun hne => ⟨items, rfl, hne⟩, ?_⟩
          rintro ⟨items', hitems, hne⟩
          cases hitems
          exact hne
    · simp only [outcome]
      cases hl : (h (Call.List (dedupListOptions jobRun pipeline)) s).1 with
      | error err => exact ⟨fun hx => (by cases hx), fun hx => (by cases hx)⟩
      | ok items =>
          simp only [Outcome.returned.injEq, Except.ok.injEq, decide_eq_false_iff_not, not_not]
          refine ⟨fun hnil => (by rw [hnil]), fun hx => ?_⟩
          cases hx
          rfl
    · intro err
      simp only [outcome]
      cases hl : (h (Call.List (dedupListOptions jobRun pipeline)) s).1 with
      | error err' =>
          simp only [Outcome.returned.injEq, Except.error.injEq]
          refine ⟨fun hx => (by rw [hx]), fun hx => ?_⟩
          cases hx
          rfl
      | ok items => exact ⟨fun hx => (by cases hx), fun hx => (by cases hx)⟩
  · rw [exec_hasSamePendingPipelineRun_listing]
    have hans : (World.handle (Call.List (dedupListOptions jobRun pipeline)) w).1 =
        Except.ok (selectRuns w.runs (dedupListOptions jobRun pipeline)) := by
      show w.list w.runs _ = _
      rw [hlist]
    have hmatch : selectRuns w.runs (dedupListOptions jobRun pipeline) ≠ [] ↔
        ∃ run ∈ w.runs, carriesRunLabels jobRun pipeline run := by
      unfold selectRuns
      rw [Ne, List.filter_eq_nil_iff]
      constructor
      · intro hne
        by_contra hnone
        refine hne (fun run hrun hall => hnone ⟨run, hrun, (hsel run).1 hall⟩)
      · rintro ⟨run, hrun, hlabels⟩ hnone
        exact hnone run hrun ((hsel run).2 hlabels)
    simp only [outcome, hans, Outcome.returned.injEq, Except.ok.injEq, decide_eq_true_eq,
      decide_eq_false_iff_not, not_not]
    exact ⟨hmatch, by rw [← hmatch, Ne, not_not]⟩

/-- C16, amended, in a store that holds `freshRun` and `rivalRun` and whose listings are
the stored records that satisfy every list option: the guard for the run `42` of `build-a`
returns true, and `rivalRun` is a record that carries the labels. -/
theorem hasSamePendingPipelineRun_spec_witness :
    (storeWorld [freshRun, rivalRun]).list =
      (fun stored opts => Except.ok (selectRuns stored opts)) ∧
    outcome (exec World.handle (hasSamePendingPipelineRun run42 buildA)
        (storeWorld [freshRun, rivalRun])) = Outcome.returned (Except.ok true) ∧
    ∃ run ∈ (storeWorld [freshRun, rivalRun]).runs, carriesRunLabels run42 buildA run :=
  ⟨rfl, rfl,
    ((hasSamePendingPipelineRun_spec run42 buildA).2.2 (storeWorld [freshRun, rivalRun])
      rfl).1.1 rfl⟩

/-- The dedup guard in a store whose listings keep only the last label selector, holding
the one record `strayRun`, which carries the run identifier `42` as a label and no parent
name: the listing returns `strayRun` and the guard returns true for the run `42` of
`build-a`, although no stored record carries both labels.  What the guard returns follows
the listing of the store. -/
theorem hasSamePendingPipelineRun_last_selector :
    outcome (exec World.handle (hasSamePendingPipelineRun run42 buildA)
        (lastSelectorWorld [strayRun])) = Outcome.returned (Except.ok true) ∧
    listings (trace (exec World.handle (hasSamePendingPipelineRun run42 buildA)
        (lastSelectorWorld [strayRun]))) = [(dedupListOptions run42 buildA, [strayRun])] ∧
    ¬ ∃ run ∈ (lastSelectorWorld [strayRun]).runs, carriesRunLabels run42 buildA run := by
  refine ⟨rfl, rfl, ?_⟩
  rintro ⟨run, hrun, -, hname, -⟩
  have hself : run = strayRun := List.mem_singleton.1 hrun
  rw [hself] at hname
  exact absurd hname (by decide)

/-- C17 at two equivalent, not-yet-started records `run-a` and `run-b` of `build-a`, in a
store whose listings are the stored records that satisfy every list option and with
Jenkins answering both triggers with the run `42`, the cycle for `run-a` completing before
the cycle for `run-b` starts: both cycles trigger and end with a requeue after one second,
both dedup listings are empty, no record is deleted, and both records are stored with the
run identifier `42` and a start time.  The first cycle records the run identifier as an
annotation, while the dedup guard of the second cycle looks for it among the labels,
where it is not. -/
theorem reconcile_equivalent_runs_both_persist :
    (reconcileBoth World.handle sampleDeps requestA requestB
        (storeWorld [freshRun, freshRunB])).1 =
      (Outcome.returned ({ RequeueAfter := 1 * Second }, none),
        Outcome.returned ({ RequeueAfter := 1 * Second }, none)) ∧
    ((reconcileBoth World.handle sampleDeps requestA requestB
        (storeWorld [freshRun, freshRunB])).2.1.filter (fun e => isBuild e.call)).length = 2 ∧
    listings (reconcileBoth World.handle sampleDeps requestA requestB
        (storeWorld [freshRun, freshRunB])).2.1 =
      [([ListOption.InNamespace "project1",
          ListOption.MatchingLabels [(PipelineNameLabelKey, "build-a")],
          ListOption.MatchingLabels [(JenkinsPipelineRunIDKey, "42")]], []),
       ([ListOption.InNamespace "project1",
          ListOption.MatchingLabels [(PipelineNameLabelKey, "build-a")],
          ListOption.MatchingLabels [(JenkinsPipelineRunIDKey, "42")]], [])] ∧
    (∀ e ∈ (reconcileBoth World.handle sampleDeps requestA requestB
        (storeWorld [freshRun, freshRunB])).2.1, isDelete e.call = false) ∧
    (reconcileBoth World.handle sampleDeps requestA requestB
        (storeWorld [freshRun, freshRunB])).2.2.runs.map
      (fun stored => (stored.Name, GetPipelineRunID stored,
        mapGet stored.Labels JenkinsPipelineRunIDKey, stored.Status.StartTime)) =
      [("run-a", some "42", none, some 100), ("run-b", some "42", none, some 102)] :=
  ⟨rfl, rfl, rfl, by decide, rfl⟩

/-- The two cycles of C17 in a store whose listings keep only the last label selector:
the outcome is the same, both dedup listings are empty, nothing is deleted and both
records are stored with the run identifier `42`. -/
theorem reconcile_equivalent_runs_last_selector :
    (reconcileBoth World.handle sampleDeps requestA requestB
        (lastSelectorWorld [freshRun, freshRunB])).1 =
      (Outcome.returned ({ RequeueAfter := 1 * Second }, none),
        Outcome.returned ({ RequeueAfter := 1 * Second }, none)) ∧
    (listings (reconcileBoth World.handle sampleDeps requestA requestB
        (lastSelectorWorld [freshRun, freshRunB])).2.1).map (fun l => l.2) = [[], []] ∧
    (∀ e ∈ (reconcileBoth World.handle sampleDeps requestA requestB
        (lastSelectorWorld [freshRun, freshRunB])).2.1, isDelete e.call = false) ∧
    (reconcileBoth World.handle sampleDeps requestA requestB
        (lastSelectorWorld [freshRun, freshRunB])).2.2.runs.map
      (fun stored => (stored.Name, GetPipelineRunID stored)) =
      [("run-a", some "42"), ("run-b", some "42")] :=
  ⟨rfl, rfl, by decide, rfl⟩

/-! ### Status writes -/

/-- In every environment, `updateStatus` whose read returns a record that already has the
desired status returns nil after that one read. -/
theorem exec_updateStatus_unchanged {σ : Type} (h : Handler σ) (s : σ)
    (desiredStatus : PipelineRunStatus) (prKey : ObjectKey) (cur : PipelineRun)
    (hget : (h (Call.Get prKey) s).1 = Except.ok cur) (hsame : desiredStatus = cur.Status) :
    exec h (updateStatus desiredStatus prKey) s =
      (Outcome.returned none, [Event.mk (Call.Get prKey) (Except.ok cur)],
        (h (Call.Get prKey) s).2) := by
  unfold updateStatus DefaultRetrySteps
  rw [RetryOnConflict, exec_bind_do, exec_bind_do, exec_perform]
  dsimp only
  rw [hget]
  dsimp only
  rw [if_pos hsame]
  rfl

/-- In the world, the run of `updateStatus`: a failed read when the record is missing, one
read when the stored status is the desired one, and otherwise one read and one status
write, after which the stored status is the desired one. -/
theorem exec_updateStatus_store (w : World) (desiredStatus : PipelineRunStatus)
    (prKey : ObjectKey) :
    exec World.handle (updateStatus desiredStatus prKey) w =
      match w.getRun prKey with
      | none =>
          (Outcome.returned (some (notFound prKey)),
            [Event.mk (Call.Get prKey) (Except.error (notFound prKey))], w)
      | some cur =>
          if desiredStatus = cur.Status then
            (Outcome.returned none, [Event.mk (Call.Get prKey) (Except.ok cur)], w)
          else
            (Outcome.returned none,
              [Event.mk (Call.Get prKey) (Except.ok cur),
               Event.mk (Call.StatusUpdate { cur with Status := desiredStatus }) none],
              w.replace { cur with Status := desiredStatus }) := by
  cases hcur : w.getRun prKey with
  | none =>
      have hans : World.handle (Call.Get prKey) w = (Except.error (notFound prKey), w) := by
        simp only [World.handle, hcur]
      unfold updateStatus DefaultRetrySteps
      rw [RetryOnConflict, exec_bind_do, exec_bind_do, exec_perform, hans]
      rfl
  | some cur =>
      have hans : (World.handle (Call.Get prKey) w).1 = Except.ok cur := by
        simp only [World.handle, hcur]
      have hstate : (World.handle (Call.Get prKey) w).2 = w := by
        simp only [World.handle, hcur]
      by_cases hsame : desiredStatus = cur.Status
      · rw [exec_updateStatus_unchanged World.handle w desiredStatus prKey cur hans hsame,
          hstate]
        dsimp only
        rw [if_pos hsame]
      · have hkey : keyOf cur = prKey := keyOf_of_getRun w prKey cur hcur
        have hcur' : w.getRun (keyOf { cur with Status := desiredStatus }) = some cur := by
          show w.getRun (keyOf cur) = some cur
          rw [hkey]
          exact hcur
        have hwrite : World.handle (Call.StatusUpdate { cur with Status := desiredStatus }) w =
            (none, w.replace { cur with Status := desiredStatus }) := by
          simp only [World.handle, hcur']
        have hget : World.handle (Call.Get prKey) w = (Except.ok cur, w) := by
          simp only [World.handle, hcur]
        unfold updateStatus DefaultRetrySteps
        rw [RetryOnConflict, exec_bind_do, exec_bind_do, exec_perform, hget]
        dsimp only
        rw [if_neg hsame, exec_perform, hwrite]
        dsimp only
        rw [if_neg hsame]
        rfl

/-- C19 (status idempotence): in every environment, `updateStatus` whose read returns a
record whose status is field for field the desired one returns nil and makes no call but
that read, so no status write; and in the world, where the store keeps what it accepts,
two applications of `updateStatus` in a row with the same desired status make at most one
status write between them, the second application making none when the record exists. -/
theorem updateStatus_idempotent (desiredStatus : PipelineRunStatus) (prKey : ObjectKey) :
    (∀ (σ : Type) (h : Handler σ) (s : σ) (cur : PipelineRun),
      (h (Call.Get prKey) s).1 = Except.ok cur → desiredStatus = cur.Status →
      outcome (exec h (updateStatus desiredStatus prKey) s) = Outcome.returned none ∧
      trace (exec h (updateStatus desiredStatus prKey) s) =
        [Event.mk (Call.Get prKey) (Except.ok cur)]) ∧
    (∀ w : World,
      ((trace (exec World.handle (updateStatus desiredStatus prKey) w) ++
          trace (exec World.handle (updateStatus desiredStatus prKey)
            (final (exec World.handle (updateStatus desiredStatus prKey) w)))).filter
        (fun e => isStatusUpdate e.call)).length ≤ 1 ∧
      ∀ e ∈ trace (exec World.handle (updateStatus desiredStatus prKey)
          (final (exec World.handle (updateStatus desiredStatus prKey) w))),
        isStatusUpdate e.call = false) := by
  refine ⟨fun σ h s cur hget hsame => ?_, fun w => ?_⟩
  · rw [exec_updateStatus_unchanged h s desiredStatus prKey cur hget hsame]
    exact ⟨rfl, rfl⟩
  · rw [exec_updateStatus_store w]
    cases hcur : w.getRun prKey with
    | none =>
        dsimp only [final]
        rw [exec_updateStatus_store w, hcur]
        refine ⟨by simp [trace, List.filter, isStatusUpdate], fun e he => ?_⟩
        rw [List.mem_singleton.1 he]
        rfl
    | some cur =>
        dsimp only
        by_cases hsame : desiredStatus = cur.Status
        · rw [if_pos hsame]
          dsimp only [final]
          rw [exec_updateStatus_store w, hcur]
          dsimp only
          rw [if_pos hsame]
          refine ⟨by simp [trace, List.filter, isStatusUpdate], fun e he => ?_⟩
          rw [List.mem_singleton.1 he]
          rfl
        · rw [if_neg hsame]
          dsimp only [final]
          have hkey : keyOf cur = prKey := keyOf_of_getRun w prKey cur hcur
          have hstored : (w.replace { cur with Status := desiredStatus }).getRun prKey =
              some { cur with Status := desiredStatus } := by
            have hcur' : w.getRun (keyOf { cur with Status := desiredStatus }) = some cur := by
              show w.getRun (keyOf cur) = some cur
              rw [hkey]
              exact hcur
            have := getRun_replace w { cur with Status := desiredStatus } cur hcur'
            have hk2 : keyOf { cur with Status := desiredStatus } = prKey := hkey
            rw [hk2] at this
            exact this
          rw [exec_updateStatus_store (w.replace { cur with Status := desiredStatus }), hstored]
          dsimp only
          rw [if_pos rfl]
          refine ⟨by simp [trace, List.filter, isStatusUpdate], fun e he => ?_⟩
          rw [List.mem_singleton.1 he]
          rfl

/-- C19 at the record `startedRun` in the sample world: with the stored status as the
desired one, `updateStatus` returns nil after one read; with the status `Running` as the
desired one, two applications in a row make at most one status write. -/
theorem updateStatus_idempotent_witness :
    ((World.handle (Call.Get requestA.NamespacedName) (sampleWorld [startedRun])).1 =
        Except.ok startedRun ∧ emptyStatus = startedRun.Status) ∧
    (outcome (exec World.handle (updateStatus emptyStatus requestA.NamespacedName)
        (sampleWorld [startedRun])) = Outcome.returned none ∧
      trace (exec World.handle (updateStatus emptyStatus requestA.NamespacedName)
        (sampleWorld [startedRun])) =
        [Event.mk (Call.Get requestA.NamespacedName) (Except.ok startedRun)]) ∧
    ((trace (exec World.handle (updateStatus runningStatus requestA.NamespacedName)
          (sampleWorld [startedRun])) ++
        trace (exec World.handle (updateStatus runningStatus requestA.NamespacedName)
          (final (exec World.handle (updateStatus runningStatus requestA.NamespacedName)
            (sampleWorld [startedRun]))))).filter
      (fun e => isStatusUpdate e.call)).length ≤ 1 :=
  ⟨⟨rfl, rfl⟩,
    (updateStatus_idempotent emptyStatus requestA.NamespacedName).1 World World.handle
      (sampleWorld [startedRun]) startedRun rfl rfl,
    ((updateStatus_idempotent runningStatus requestA.NamespacedName).2
      (sampleWorld [startedRun])).1⟩

/-! ### Status writes and the deletion marker -/

theorem statusWritesFollowReads_append (a b : List Event) (ha : statusWritesFollowReads a)
    (hb : statusWritesFollowReads b) : statusWritesFollowReads (a ++ b) := by
  intro obj ans hmem
  rcases List.mem_append.1 hmem with hmem | hmem
  · obtain ⟨key, cur, hget, hobj⟩ := ha obj ans hmem
    exact ⟨key, cur, List.mem_append_left _ hget, hobj⟩
  · obtain ⟨key, cur, hget, hobj⟩ := hb obj ans hmem
    exact ⟨key, cur, List.mem_append_right _ hget, hobj⟩

theorem statusWritesFollowReads_of_none (tr : List Event)
    (h : ∀ e ∈ tr, isStatusUpdate e.call = false) : statusWritesFollowReads tr := by
  intro obj ans hmem
  have := h _ hmem
  cases this

theorem followReads_pure {α : Type} (a : α) :
    (pure a : Prog α).all (fun tr _ => statusWritesFollowReads tr) :=
  fun _ _ hmem => (nomatch hmem)

theorem followReads_crash {α : Type} (m : String) :
    (Prog.crash m : Prog α).all (fun tr _ => statusWritesFollowReads tr) :=
  fun _ _ hmem => (nomatch hmem)

theorem followReads_of_safe {α : Type} {p : Prog α}
    (h : p.safe (fun e => isStatusUpdate e.call = false)) :
    p.all (fun tr _ => statusWritesFollowReads tr) :=
  Prog.all_mono h (fun tr _ htr => statusWritesFollowReads_of_none tr htr)

theorem followReads_perform (c : Call) (hc : isStatusUpdate c = false) :
    (perform c).all (fun tr _ => statusWritesFollowReads tr) :=
  followReads_of_safe ((Prog.safe_perform _ c).2 (fun _ => hc))

theorem followReads_bind {α β : Type} {p : Prog α} {f : α → Prog β}
    (hp : p.all (fun tr _ => statusWritesFollowReads tr))
    (hf : ∀ a, (f a).all (fun tr _ => statusWritesFollowReads tr)) :
    (p >>= f).all (fun tr _ => statusWritesFollowReads tr) := by
  show (p.bind f).all _
  rw [Prog.all_bind]
  refine Prog.all_mono hp (fun tr o htr => ?_)
  cases o with
  | returned a =>
      exact Prog.all_mono (hf a) (fun tr' _ htr' => statusWritesFollowReads_append tr tr' htr htr')
  | crashed m => exact htr

theorem followReads_RetryOnConflict {fn : Prog GoError}
    (h : fn.all (fun tr _ => statusWritesFollowReads tr)) :
    ∀ n, (RetryOnConflict n fn).all (fun tr _ => statusWritesFollowReads tr)
  | 0 => followReads_pure none
  | 1 => h
  | n + 2 => by
      rw [RetryOnConflict]
      refine followReads_bind h (fun err => ?_)
      cases err with
      | none => exact followReads_pure none
      | some e =>
          dsimp only
          split
          · exact followReads_RetryOnConflict h (n + 1)
          · exact followReads_pure (some e)

/-- Every status write of `updateStatus` is issued on the record its read has just
returned, with the desired status. -/
theorem followReads_updateStatus (desiredStatus : PipelineRunStatus) (prKey : ObjectKey) :
    (updateStatus desiredStatus prKey).all (fun tr _ => statusWritesFollowReads tr) := by
  unfold updateStatus
  refine followReads_RetryOnConflict ?_ _
  rw [Prog.all_perform_bind]
  intro res
  cases res with
  | error err => exact fun _ _ hmem => by simp at hmem
  | ok prToUpdate =>
      dsimp only
      split
      · exact fun _ _ hmem => by simp at hmem
      · intro ans obj ans' hmem
        simp only [List.mem_cons, Event.mk.injEq, Call.StatusUpdate.injEq, reduceCtorEq,
          false_and, List.mem_singleton, List.not_mem_nil, or_false, false_or] at hmem
        obtain ⟨hobj, -⟩ := hmem
        refine ⟨prKey, prToUpdate, List.mem_cons_self _ _, ?_⟩
        rw [hobj]

/-- Every status write of a cycle is issued on a record as a read of the same cycle
returned it, with only the status replaced. -/
theorem followReads_Reconcile (d : Deps) (req : Request) :
    (Reconcile d req).all (fun tr _ => statusWritesFollowReads tr) := by
  unfold Reconcile makePipelineRunOrphan
  simp only [jsonMarshal]
  repeat' first
    | exact followReads_pure _
    | exact followReads_updateStatus _ _
    | exact followReads_perform _ rfl
    | exact followReads_of_safe
        (safe_updateLabelsAndAnnotations _ (fun _ => rfl) (fun _ _ _ _ _ => rfl))
    | exact followReads_of_safe (safe_deleteJenkinsJobHistory _ (fun _ _ _ _ => rfl))
    | exact followReads_of_safe (safe_getPipelineRunResult _ _ _ (fun _ _ _ _ _ => rfl))
    | exact followReads_of_safe (safe_getPipelineNodes _ _ _ (fun _ _ _ _ _ => rfl))
    | exact followReads_of_safe (safe_triggerJenkinsJob _ _ _ _ (fun _ _ _ => rfl))
    | exact followReads_of_safe (safe_hasSamePendingPipelineRun _ _ (fun _ _ => rfl))
    | exact followReads_of_safe (safe_deletePipelineRun _ (fun _ => rfl) (fun _ _ => rfl))
    | refine followReads_bind ?_ (fun _ => ?_)
    | split

/-- C18 as stated does not hold: in a world where the deletion of `finalizedRun` is
requested right after the cycle has fetched it, the cycle triggers the run, and its
`updateStatus` reads the record again, now with the deletion marker set, and issues the
status write on it. -/
theorem reconcile_status_write_on_marked_record :
    ¬ (∀ (σ : Type) (h : Handler σ) (s : σ) (d : Deps) (req : Request),
        ∀ e ∈ trace (exec h (Reconcile d req) s), ∀ obj,
          e.call = Call.StatusUpdate obj → IsZero obj.DeletionTimestamp = true) := by
  intro hall
  have hmarked := hall (World × Bool) World.handleDeleteRequested
    (sampleWorld [finalizedRun], true) sampleDeps requestA
    ((trace (exec World.handleDeleteRequested (Reconcile sampleDeps requestA)
      (sampleWorld [finalizedRun], true))).get ⟨9, by decide⟩) (List.get_mem _ _ _) _ rfl
  exact absurd hmarked (by decide)

/-- C18, amended (invariant I2 as the code keeps it): in every environment, every status
write of a cycle is issued on a record as a read of the same cycle returned it, with only
the status replaced; so when no read of the cycle returns a record with the deletion
marker set, no status write is issued on a record with the marker set; and a cycle whose
fetch is answered with a record with the deletion marker set issues no status write at
all. -/
theorem reconcile_status_writes_follow_reads {σ : Type} (d : Deps) (req : Request)
    (h : Handler σ) (s : σ) :
    (∀ obj ans, Event.mk (Call.StatusUpdate obj) ans ∈ trace (exec h (Reconcile d req) s) →
      ∃ key cur,
        Event.mk (Call.Get key) (Except.ok cur) ∈ trace (exec h (Reconcile d req) s) ∧
        obj = { cur with Status := obj.Status }) ∧
    ((∀ key cur, Event.mk (Call.Get key) (Except.ok cur) ∈ trace (exec h (Reconcile d req) s) →
        IsZero cur.DeletionTimestamp = true) →
      ∀ obj ans, Event.mk (Call.StatusUpdate obj) ans ∈ trace (exec h (Reconcile d req) s) →
        IsZero obj.DeletionTimestamp = true) ∧
    (∀ pr, (h (Call.Get req.NamespacedName) s).1 = Except.ok pr →
      IsZero pr.DeletionTimestamp = false →
      ∀ e ∈ trace (exec h (Reconcile d req) s), isStatusUpdate e.call = false) := by
  have hreads : statusWritesFollowReads (trace (exec h (Reconcile d req) s)) :=
    exec_of_all _ _ (followReads_Reconcile d req) h s
  refine ⟨hreads, fun hclean obj ans hmem => ?_, fun pr hget hdel e he => ?_⟩
  · obtain ⟨key, cur, hread, hobj⟩ := hreads obj ans hmem
    rw [hobj]
    exact hclean key cur hread
  · obtain ⟨rest, htr, hmay⟩ := reconcile_calls_exec d req h s pr hget
    rw [htr] at he
    rcases List.mem_cons.1 he with rfl | he
    · rfl
    · have hc := hmay e he
      unfold reconcileMay at hc
      rw [if_pos hdel] at hc
      rcases hc with ⟨_, _, _, hc⟩ | hc <;> rw [hc] <;> rfl

/-- C18, amended, in the sample world: the polling cycle on `polledRun` writes the status
on a record without deletion marker, and the cycle on `deletingRun`, which is marked for
deletion, writes no status. -/
theorem reconcile_status_writes_follow_reads_witness :
    ((∀ key cur, Event.mk (Call.Get key) (Except.ok cur) ∈
          trace (exec World.handle (Reconcile phaseDeps requestA) (sampleWorld [polledRun])) →
        IsZero cur.DeletionTimestamp = true) ∧
      ∀ obj ans, Event.mk (Call.StatusUpdate obj) ans ∈
          trace (exec World.handle (Reconcile phaseDeps requestA) (sampleWorld [polledRun])) →
        IsZero obj.DeletionTimestamp = true) ∧
    (((World.handle (Call.Get requestA.NamespacedName) (sampleWorld [deletingRun])).1 =
        Except.ok deletingRun ∧ IsZero deletingRun.DeletionTimestamp = false) ∧
      ∀ e ∈ trace (exec World.handle (Reconcile sampleDeps requestA)
          (sampleWorld [deletingRun])), isStatusUpdate e.call = false) := by
  have hclean : ∀ key cur, Event.mk (Call.Get key) (Except.ok cur) ∈
      trace (exec World.handle (Reconcile phaseDeps requestA) (sampleWorld [polledRun])) →
      IsZero cur.DeletionTimestamp = true := by
    intro key cur hmem
    have htr : trace (exec World.handle (Reconcile phaseDeps requestA)
        (sampleWorld [polledRun])) =
        [Event.mk (Call.Get requestA.NamespacedName) (Except.ok polledRun),
         Event.mk (Call.GetPipeline { Namespace := "project1", Name := "build-a" })
           (Except.ok buildA),
         Event.mk (Call.GetBuild { RunID := "42", Pipelines := ["project1", "build-a"],
                                   Branch := "" }) (Except.ok run42),
         Event.mk (Call.GetNodes { Pipelines := ["project1", "build-a"], Branch := "",
                                   RunID := "42" }) (Except.ok []),
         Event.mk (Call.Get requestA.NamespacedName) (Except.ok polledRun),
         Event.mk (Call.Get requestA.NamespacedName) (Except.ok polledRun),
         Event.mk (Call.StatusUpdate
           { polledRun with Status := { emptyStatus with Phase := "FINISHED" } }) none,
         Event.mk (Call.Eventf polledRun EventTypeNormal Updated
           "Updated running data for PipelineRun project1/run-a") ()] := rfl
    rw [htr] at hmem
    simp only [List.mem_cons, Event.mk.injEq, Call.Get.injEq, reduceCtorEq, false_and,
      List.not_mem_nil, or_false, false_or, heq_eq_eq, Except.ok.injEq] at hmem
    rcases hmem with ⟨-, hcur⟩ | ⟨-, hcur⟩ | ⟨-, hcur⟩ <;> cases hcur <;> rfl
  exact ⟨⟨hclean,
      (reconcile_status_writes_follow_reads phaseDeps requestA World.handle
        (sampleWorld [polledRun])).2.1 hclean⟩,
    ⟨rfl, rfl⟩,
    (reconcile_status_writes_follow_reads sampleDeps requestA World.handle
      (sampleWorld [deletingRun])).2.2 deletingRun rfl rfl⟩

/-! ### Write conflicts -/

/-- In every environment, `updateLabelsAndAnnotations` makes at most one metadata write,
and a write that is answered with an error is not attempted again: its error is the
result. -/
theorem updateLabelsAndAnnotations_single_attempt {σ : Type} (h : Handler σ) (s : σ)
    (pr : PipelineRun) :
    ((trace (exec h (updateLabelsAndAnnotations pr) s)).filter
      (fun e => isUpdate e.call)).length ≤ 1 ∧
    ∀ obj err,
      Event.mk (Call.Update obj) (some err) ∈ trace (exec h (updateLabelsAndAnnotations pr) s) →
      outcome (exec h (updateLabelsAndAnnotations pr) s) = Outcome.returned (some err) := by
  refine exec_of_all (updateLabelsAndAnnotations pr)
    (fun tr o => (tr.filter (fun e => isUpdate e.call)).length ≤ 1 ∧
      ∀ obj err, Event.mk (Call.Update obj) (some err) ∈ tr → o = Outcome.returned (some err))
    ?_ h s
  unfold updateLabelsAndAnnotations
  rw [Prog.all_perform_bind]
  intro res
  cases res with
  | error err =>
      refine ⟨by simp [List.filter, isUpdate], fun obj err' hmem => ?_⟩
      simp at hmem
  | ok prToUpdate =>
      dsimp only
      split
      · refine ⟨by simp [List.filter, isUpdate], fun obj err' hmem => ?_⟩
        simp at hmem
      · intro ans
        refine ⟨by simp [List.filter, isUpdate], fun obj err' hmem => ?_⟩
        simp only [List.mem_cons, Event.mk.injEq, reduceCtorEq, false_and, false_or,
          List.not_mem_nil, or_false, Call.Update.injEq] at hmem
        obtain ⟨hobj, hans⟩ := hmem
        subst hobj
        rw [eq_of_heq hans]

/-- In every environment, when the first status write of `updateStatus` is answered with a
conflict, `updateStatus` reads the record again; and when that read returns a record and
the status write made on it is accepted, `updateStatus` returns nil. -/
theorem updateStatus_retries_after_conflict {σ : Type} (h : Handler σ) (s : σ)
    (desiredStatus : PipelineRunStatus) (prKey : ObjectKey) (cur : PipelineRun)
    (obj : PipelineRun) (e : Err) (rest : List Event)
    (hconflict : e.kind = ErrKind.conflict)
    (htrace : trace (exec h (updateStatus desiredStatus prKey) s) =
      Event.mk (Call.Get prKey) (Except.ok cur) ::
        Event.mk (Call.StatusUpdate obj) (some e) :: rest) :
    (∃ ans rest', rest = Event.mk (Call.Get prKey) ans :: rest') ∧
    (∀ cur' obj', rest = [Event.mk (Call.Get prKey) (Except.ok cur'),
        Event.mk (Call.StatusUpdate obj') none] →
      outcome (exec h (updateStatus desiredStatus prKey) s) = Outcome.returned none) := by
  refine exec_of_all (updateStatus desiredStatus prKey)
    (fun tr o => ∀ rest, tr = Event.mk (Call.Get prKey) (Except.ok cur) ::
        Event.mk (Call.StatusUpdate obj) (some e) :: rest →
      (∃ ans rest', rest = Event.mk (Call.Get prKey) ans :: rest') ∧
      (∀ cur' obj', rest = [Event.mk (Call.Get prKey) (Except.ok cur'),
          Event.mk (Call.StatusUpdate obj') none] → o = Outcome.returned none))
    ?_ h s rest htrace
  unfold updateStatus DefaultRetrySteps
  rw [RetryOnConflict, Prog.bind_assoc_eq, Prog.all_perform_bind]
  intro res
  cases res with
  | error err =>
      refine Prog.all_of_forall _ (fun tr o rest htr => ?_)
      simp at htr
  | ok prToUpdate =>
      dsimp only
      split
      · rw [Prog.pure_bind_eq]
        intro rest htr
        simp at htr
      · rw [Prog.all_perform_bind]
        intro ans
        cases ans with
        | none =>
            intro rest htr
            simp at htr
        | some e' =>
            by_cases he : e' = e
            swap
            · refine Prog.all_of_forall _ (fun tr o rest htr => ?_)
              simp only [List.cons.injEq, Event.mk.injEq, heq_eq_eq, true_and,
                Option.some.injEq] at htr
              exact (he (Option.some.inj htr.2.1.2)).elim
            subst he
            dsimp only
            rw [if_pos hconflict, RetryOnConflict, Prog.bind_assoc_eq, Prog.all_perform_bind]
            intro res'
            cases res' with
            | error err' =>
                dsimp only
                rw [Prog.pure_bind_eq]
                dsimp only
                split
                · refine Prog.all_of_forall _ (fun tr o rest htr => ?_)
                  simp only [List.cons.injEq, Event.mk.injEq, heq_eq_eq, true_and] at htr
                  refine ⟨⟨_, _, htr.2.2.symm⟩, fun cur' obj' hrest => ?_⟩
                  rw [← htr.2.2] at hrest
                  simp at hrest
                · intro rest htr
                  simp only [List.cons.injEq, Event.mk.injEq, heq_eq_eq, true_and] at htr
                  refine ⟨⟨_, _, htr.2.2.symm⟩, fun cur' obj' hrest => ?_⟩
                  rw [← htr.2.2] at hrest
                  simp at hrest
            | ok prToUpdate' =>
                dsimp only
                split
                · rw [Prog.pure_bind_eq]
                  intro rest htr
                  simp only [List.cons.injEq, Event.mk.injEq, heq_eq_eq, true_and] at htr
                  exact ⟨⟨_, _, htr.2.2.symm⟩, fun _ _ _ => rfl⟩
                · rw [Prog.all_perform_bind]
                  intro ans'
                  cases ans' with
                  | none =>
                      intro rest htr
                      simp only [List.cons.injEq, Event.mk.injEq, heq_eq_eq, true_and] at htr
                      exact ⟨⟨_, _, htr.2.2.symm⟩, fun _ _ _ => rfl⟩
                  | some e'' =>
                      refine Prog.all_of_forall _ (fun tr o rest htr => ?_)
                      simp only [List.cons.injEq, Event.mk.injEq, heq_eq_eq, true_and] at htr
                      refine ⟨⟨_, _, htr.2.2.symm⟩, fun cur' obj' hrest => ?_⟩
                      rw [← htr.2.2] at hrest
                      simp at hrest

/-- C20 in a world whose store rejects the first write with a conflict and accepts every
later one.  The polling cycle on `startedRun` and the first cycle on `freshRun` each make
one metadata write, get the conflict, make no second attempt and return the conflict as
the error of the cycle (with a requeue after one second in the polling cycle).  The
polling cycle on `polledRun`, whose metadata is up to date so that the status write is the
first write, gets the conflict on the status write, reads the record again, writes the
status again and ends without error. -/
theorem reconcile_metadata_conflict_not_retried :
    (outcome (exec World.handleConflictOnce (Reconcile sampleDeps requestA)
        (sampleWorld [startedRun], true)) =
      Outcome.returned ({ RequeueAfter := Second },
        some (conflict requestA.NamespacedName)) ∧
      ((trace (exec World.handleConflictOnce (Reconcile sampleDeps requestA)
        (sampleWorld [startedRun], true))).filter (fun e => isUpdate e.call)).length = 1 ∧
      (final (exec World.handleConflictOnce (Reconcile sampleDeps requestA)
        (sampleWorld [startedRun], true))).2 = false) ∧
    (outcome (exec World.handleConflictOnce (Reconcile sampleDeps requestA)
        (sampleWorld [freshRun], true)) =
      Outcome.returned ({}, some (conflict requestA.NamespacedName)) ∧
      ((trace (exec World.handleConflictOnce (Reconcile sampleDeps requestA)
        (sampleWorld [freshRun], true))).filter (fun e => isUpdate e.call)).length = 1 ∧
      (final (exec World.handleConflictOnce (Reconcile sampleDeps requestA)
        (sampleWorld [freshRun], true))).2 = false) ∧
    (outcome (exec World.handleConflictOnce (Reconcile phaseDeps requestA)
        (sampleWorld [polledRun], true)) =
      Outcome.returned ({ RequeueAfter := 3 * Second }, none) ∧
      ((trace (exec World.handleConflictOnce (Reconcile phaseDeps requestA)
        (sampleWorld [polledRun], true))).filter (fun e => isUpdate e.call)).length = 0 ∧
      ((trace (exec World.handleConflictOnce (Reconcile phaseDeps requestA)
        (sampleWorld [polledRun], true))).filter
          (fun e => isStatusUpdate e.call)).length = 2 ∧
      ((final (exec World.handleConflictOnce (Reconcile phaseDeps requestA)
        (sampleWorld [polledRun], true))).1.getRun requestA.NamespacedName).map
          (fun stored => stored.Status.Phase) = some "FINISHED") :=
  ⟨⟨rfl, rfl, rfl⟩, ⟨rfl, rfl, rfl⟩, ⟨rfl, rfl, rfl, rfl⟩⟩

/-! ### Trigger failures -/

/-- C23 (trigger failure): in every environment, a cycle whose fetch is answered with a
buildable, not-yet-started record without deletion marker, whose parent is fetched, whose
branch name can be derived and whose trigger call is answered with an error, reports the
failure with one warning event and returns the empty result with that error; after the
trigger it makes no other call, so no dedup listing and no metadata or status write, and
no run identifier is persisted. -/
theorem reconcile_trigger_failure {σ : Type} (d : Deps) (req : Request) (h : Handler σ)
    (s : σ) (pr : PipelineRun) (pipelineRef : ObjectReference) (pipeline : Pipeline)
    (branch : String) (err : Err)
    (hget : (h (Call.Get req.NamespacedName) s).1 = Except.ok pr)
    (hdel : IsZero pr.DeletionTimestamp = true) (hbuildable : Buildable pr = true)
    (href : pr.Spec.PipelineRef = some pipelineRef) (hname : pipelineRef.Name ≠ "")
    (hparent : (h (Call.GetPipeline { Namespace := pr.Namespace, Name := pipelineRef.Name })
      (h (Call.Get req.NamespacedName) s).2).1 = Except.ok pipeline)
    (hnew : HasStarted pr = false) (hbranch : getSCMRefName pr.Spec = Except.ok branch)
    (hfail : (h (Call.Build (BuildOption.mk [pipeline.Namespace, pipeline.Name]
        (d.convert pr.Spec.Parameters) branch))
      (h (Call.GetPipeline { Namespace := pr.Namespace, Name := pipelineRef.Name })
        (h (Call.Get req.NamespacedName) s).2).2).1 = Except.error err) :
    outcome (exec h (Reconcile d req) s) =
      Outcome.returned ({ Requeue := false, RequeueAfter := 0 }, some err) ∧
    (∃ obj message, trace (exec h (Reconcile d req) s) =
      [Event.mk (Call.Get req.NamespacedName) (Except.ok pr),
       Event.mk (Call.GetPipeline { Namespace := pr.Namespace, Name := pipelineRef.Name })
         (Except.ok pipeline),
       Event.mk (Call.Build (BuildOption.mk [pipeline.Namespace, pipeline.Name]
        (d.convert pr.Spec.Parameters) branch))
         (Except.error err),
       Event.mk (Call.Eventf obj EventTypeWarning TriggerFailed message) ()]) ∧
    (∀ e ∈ trace (exec h (Reconcile d req) s),
      isStoreWrite e.call = false ∧ (∀ opts, e.call ≠ Call.List opts)) := by
  suffices hx : ∃ obj message s', exec h (Reconcile d req) s =
      (Outcome.returned ({}, some err),
        [Event.mk (Call.Get req.NamespacedName) (Except.ok pr),
         Event.mk (Call.GetPipeline { Namespace := pr.Namespace, Name := pipelineRef.Name })
           (Except.ok pipeline),
         Event.mk (Call.Build (BuildOption.mk [pipeline.Namespace, pipeline.Name]
        (d.convert pr.Spec.Parameters) branch))
           (Except.error err),
         Event.mk (Call.Eventf obj EventTypeWarning TriggerFailed message) ()], s') by
    obtain ⟨obj, message, s', hx⟩ := hx
    rw [hx]
    refine ⟨rfl, ⟨obj, message, rfl⟩, fun e he => ?_⟩
    simp only [trace, List.mem_cons, List.mem_singleton, List.not_mem_nil, or_false] at he
    rcases he with he | he | he | he <;> rw [he] <;>
      exact ⟨rfl, fun _ hcon => (nomatch hcon)⟩
  unfold Reconcile
  rw [exec_bind_do, exec_perform]
  dsimp only
  rw [hget]
  dsimp only
  rw [if_neg (by simp [hdel]), if_neg (by simp [hbuildable]), href]
  dsimp only
  rw [if_neg hname, exec_bind_do, exec_perform]
  dsimp only
  rw [hparent]
  dsimp only
  generalize (some _ : Option StrMap) = labels
  have hns : HasStarted { pr with Labels := labels } = false := hnew
  rw [hns, if_neg (by simp), exec_bind_do]
  have htrigger : ∀ st, exec h (triggerJenkinsJob d pipeline.Namespace pipeline.Name pr.Spec) st =
      exec h (perform (Call.Build (BuildOption.mk [pipeline.Namespace, pipeline.Name]
        (d.convert pr.Spec.Parameters) branch))) st := by
    intro st
    unfold triggerJenkinsJob
    rw [hbranch]
  rw [htrigger, exec_perform]
  dsimp only
  rw [hfail]
  dsimp only
  rw [exec_bind_do, exec_perform]
  exact ⟨_, _, _, rfl⟩

/-- C23 at the record `freshRun` in a world whose Jenkins rejects every trigger. -/
theorem reconcile_trigger_failure_witness :
    ((World.handle (Call.Get requestA.NamespacedName) (failingJenkinsWorld [freshRun])).1
        = Except.ok freshRun ∧
      IsZero freshRun.DeletionTimestamp = true ∧ Buildable freshRun = true ∧
      freshRun.Spec.PipelineRef = some { Name := "build-a" } ∧
      ({ Name := "build-a" } : ObjectReference).Name ≠ "" ∧
      (World.handle (Call.GetPipeline { Namespace := "project1", Name := "build-a" })
        (failingJenkinsWorld [freshRun])).1 = Except.ok buildA ∧
      HasStarted freshRun = false ∧ getSCMRefName freshRun.Spec = Except.ok "" ∧
      (World.handle (Call.Build (BuildOption.mk ["project1", "build-a"] [] ""))
        (failingJenkinsWorld [freshRun])).1 =
        Except.error (errorf "connection refused")) ∧
    outcome (exec World.handle (Reconcile sampleDeps requestA)
        (failingJenkinsWorld [freshRun])) =
      Outcome.returned ({ Requeue := false, RequeueAfter := 0 },
        some (errorf "connection refused")) ∧
    (final (exec World.handle (Reconcile sampleDeps requestA)
        (failingJenkinsWorld [freshRun]))).runs = [freshRun] ∧
    (∀ e ∈ trace (exec World.handle (Reconcile sampleDeps requestA)
        (failingJenkinsWorld [freshRun])),
      isStoreWrite e.call = false ∧ (∀ opts, e.call ≠ Call.List opts)) :=
  ⟨⟨rfl, rfl, rfl, rfl, by decide, rfl, rfl, rfl, rfl⟩,
    (reconcile_trigger_failure sampleDeps requestA World.handle
      (failingJenkinsWorld [freshRun]) freshRun { Name := "build-a" } buildA ""
      (errorf "connection refused") rfl rfl rfl rfl (by decide) rfl rfl rfl rfl).1,
    rfl,
    (reconcile_trigger_failure sampleDeps requestA World.handle
      (failingJenkinsWorld [freshRun]) freshRun { Name := "build-a" } buildA ""
      (errorf "connection refused") rfl rfl rfl rfl (by decide) rfl rfl rfl rfl).2.2⟩

/-! ### Cleanup without parent reference -/

/-- C28 at the record `deletingRunWithoutRef`, whose recorded build number is `2` and whose
parent reference is nil: `deleteJenkinsJobHistory` does not return; it stops on the
nil-pointer dereference before any call. -/
theorem deleteJenkinsJobHistory_nil_ref_panics :
    getJenkinsBuildNumber deletingRunWithoutRef = 2 ∧
    deletingRunWithoutRef.Spec.PipelineRef = none ∧
    outcome (exec World.handle (deleteJenkinsJobHistory deletingRunWithoutRef)
        (sampleWorld [deletingRunWithoutRef])) =
      Outcome.crashed "invalid memory address or nil pointer dereference" ∧
    trace (exec World.handle (deleteJenkinsJobHistory deletingRunWithoutRef)
        (sampleWorld [deletingRunWithoutRef])) = [] :=
  ⟨rfl, rfl, rfl, rfl⟩

/-! ### Branch filter -/

theorem foldl_append_filter (p : Branch → Bool) :
    ∀ (branches acc : List Branch),
      branches.foldl (fun resultBranches branch =>
        if p branch then resultBranches ++ [branch] else resultBranches) acc =
        acc ++ branches.filter p := by
  intro branches
  induction branches with
  | nil => intro acc; simp
  | cons b bs ih =>
      intro acc
      rw [List.foldl_cons, ih]
      by_cases hb : p b = true
      · simp [hb, List.filter_cons]
      · simp [hb, List.filter_cons]

/-- The loop of `branchSlice.filter` with a predicate selects the branches the predicate
holds for, in their order. -/
theorem branchSlice_filter_some (branches : List Branch) (p : Branch → Bool) :
    branchSlice.filter branches (some p) = branches.filter p := by
  unfold branchSlice.filter
  have h := foldl_append_filter p branches []
  simpa using h

/-- C24 (pull-requests filter): for every list of branches, `filterBranches` with the
pull-requests filter returns exactly the branches that have a pull request with a
non-empty ID, in their original order and with their multiplicity; a branch with a nil
pull request or with a pull request whose ID is empty is not in the result. -/
theorem filterBranches_pull_requests (branches : List Branch) :
    filterBranches branches PullRequestFilter =
      branches.filter (fun b => b.PullRequest.any (fun pullRequest => pullRequest.ID != "")) ∧
    (filterBranches branches PullRequestFilter).Sublist branches ∧
    (∀ b, b ∈ filterBranches branches PullRequestFilter ↔
      b ∈ branches ∧ ∃ pullRequest, b.PullRequest = some pullRequest ∧ pullRequest.ID ≠ "") ∧
    (∀ b ∈ filterBranches branches PullRequestFilter,
      b.PullRequest ≠ none ∧ b.PullRequest ≠ some { ID := "" }) := by
  have hx : filterBranches branches PullRequestFilter =
      branches.filter (fun b => b.PullRequest.any (fun pullRequest => pullRequest.ID != "")) := by
    unfold filterBranches
    dsimp only
    rw [if_pos rfl, branchSlice_filter_some]
    congr 1
    funext b
    cases b.PullRequest <;> rfl
  have hmem : ∀ b, b ∈ filterBranches branches PullRequestFilter ↔
      b ∈ branches ∧ ∃ pullRequest, b.PullRequest = some pullRequest ∧ pullRequest.ID ≠ "" := by
    intro b
    rw [hx, List.mem_filter]
    cases hpr : b.PullRequest with
    | none => simp
    | some pullRequest => simp
  refine ⟨hx, ?_, hmem, fun b hb => ?_⟩
  · rw [hx]
    exact List.filter_sublist _
  · obtain ⟨-, pullRequest, hpr, hid⟩ := (hmem b).1 hb
    rw [hpr]
    refine ⟨fun hcon => (nomatch hcon), fun hcon => ?_⟩
    cases hcon
    exact hid rfl

/-- C24 at the branches of the unit test: the result is the branch `PR1`. -/
theorem filterBranches_pull_requests_witness :
    filterBranches testBranches "pull-requests" =
      [{ Name := "PR1", PullRequest := some { ID := "1" } }] ∧
    filterBranches testBranches PullRequestFilter =
      testBranches.filter
        (fun b => b.PullRequest.any (fun pullRequest => pullRequest.ID != "")) :=
  ⟨rfl, (filterBranches_pull_requests testBranches).1⟩

/-- C25 (origin filter): for every list of branches, `filterBranches` with the origin
filter returns exactly the branches whose pull request is nil or has an empty ID, in
their original order and with their multiplicity; it is the complement, within the input,
of the result of the pull-requests filter: it selects the branches that filter rejects,
each branch of the input is in exactly one of the two results, and the two results
together have as many branches as the input. -/
theorem filterBranches_origin (branches : List Branch) :
    filterBranches branches OriginFilter =
      branches.filter (fun b => b.PullRequest.all (fun pullRequest => pullRequest.ID == "")) ∧
    filterBranches branches OriginFilter =
      branches.filter
        (fun b => !b.PullRequest.any (fun pullRequest => pullRequest.ID != "")) ∧
    (filterBranches branches OriginFilter).Sublist branches ∧
    (∀ b ∈ branches,
      (b ∈ filterBranches branches OriginFilter ↔
        b ∉ filterBranches branches PullRequestFilter)) ∧
    (filterBranches branches OriginFilter).length +
      (filterBranches branches PullRequestFilter).length = branches.length := by
  have hne : OriginFilter ≠ PullRequestFilter := by decide
  have ho : filterBranches branches OriginFilter =
      branches.filter
        (fun b => !b.PullRequest.any (fun pullRequest => pullRequest.ID != "")) := by
    unfold filterBranches
    dsimp only
    rw [if_neg hne, if_pos rfl, branchSlice_filter_some]
    congr 1
    funext b
    cases hpr : b.PullRequest with
    | none => rfl
    | some pullRequest => simp [Option.any, bne]
  have hp : filterBranches branches PullRequestFilter =
      branches.filter (fun b => b.PullRequest.any (fun pullRequest => pullRequest.ID != "")) := by
    unfold filterBranches
    dsimp only
    rw [if_pos rfl, branchSlice_filter_some]
    congr 1
    funext b
    cases b.PullRequest <;> rfl
  refine ⟨?_, ho, ?_, ?_, ?_⟩
  · rw [ho]
    congr 1
    funext b
    cases hpr : b.PullRequest with
    | none => rfl
    | some pullRequest => simp [Option.any, Option.all, bne]
  · rw [ho]
    exact List.filter_sublist _
  · intro b hb
    rw [ho, hp, List.mem_filter, List.mem_filter]
    simp [hb]
  · rw [ho, hp]
    have hlen := List.length_eq_length_filter_add (l := branches)
      (fun b : Branch => b.PullRequest.any (fun pullRequest => pullRequest.ID != ""))
    omega

/-- C25 at the branches of the unit test: the result is `main1` and `main2`. -/
theorem filterBranches_origin_witness :
    filterBranches testBranches "origin" =
      [{ Name := "main1" }, { Name := "main2", PullRequest := some { ID := "" } }] ∧
    (filterBranches testBranches OriginFilter).length +
      (filterBranches testBranches PullRequestFilter).length = testBranches.length :=
  ⟨rfl, (filterBranches_origin testBranches).2.2.2.2⟩

/-- C26 (no filter or an unrecognised filter): for every list of branches and every filter
value other than the origin and the pull-requests filter, the empty string included,
`filterBranches` returns all the branches of the input in the same order. -/
theorem filterBranches_other (branches : List Branch) (filter : String)
    (horigin : filter ≠ OriginFilter) (hpull : filter ≠ PullRequestFilter) :
    filterBranches branches filter = branches := by
  unfold filterBranches
  dsimp only
  rw [if_neg hpull, if_neg horigin, branchSlice_filter_some]
  exact List.filter_eq_self.2 (fun _ _ => rfl)

/-- C26 at the branches of the unit test, without filter and with the filter `all`. -/
theorem filterBranches_other_witness :
    (("" : String) ≠ OriginFilter ∧ ("" : String) ≠ PullRequestFilter ∧
      filterBranches testBranches "" = testBranches) ∧
    (("all" : String) ≠ OriginFilter ∧ ("all" : String) ≠ PullRequestFilter ∧
      filterBranches testBranches "all" = testBranches) :=
  ⟨⟨by decide, by decide, filterBranches_other testBranches "" (by decide) (by decide)⟩,
    ⟨by decide, by decide, filterBranches_other testBranches "all" (by decide) (by decide)⟩⟩

/-! ### Run creation -/

/-- The loop of `convertParameters` appends to the slice, in order, one parameter for each
payload parameter it keeps. -/
theorem convertParameters_foldl {V : Type} (dyn : Dynamic V) :
    ∀ (params : List (RunParameter V)) (acc : Option (List Parameter)),
      sliceItems (params.foldl
        (fun parameters parameter =>
          if parameter.Name = "" ∨ dyn.isEmptyString parameter.Value = true then parameters
          else sliceAppend parameters
            { Name := parameter.Name, Value := dyn.Sprint parameter.Value }) acc) =
      sliceItems acc ++ params.filterMap (fun parameter =>
        if parameter.Name = "" ∨ dyn.isEmptyString parameter.Value = true then none
        else some { Name := parameter.Name, Value := dyn.Sprint parameter.Value }) := by
  intro params
  induction params with
  | nil => intro acc; simp
  | cons p ps ih =>
      intro acc
      rw [List.foldl_cons, ih]
      by_cases hp : p.Name = "" ∨ dyn.isEmptyString p.Value = true
      · simp [hp, List.filterMap_cons]
      · rw [if_neg hp, List.filterMap_cons, if_neg hp]
        cases acc <;> simp [sliceAppend, sliceItems]

/-- C29 (`convertParameters`): a nil payload yields nil; for every non-nil payload the
result holds, in the order of the payload, exactly one parameter for each payload
parameter whose name is not empty and whose value is not the empty string, with the same
name and the text `fmt.Sprint` gives for the value; every parameter of the result has a
non-empty name and, `fmt.Sprint` giving a non-empty text for every value other than the
empty string, a non-empty value; and the result is never longer than the parameter list
of the payload. -/
theorem convertParameters_spec {V : Type} (dyn : Dynamic V)
    (hrender : ∀ v, dyn.isEmptyString v = false → dyn.Sprint v ≠ "") :
    convertParameters dyn none = none ∧
    ∀ payload : RunPayload V,
      sliceItems (convertParameters dyn (some payload)) =
        payload.Parameters.filterMap (fun parameter =>
          if parameter.Name = "" ∨ dyn.isEmptyString parameter.Value = true then none
          else some { Name := parameter.Name, Value := dyn.Sprint parameter.Value }) ∧
      (∀ q ∈ sliceItems (convertParameters dyn (some payload)),
        q.Name ≠ "" ∧ q.Value ≠ "") ∧
      (sliceItems (convertParameters dyn (some payload))).length ≤
        payload.Parameters.length := by
  refine ⟨rfl, fun payload => ?_⟩
  have hx : sliceItems (convertParameters dyn (some payload)) =
      payload.Parameters.filterMap (fun parameter =>
        if parameter.Name = "" ∨ dyn.isEmptyString parameter.Value = true then none
        else some { Name := parameter.Name, Value := dyn.Sprint parameter.Value }) := by
    unfold convertParameters
    dsimp only
    rw [convertParameters_foldl]
    rfl
  refine ⟨hx, ?_, ?_⟩
  · intro q hq
    rw [hx, List.mem_filterMap] at hq
    obtain ⟨p, -, hp⟩ := hq
    by_cases hkeep : p.Name = "" ∨ dyn.isEmptyString p.Value = true
    · rw [if_pos hkeep] at hp
      cases hp
    · rw [if_neg hkeep] at hp
      cases hp
      have hname : p.Name ≠ "" := fun h => hkeep (Or.inl h)
      have hvalue : dyn.isEmptyString p.Value = false := by
        cases hv : dyn.isEmptyString p.Value with
        | false => rfl
        | true => exact absurd (Or.inr hv) hkeep
      exact ⟨hname, hrender p.Value hvalue⟩
  · rw [hx]
    exact List.length_filterMap_le _ _

/-- C29 at the sample payload, with values that are nil or strings: the parameter without
name and the one with the empty value are dropped, the two others are kept in order. -/
theorem convertParameters_spec_witness :
    (∀ v, stringOrNil.isEmptyString v = false → stringOrNil.Sprint v ≠ "") ∧
    convertParameters stringOrNil none = none ∧
    sliceItems (convertParameters stringOrNil (some samplePayload)) =
      [{ Name := "branch", Value := "main" }, { Name := "tag", Value := "<nil>" }] ∧
    (∀ q ∈ sliceItems (convertParameters stringOrNil (some samplePayload)),
      q.Name ≠ "" ∧ q.Value ≠ "") := by
  have hrender : ∀ v, stringOrNil.isEmptyString v = false → stringOrNil.Sprint v ≠ "" := by
    intro v hv
    cases v with
    | none => decide
    | some s =>
        intro hs
        have hempty : s = "" := hs
        rw [hempty] at hv
        cases hv
  exact ⟨hrender, (convertParameters_spec stringOrNil hrender).1, rfl,
    ((convertParameters_spec stringOrNil hrender).2 samplePayload).2.1⟩

/-- C30 (`getScm` and the branch requirement of the controller): for every pipeline spec
and branch, `getScm` fails exactly when the pipeline is multi-branch and the branch is
empty; for a multi-branch pipeline and a non-empty branch it returns an SCM whose
reference name is the branch, and `getSCMRefName` on the spec of a run that
`createPipelineRun` builds from such a pipeline and that SCM returns the branch; for a
pipeline that is not multi-branch it returns no SCM and no error, whatever the branch. -/
theorem getScm_spec (ps : PipelineSpec) (branch : String) :
    ((∃ err, getScm ps branch = Except.error err) ↔
      ps.Type_ = MultiBranchPipelineType ∧ branch = "") ∧
    (ps.Type_ = MultiBranchPipelineType → branch ≠ "" →
      ∃ scm, getScm ps branch = Except.ok (some scm) ∧ scm.RefName = branch ∧
        ∀ (V : Type) (dyn : Dynamic V) (pipeline : Pipeline)
          (payload : Option (RunPayload V)),
          pipeline.Spec = ps →
          getSCMRefName (createPipelineRun dyn pipeline payload (some scm)).Spec =
            Except.ok branch) ∧
    (ps.Type_ ≠ MultiBranchPipelineType → getScm ps branch = Except.ok none) := by
  unfold getScm
  by_cases hmulti : ps.Type_ = MultiBranchPipelineType
  · rw [if_pos hmulti]
    by_cases hbranch : branch = ""
    · rw [if_pos hbranch]
      refine ⟨⟨fun _ => ⟨hmulti, hbranch⟩, fun _ => ⟨_, rfl⟩⟩, fun _ hne => absurd hbranch hne,
        fun hne => absurd hmulti hne⟩
    · rw [if_neg hbranch]
      refine ⟨⟨?_, fun hcon => absurd hcon.2 hbranch⟩, fun _ _ => ?_, fun hne => absurd hmulti hne⟩
      · rintro ⟨err, herr⟩
        cases herr
      · refine ⟨{ RefName := branch, RefType := "" }, rfl, rfl, ?_⟩
        intro V dyn pipeline payload hspec
        have hflag : decide (pipeline.Spec.Type_ = MultiBranchPipelineType) = true := by
          rw [hspec]
          exact decide_eq_true hmulti
        unfold getSCMRefName createPipelineRun IsMultiBranchPipeline
        simp only [hflag, if_true, if_neg hbranch]
  · rw [if_neg hmulti]
    refine ⟨⟨?_, fun hcon => absurd hcon.1 hmulti⟩, fun h => absurd h hmulti, fun _ => rfl⟩
    rintro ⟨err, herr⟩
    cases herr

/-- C30 at the multi-branch pipeline `build-mb` with the branch `main` and with no branch,
and at the pipeline `build-a`, which is not multi-branch. -/
theorem getScm_spec_witness :
    (buildMB.Spec.Type_ = MultiBranchPipelineType ∧ ("main" : String) ≠ "") ∧
    (∃ scm, getScm buildMB.Spec "main" = Except.ok (some scm) ∧ scm.RefName = "main" ∧
      getSCMRefName (createPipelineRun stringOrNil buildMB (some samplePayload)
        (some scm)).Spec = Except.ok "main") ∧
    (∃ err, getScm buildMB.Spec "" = Except.error err) ∧
    (buildA.Spec.Type_ ≠ MultiBranchPipelineType ∧
      getScm buildA.Spec "main" = Except.ok none) := by
  obtain ⟨scm, hscm, hname, hrun⟩ := (getScm_spec buildMB.Spec "main").2.1 rfl (by decide)
  exact ⟨⟨rfl, by decide⟩,
    ⟨scm, hscm, hname, hrun _ stringOrNil buildMB (some samplePayload) rfl⟩,
    ((getScm_spec buildMB.Spec "").1).2 ⟨rfl, rfl⟩,
    ⟨by decide, (getScm_spec buildA.Spec "main").2.2 (by decide)⟩⟩

/-! ### Jenkinsfile annotations -/

/-- In every environment, `updateAnnotations` with a non-nil annotations argument, whose
read returns a pipeline with a nil annotation map, stops on the assignment into the nil
map right after that read. -/
theorem exec_updateAnnotations_nil_map {σ : Type} (h : Handler σ) (s : σ)
    (annotations : StrMap) (pipelineKey : ObjectKey) (pipeline : Pipeline)
    (hget : (h (Call.GetPipeline pipelineKey) s).1 = Except.ok pipeline)
    (hnil : pipeline.Annotations = none) :
    exec h (updateAnnotations (some annotations) pipelineKey) s =
      (Outcome.crashed "assignment to entry in nil map",
        [Event.mk (Call.GetPipeline pipelineKey) (Except.ok pipeline)],
        (h (Call.GetPipeline pipelineKey) s).2) := by
  unfold updateAnnotations DefaultRetrySteps
  rw [RetryOnConflict, exec_bind_do, exec_bind_do, exec_perform]
  dsimp only
  rw [hget]
  dsimp only
  rw [hnil]
  rfl

/-- C27 at the pipeline `project1/build-a`, stored with an inline Jenkinsfile and without
annotations: `updateAnnotations` with the three Jenkinsfile annotations reads the
pipeline and stops on the assignment into its nil annotation map, and so does
`reconcileJenkinsfileEditMode`, which calls it after the Jenkinsfile has converted; no
update reaches the store, and the stored pipeline keeps its nil annotation map.  With an
empty, non-nil annotation map stored, the same call completes and the three annotations
are stored. -/
theorem updateAnnotations_nil_map_panics :
    jenkinsfilePipeline.Annotations = none ∧
    outcome (exec World.handle
        (updateAnnotations (some (convertedAnnotations "pipeline { }")) pipelineKeyA)
        (pipelineWorld [jenkinsfilePipeline])) =
      Outcome.crashed "assignment to entry in nil map" ∧
    outcome (exec World.handle (reconcileJenkinsfileEditMode jenkinsfilePipeline pipelineKeyA)
        (pipelineWorld [jenkinsfilePipeline])) =
      Outcome.crashed "assignment to entry in nil map" ∧
    trace (exec World.handle (reconcileJenkinsfileEditMode jenkinsfilePipeline pipelineKeyA)
        (pipelineWorld [jenkinsfilePipeline])) =
      [Event.mk (Call.ToJSON "pipeline { }")
         (Except.ok { Status := "success", Result := "pipeline { }" }),
       Event.mk (Call.GetPipeline pipelineKeyA) (Except.ok jenkinsfilePipeline)] ∧
    (final (exec World.handle (reconcileJenkinsfileEditMode jenkinsfilePipeline pipelineKeyA)
        (pipelineWorld [jenkinsfilePipeline]))).pipelines = [jenkinsfilePipeline] ∧
    outcome (exec World.handle (reconcileJenkinsfileEditMode annotatedPipeline pipelineKeyA)
        (pipelineWorld [annotatedPipeline])) = Outcome.returned ({}, none) ∧
    (final (exec World.handle (reconcileJenkinsfileEditMode annotatedPipeline pipelineKeyA)
        (pipelineWorld [annotatedPipeline]))).pipelines =
      [{ annotatedPipeline with Annotations := some (convertedAnnotations "pipeline { }") }] :=
  ⟨rfl, rfl, rfl, rfl, rfl, rfl, rfl⟩

/-! ### The status after the first trigger -/

/-- In the world, `updateLabelsAndAnnotations` on a stored record that is not marked for
deletion and whose annotations differ from the ones handed in makes one read and one
write, returns nil, and leaves the record with the annotations handed in and with the
finalizer, its status untouched. -/
theorem exec_updateLabelsAndAnnotations_store (w : World) (pr cur : PipelineRun)
    (hcur : w.getRun (keyOf pr) = some cur)
    (hzero : IsZero cur.DeletionTimestamp = true)
    (hdiff : mapDeepEqual pr.Annotations cur.Annotations = false) :
    ∃ obj w' new, exec World.handle (updateLabelsAndAnnotations pr) w =
        (Outcome.returned none,
          [Event.mk (Call.Get (keyOf pr)) (Except.ok cur), Event.mk (Call.Update obj) none],
          w') ∧
      w'.getRun (keyOf pr) = some new ∧ w'.clock = w.clock ∧
      new.Annotations = pr.Annotations ∧ new.Status = cur.Status ∧
      HasString new.Finalizers PipelineRunFinalizerName = true := by
  have hkey : keyOf cur = keyOf pr := keyOf_of_getRun w _ cur hcur
  have hfn : exec World.handle (perform (Call.Get { Namespace := pr.Namespace, Name := pr.Name })) w
      = (Outcome.returned (Except.ok cur),
          [Event.mk (Call.Get { Namespace := pr.Namespace, Name := pr.Name }) (Except.ok cur)],
          w) := by
    rw [exec_perform]
    have hcur' : w.getRun { Namespace := pr.Namespace, Name := pr.Name } = some cur := hcur
    simp only [World.handle, hcur']
  unfold updateLabelsAndAnnotations
  rw [exec_bind_do, hfn]
  dsimp only
  rw [hdiff, Bool.and_false, if_neg (by simp), exec_perform]
  -- the record written
  generalize hobj : (if (!HasString cur.Finalizers PipelineRunFinalizerName) = true then
      ({ cur with Labels := pr.Labels, Annotations := pr.Annotations,
                  Finalizers := cur.Finalizers ++ [PipelineRunFinalizerName] } : PipelineRun)
    else { cur with Labels := pr.Labels, Annotations := pr.Annotations }) = obj
  have hobjkey : keyOf obj = keyOf pr := by
    rw [← hobj, ← hkey]
    split <;> rfl
  have hobja : obj.Annotations = pr.Annotations := by
    rw [← hobj]
    split <;> rfl
  have hobjf : HasString obj.Finalizers PipelineRunFinalizerName = true := by
    rw [← hobj]
    split
    · simp [HasString]
    · rename_i hfin
      simpa using hfin
  have hcur' : w.getRun (keyOf obj) = some cur := by
    rw [hobjkey]
    exact hcur
  have hans : World.handle (Call.Update obj) w =
      (none, w.replace { obj with Status := cur.Status,
                                  DeletionTimestamp := cur.DeletionTimestamp }) := by
    simp only [World.handle, hcur', hzero, Bool.not_true, Bool.false_and, Bool.false_eq_true,
      if_false]
  rw [hans]
  refine ⟨obj, _, { obj with Status := cur.Status, DeletionTimestamp := cur.DeletionTimestamp },
    rfl, ?_, rfl, hobja, rfl, hobjf⟩
  have := getRun_replace w
    { obj with Status := cur.Status, DeletionTimestamp := cur.DeletionTimestamp } cur hcur'
  have hk2 :
      keyOf { obj with Status := cur.Status, DeletionTimestamp := cur.DeletionTimestamp } =
        keyOf pr := hobjkey
  rw [hk2] at this
  exact this

/-- C22 as stated does not hold: in the sample world, the cycle for the record `freshRun`
(parent reference `build-a`, no branch, no run identifier), whose trigger returns the run
`42` and whose writes succeed, leaves the stored status with the empty phase, not with
the phase `Pending`. -/
theorem reconcile_first_trigger_phase_not_pending :
    ¬ (∀ (d : Deps) (req : Request) (w : World) (pr : PipelineRun) (pipeline : Pipeline)
        (jobRun : JobRun),
        w.getRun req.NamespacedName = some pr → IsZero pr.DeletionTimestamp = true →
        Buildable pr = true → pr.Spec.PipelineRef = some { Name := "build-a" } →
        pr.Spec.SCM = none →
        w.getPipeline { Namespace := pr.Namespace, Name := "build-a" } = some pipeline →
        HasStarted pr = false →
        outcome (exec World.handle
            (triggerJenkinsJob d pipeline.Namespace pipeline.Name pr.Spec) w) =
          Outcome.returned (Except.ok jobRun) →
        jobRun.ID = "42" →
        outcome (exec World.handle (hasSamePendingPipelineRun jobRun pipeline) w) =
          Outcome.returned (Except.ok false) →
        ∃ stored,
          (final (exec World.handle (Reconcile d req) w)).getRun req.NamespacedName =
            some stored ∧
          stored.Status.Phase = Pending) := by
  intro hall
  obtain ⟨stored, hget, hphase⟩ :=
    hall sampleDeps requestA (sampleWorld [freshRun]) freshRun buildA run42
      rfl rfl rfl rfl rfl rfl rfl rfl rfl rfl
  have hrun : ((final (exec World.handle (Reconcile sampleDeps requestA)
      (sampleWorld [freshRun]))).getRun requestA.NamespacedName).map
        (fun stored => stored.Status.Phase) = some "" := rfl
  rw [hget] at hrun
  simp only [Option.map_some', Option.some.injEq] at hrun
  rw [hphase] at hrun
  exact absurd hrun (by decide)

/-- C22, amended (first-trigger status): in the world, for a stored record that is
buildable, not marked for deletion, with a parent reference that resolves and without run
identifier, when the trigger returns the run `jobRun` and the dedup guard finds no
duplicate, the cycle returns `RequeueAfter` of one second and no error and leaves the
record stored with the status it had, in which only the start and update timestamps are
set, to the two readings of the clock: the phase is the one the record had. -/
theorem reconcile_first_trigger_status (d : Deps) (req : Request) (w : World)
    (pr : PipelineRun) (pipelineRef : ObjectReference) (pipeline : Pipeline)
    (jobRun : JobRun)
    (hstored : w.getRun req.NamespacedName = some pr)
    (hdel : IsZero pr.DeletionTimestamp = true) (hbuildable : Buildable pr = true)
    (href : pr.Spec.PipelineRef = some pipelineRef) (hname : pipelineRef.Name ≠ "")
    (hparent : w.getPipeline { Namespace := pr.Namespace, Name := pipelineRef.Name } =
      some pipeline)
    (hnew : HasStarted pr = false)
    (htrigger : outcome (exec World.handle
        (triggerJenkinsJob d pipeline.Namespace pipeline.Name pr.Spec) w) =
      Outcome.returned (Except.ok jobRun))
    (hnodup : outcome (exec World.handle (hasSamePendingPipelineRun jobRun pipeline) w) =
      Outcome.returned (Except.ok false)) :
    outcome (exec World.handle (Reconcile d req) w) =
      Outcome.returned ({ RequeueAfter := 1 * Second }, none) ∧
    ∃ stored,
      (final (exec World.handle (Reconcile d req) w)).getRun req.NamespacedName =
        some stored ∧
      stored.Status =
        { pr.Status with StartTime := some w.clock, UpdateTime := some (w.clock + 1) } ∧
      stored.Status.Phase = pr.Status.Phase := by
  suffices hx : ∃ tr w' stored, exec World.handle (Reconcile d req) w =
        (Outcome.returned ({ RequeueAfter := 1 * Second }, none), tr, w') ∧
      w'.getRun req.NamespacedName = some stored ∧
      stored.Status =
        { pr.Status with StartTime := some w.clock, UpdateTime := some (w.clock + 1) } by
    obtain ⟨tr, w', stored, hx, hget, hstatus⟩ := hx
    rw [hx]
    refine ⟨rfl, stored, hget, hstatus, ?_⟩
    rw [hstatus]
  have hkey : keyOf pr = req.NamespacedName := keyOf_of_getRun w _ pr hstored
  obtain ⟨option, hT⟩ := exec_triggerJenkinsJob_world w d _ _ _ jobRun htrigger
  obtain ⟨opts, ans, hD⟩ := exec_hasSamePendingPipelineRun_world w jobRun pipeline false hnodup
  have hget : exec World.handle (perform (Call.Get req.NamespacedName)) w =
      (Outcome.returned (Except.ok pr),
        [Event.mk (Call.Get req.NamespacedName) (Except.ok pr)], w) := by
    rw [exec_perform]
    simp only [World.handle, hstored]
  have hgp : exec World.handle
      (perform (Call.GetPipeline { Namespace := pr.Namespace, Name := pipelineRef.Name })) w =
      (Outcome.returned (Except.ok pipeline),
        [Event.mk (Call.GetPipeline { Namespace := pr.Namespace, Name := pipelineRef.Name })
          (Except.ok pipeline)], w) := by
    rw [exec_perform]
    simp only [World.handle, hparent]
  unfold Reconcile
  rw [exec_bind_do, hget]
  dsimp only
  rw [if_neg (by simp [hdel]), if_neg (by simp [hbuildable]), href]
  dsimp only
  rw [if_neg hname, exec_bind_do, hgp]
  dsimp only
  generalize (some _ : Option StrMap) = labels
  have hns : HasStarted { pr with Labels := labels } = false := hnew
  rw [hns, if_neg (by simp), exec_bind_do, hT]
  dsimp only
  rw [exec_bind_do, hD]
  dsimp only
  rw [if_neg (by simp)]
  -- the metadata write leaves the status as it was
  have hnone : mapGet pr.Annotations JenkinsPipelineRunIDKey = none := by
    cases hv : mapGet pr.Annotations JenkinsPipelineRunIDKey with
    | none => rfl
    | some v => simp [HasStarted, GetPipelineRunID, hv] at hnew
  have hdiff : mapDeepEqual
      (some (mapSet (makeIfNil pr.Annotations) JenkinsPipelineRunIDKey jobRun.ID))
      pr.Annotations = false := by
    cases hde : mapDeepEqual
        (some (mapSet (makeIfNil pr.Annotations) JenkinsPipelineRunIDKey jobRun.ID))
        pr.Annotations with
    | false => rfl
    | true =>
        have := mapGet_eq_of_mapDeepEqual _ _ hde JenkinsPipelineRunIDKey
        rw [mapGet_mapSet_self, hnone] at this
        cases this
  have hcur : w.getRun (keyOf pr) = some pr := by
    rw [hkey]
    exact hstored
  obtain ⟨obj, wU, new, hU, hUget, hUclock, -, hUs, -⟩ :=
    exec_updateLabelsAndAnnotations_store w
      { pr with
        Labels := labels,
        Annotations := some (mapSet (makeIfNil pr.Annotations) JenkinsPipelineRunIDKey jobRun.ID) }
      pr hcur hdel hdiff
  rw [exec_bind_do, hU]
  dsimp only
  -- the clock is read twice
  have hnow1 : exec World.handle (perform Call.Now) wU =
      (Outcome.returned wU.clock, [Event.mk Call.Now wU.clock],
        { wU with clock := wU.clock + 1 }) := rfl
  rw [exec_bind_do, hnow1]
  have hget1 : ({ wU with clock := wU.clock + 1 } : World).getRun req.NamespacedName =
      some new := by
    rw [← hkey]
    exact hUget
  generalize hw1 : ({ wU with clock := wU.clock + 1 } : World) = w1 at hget1 ⊢
  have hc1 : w1.clock = w.clock + 1 := by
    rw [← hw1, ← hUclock]
  dsimp only
  have hnow2 : exec World.handle (perform Call.Now) w1 =
      (Outcome.returned w1.clock, [Event.mk Call.Now w1.clock],
        { w1 with clock := w1.clock + 1 }) := rfl
  rw [exec_bind_do, hnow2]
  have hget2 : ({ w1 with clock := w1.clock + 1 } : World).getRun req.NamespacedName =
      some new := hget1
  generalize ({ w1 with clock := w1.clock + 1 } : World) = w2 at hget2 ⊢
  dsimp only
  -- the status write carries the status of the record fetched, with the two timestamps
  obtain ⟨trS, wS, hS, -, hSget⟩ := exec_updateStatus_world w2
    { pr.Status with StartTime := some wU.clock, UpdateTime := some w1.clock }
    req.NamespacedName new hget2
  rw [exec_bind_do, hS]
  dsimp only
  rw [exec_bind_do, exec_perform]
  refine ⟨_, _, _, rfl, hSget, ?_⟩
  show ({ pr.Status with StartTime := some wU.clock, UpdateTime := some w1.clock } :
      PipelineRunStatus) = _
  rw [hUclock, hc1]

/-- C22, amended, at the record `freshRun` in the sample world, where Jenkins answers the
trigger with the run `42`: the stored status has the two timestamps and the empty phase
of the new record. -/
theorem reconcile_first_trigger_status_witness :
    ((sampleWorld [freshRun]).getRun requestA.NamespacedName = some freshRun ∧
      IsZero freshRun.DeletionTimestamp = true ∧ Buildable freshRun = true ∧
      freshRun.Spec.PipelineRef = some { Name := "build-a" } ∧
      ({ Name := "build-a" } : ObjectReference).Name ≠ "" ∧
      (sampleWorld [freshRun]).getPipeline { Namespace := "project1", Name := "build-a" } =
        some buildA ∧
      HasStarted freshRun = false ∧
      outcome (exec World.handle
          (triggerJenkinsJob sampleDeps buildA.Namespace buildA.Name freshRun.Spec)
          (sampleWorld [freshRun])) = Outcome.returned (Except.ok run42) ∧
      outcome (exec World.handle (hasSamePendingPipelineRun run42 buildA)
          (sampleWorld [freshRun])) = Outcome.returned (Except.ok false)) ∧
    freshRun.Status.Phase = "" ∧
    outcome (exec World.handle (Reconcile sampleDeps requestA) (sampleWorld [freshRun])) =
      Outcome.returned ({ RequeueAfter := 1 * Second }, none) ∧
    ∃ stored,
      (final (exec World.handle (Reconcile sampleDeps requestA)
        (sampleWorld [freshRun]))).getRun requestA.NamespacedName = some stored ∧
      stored.Status =
        { freshRun.Status with StartTime := some (sampleWorld [freshRun]).clock,
                               UpdateTime := some ((sampleWorld [freshRun]).clock + 1) } ∧
      stored.Status.Phase = freshRun.Status.Phase :=
  ⟨⟨rfl, rfl, rfl, rfl, by decide, rfl, rfl, rfl, rfl⟩, rfl,
    reconcile_first_trigger_status sampleDeps requestA (sampleWorld [freshRun]) freshRun
      { Name := "build-a" } buildA run42 rfl rfl rfl rfl (by decide) rfl rfl rfl rfl⟩

/-! ### The finalizer -/

theorem noneAfter_nil (first later : Call → Bool) : noneAfter first later [] := by
  intro pre e post h
  cases pre <;> cases h

theorem noneAfter_of_no_first {first later : Call → Bool} {tr : List Event}
    (h : ∀ e ∈ tr, first e.call = false) : noneAfter first later tr := by
  intro pre e post htr hfirst
  have := h e (by rw [htr]; simp)
  rw [this] at hfirst
  cases hfirst

theorem noneAfter_of_no_later {first later : Call → Bool} {tr : List Event}
    (h : ∀ e ∈ tr, later e.call = false) : noneAfter first later tr := by
  intro pre e post htr _ e' he'
  exact h e' (by rw [htr]; simp [he'])

theorem noneAfter_append_left {first later : Call → Bool} {a b : List Event}
    (ha : ∀ e ∈ a, first e.call = false) (hb : noneAfter first later b) :
    noneAfter first later (a ++ b) := by
  intro pre e post htr hfirst
  rcases List.append_eq_append_iff.1 htr with ⟨a', hpre, hb'⟩ | ⟨c', ha', hc'⟩
  · exact hb a' e post hb' hfirst
  · cases c' with
    | nil =>
        simp only [List.nil_append] at hc'
        exact hb [] e post hc'.symm hfirst
    | cons x c' =>
        simp only [List.cons_append, List.cons.injEq] at hc'
        have := ha e (by rw [ha', hc'.1]; simp)
        rw [this] at hfirst
        cases hfirst

theorem noneAfter_append_right {first later : Call → Bool} {a b : List Event}
    (ha : noneAfter first later a) (hb : ∀ e ∈ b, later e.call = false) :
    noneAfter first later (a ++ b) := by
  intro pre e post htr hfirst e' he'
  rcases List.append_eq_append_iff.1 htr with ⟨a', hpre, hb'⟩ | ⟨c', ha', hc'⟩
  · exact hb e' (by rw [hb']; simp [he'])
  · cases c' with
    | nil =>
        simp only [List.nil_append] at hc'
        exact hb e' (by rw [← hc']; simp [he'])
    | cons x c' =>
        simp only [List.cons_append, List.cons.injEq] at hc'
        obtain ⟨hx, hpost⟩ := hc'
        rw [hpost] at he'
        rcases List.mem_append.1 he' with he' | he'
        · exact ha pre e c' (by rw [ha', hx]) hfirst e' he'
        · exact hb e' he'

theorem Prog.noneAfter_pure {α : Type} (first later : Call → Bool) (a : α) :
    (pure a : Prog α).all (fun tr _ => noneAfter first later tr) :=
  noneAfter_nil first later

theorem Prog.noneAfter_crash {α : Type} (first later : Call → Bool) (m : String) :
    (Prog.crash m : Prog α).all (fun tr _ => noneAfter first later tr) :=
  noneAfter_nil first later

theorem Prog.noneAfter_of_safe_first {α : Type} {first later : Call → Bool} {p : Prog α}
    (h : p.safe (fun e => first e.call = false)) :
    p.all (fun tr _ => noneAfter first later tr) :=
  Prog.all_mono h (fun _ _ htr => noneAfter_of_no_first htr)

theorem Prog.noneAfter_of_safe_later {α : Type} {first later : Call → Bool} {p : Prog α}
    (h : p.safe (fun e => later e.call = false)) :
    p.all (fun tr _ => noneAfter first later tr) :=
  Prog.all_mono h (fun _ _ htr => noneAfter_of_no_later htr)

/-- A single call has nothing after it. -/
theorem Prog.noneAfter_perform (first later : Call → Bool) (c : Call) :
    (perform c).all (fun tr _ => noneAfter first later tr) := by
  intro r pre e post htr _ e' he'
  cases pre with
  | nil =>
      simp only [List.nil_append, List.cons.injEq] at htr
      rw [← htr.2] at he'
      cases he'
  | cons x pre =>
      simp only [List.cons_append, List.cons.injEq] at htr
      cases pre <;> cases htr.2

/-- Sequence whose first part makes no call of the kind `first`. -/
theorem Prog.noneAfter_bind_left {α β : Type} {first later : Call → Bool} {p : Prog α}
    {f : α → Prog β} (hp : p.safe (fun e => first e.call = false))
    (hf : ∀ a, (f a).all (fun tr _ => noneAfter first later tr)) :
    (p >>= f).all (fun tr _ => noneAfter first later tr) := by
  show (p.bind f).all _
  rw [Prog.all_bind]
  refine Prog.all_mono hp (fun tr o htr => ?_)
  cases o with
  | returned a =>
      exact Prog.all_mono (hf a) (fun tr' _ htr' => noneAfter_append_left htr htr')
  | crashed m => exact noneAfter_of_no_first htr

/-- Sequence whose second part makes no call of the kind `later`. -/
theorem Prog.noneAfter_bind_right {α β : Type} {first later : Call → Bool} {p : Prog α}
    {f : α → Prog β} (hp : p.all (fun tr _ => noneAfter first later tr))
    (hf : ∀ a, (f a).safe (fun e => later e.call = false)) :
    (p >>= f).all (fun tr _ => noneAfter first later tr) := by
  show (p.bind f).all _
  rw [Prog.all_bind]
  refine Prog.all_mono hp (fun tr o htr => ?_)
  cases o with
  | returned a =>
      exact Prog.all_mono (hf a) (fun tr' _ htr' => noneAfter_append_right htr htr')
  | crashed m => exact htr

/-- In `updateLabelsAndAnnotations` the metadata write is the last call. -/
theorem noneAfter_updateLabelsAndAnnotations (later : Call → Bool) (pr : PipelineRun) :
    (updateLabelsAndAnnotations pr).all (fun tr _ => noneAfter isUpdate later tr) := by
  unfold updateLabelsAndAnnotations
  refine Prog.noneAfter_bind_left ((Prog.safe_perform _ _).2 (fun _ => rfl)) (fun res => ?_)
  cases res with
  | error err => exact Prog.noneAfter_pure _ _ _
  | ok prToUpdate =>
      dsimp only
      split
      · exact Prog.noneAfter_pure _ _ _
      · exact Prog.noneAfter_perform _ _ _

/-- In `makePipelineRunOrphan` nothing but clock readings and the status write follows the
metadata write. -/
theorem noneAfter_update_makePipelineRunOrphan (pr : PipelineRun) :
    (makePipelineRunOrphan pr).all
      (fun tr _ => noneAfter isUpdate isUpdateDeleteOrJenkins tr) := by
  unfold makePipelineRunOrphan
  dsimp only
  refine Prog.noneAfter_bind_right (noneAfter_updateLabelsAndAnnotations _ _) (fun err => ?_)
  cases err with
  | some e => exact Prog.safe_pure _ _
  | none =>
      dsimp only
      refine Prog.safe_perform_bind (fun _ => rfl) (fun _ => ?_)
      refine Prog.safe_perform_bind (fun _ => rfl) (fun _ => ?_)
      exact safe_updateStatus _ _ (fun _ => rfl) (fun _ _ _ => rfl)

/-- In `makePipelineRunOrphan` the status write comes last. -/
theorem noneAfter_status_makePipelineRunOrphan (pr : PipelineRun) :
    (makePipelineRunOrphan pr).all (fun tr _ => noneAfter isStatusUpdate isUpdate tr) := by
  unfold makePipelineRunOrphan
  dsimp only
  refine Prog.noneAfter_bind_left
    (safe_updateLabelsAndAnnotations _ (fun _ => rfl) (fun _ _ _ _ _ => rfl)) (fun err => ?_)
  cases err with
  | some e => exact Prog.noneAfter_pure _ _ _
  | none =>
      dsimp only
      refine Prog.noneAfter_bind_left ((Prog.safe_perform _ _).2 (fun _ => rfl)) (fun _ => ?_)
      refine Prog.noneAfter_bind_left ((Prog.safe_perform _ _).2 (fun _ => rfl)) (fun _ => ?_)
      exact Prog.noneAfter_of_safe_later
        (safe_updateStatus _ _ (fun _ => rfl) (fun _ _ _ => rfl))

/-- In every environment, once a cycle has made a metadata write it makes no further
metadata write, no deletion and no call to the external build system. -/
theorem noneAfter_update_Reconcile (d : Deps) (req : Request) :
    (Reconcile d req).all (fun tr _ => noneAfter isUpdate isUpdateDeleteOrJenkins tr) := by
  unfold Reconcile
  simp only [jsonMarshal]
  repeat' first
    | exact Prog.noneAfter_pure _ _ _
    | exact Prog.noneAfter_perform _ _ _
    | exact Prog.noneAfter_of_safe_later
        (safe_updateStatus _ _ (fun _ => rfl) (fun _ _ _ => rfl))
    | refine Prog.noneAfter_bind_left
        (by first
          | exact (Prog.safe_perform _ _).2 (fun _ => rfl)
          | exact safe_deleteJenkinsJobHistory _ (fun _ _ _ _ => rfl)
          | exact safe_getPipelineRunResult _ _ _ (fun _ _ _ _ _ => rfl)
          | exact safe_getPipelineNodes _ _ _ (fun _ _ _ _ _ => rfl)
          | exact safe_triggerJenkinsJob _ _ _ _ (fun _ _ _ => rfl)
          | exact safe_hasSamePendingPipelineRun _ _ (fun _ _ => rfl)
          | exact safe_deletePipelineRun _ (fun _ => rfl) (fun _ _ => rfl))
        (fun _ => ?_)
    | refine Prog.noneAfter_bind_right
        (by first
          | exact noneAfter_updateLabelsAndAnnotations _ _
          | exact noneAfter_update_makePipelineRunOrphan _
          | exact Prog.noneAfter_perform _ _ _)
        (fun _ => by
          repeat' first
            | exact Prog.safe_pure _ _
            | exact (Prog.safe_perform _ _).2 (fun _ => rfl)
            | exact safe_updateStatus _ _ (fun _ => rfl) (fun _ _ _ => rfl)
            | refine Prog.safe_bind ?_ (fun _ => ?_)
            | split)
    | split

/-- In every environment, once a cycle has made a status write it makes no metadata
write. -/
theorem noneAfter_status_Reconcile (d : Deps) (req : Request) :
    (Reconcile d req).all (fun tr _ => noneAfter isStatusUpdate isUpdate tr) := by
  unfold Reconcile
  simp only [jsonMarshal]
  repeat' first
    | exact Prog.noneAfter_pure _ _ _
    | exact Prog.noneAfter_perform _ _ _
    | exact Prog.noneAfter_of_safe_later
        (safe_updateStatus _ _ (fun _ => rfl) (fun _ _ _ => rfl))
    | refine Prog.noneAfter_bind_left
        (by first
          | exact (Prog.safe_perform _ _).2 (fun _ => rfl)
          | exact safe_updateLabelsAndAnnotations _ (fun _ => rfl) (fun _ _ _ _ _ => rfl)
          | exact safe_deleteJenkinsJobHistory _ (fun _ _ _ _ => rfl)
          | exact safe_getPipelineRunResult _ _ _ (fun _ _ _ _ _ => rfl)
          | exact safe_getPipelineNodes _ _ _ (fun _ _ _ _ _ => rfl)
          | exact safe_triggerJenkinsJob _ _ _ _ (fun _ _ _ => rfl)
          | exact safe_hasSamePendingPipelineRun _ _ (fun _ _ => rfl)
          | exact safe_deletePipelineRun _ (fun _ => rfl) (fun _ _ => rfl))
        (fun _ => ?_)
    | refine Prog.noneAfter_bind_right
        (by first
          | exact Prog.noneAfter_of_safe_later
              (safe_updateStatus _ _ (fun _ => rfl) (fun _ _ _ => rfl))
          | exact noneAfter_status_makePipelineRunOrphan _)
        (fun _ => by
          repeat' first
            | exact Prog.safe_pure _ _
            | exact (Prog.safe_perform _ _).2 (fun _ => rfl)
            | refine Prog.safe_bind ?_ (fun _ => ?_)
            | split)
    | split

/-- The state after a run is the state after its calls are answered one by one. -/
theorem exec_final_replay {σ α : Type} (h : Handler σ) (p : Prog α) :
    ∀ s : σ, final (exec h p s) = replay h (trace (exec h p s)) s := by
  induction p with
  | ret a => intro s; rfl
  | crash m => intro s; rfl
  | call c k ih =>
      intro s
      exact ih (h c s).1 (h c s).2

/-- Each call of a run is answered from the state the calls before it left, and the
state after the run is the state the calls after it lead to. -/
theorem exec_trace_split {σ α : Type} (h : Handler σ) (p : Prog α) :
    ∀ (s : σ) (pre : List Event) (e : Event) (post : List Event),
      trace (exec h p s) = pre ++ e :: post →
      e = Event.mk e.call (h e.call (replay h pre s)).1 ∧
      final (exec h p s) = replay h post (h e.call (replay h pre s)).2 := by
  induction p with
  | ret a => intro s pre e post htr; cases pre <;> cases htr
  | crash m => intro s pre e post htr; cases pre <;> cases htr
  | call c k ih =>
      intro s pre e post htr
      have hcons : trace (exec h (Prog.call c k) s) =
          Event.mk c (h c s).1 :: trace (exec h (k (h c s).1) (h c s).2) := rfl
      rw [hcons] at htr
      cases pre with
      | nil =>
          simp only [List.nil_append, List.cons.injEq] at htr
          obtain ⟨he, hpost⟩ := htr
          subst he
          refine ⟨rfl, ?_⟩
          rw [← hpost]
          exact exec_final_replay h (k (h c s).1) (h c s).2
      | cons x pre =>
          simp only [List.cons_append, List.cons.injEq] at htr
          obtain ⟨hx, hrest⟩ := htr
          subst hx
          exact ih (h c s).1 (h c s).2 pre e post hrest

theorem find?_map_replace_holds (key : ObjectKey) (new : PipelineRun) (P : PipelineRun → Prop)
    (hnew : sameKey key new = true → P new) :
    ∀ (runs : List PipelineRun) (stored : PipelineRun),
      runs.find? (sameKey key) = some stored → P stored →
      ∃ stored', (runs.map (fun pr => if sameKey (keyOf new) pr then new else pr)).find?
        (sameKey key) = some stored' ∧ P stored' := by
  intro runs
  induction runs with
  | nil => intro stored h; cases h
  | cons r rs ih =>
      intro stored h hP
      by_cases hr : sameKey (keyOf new) r = true
      · -- the record is replaced; it lies under `key` exactly when the new one does
        have hsame : sameKey key r = sameKey key new := by
          simp only [sameKey, keyOf, Bool.and_eq_true, beq_iff_eq] at hr
          simp only [sameKey, hr.1, hr.2]
        simp only [List.map, hr, if_true, List.find?]
        rw [List.find?, hsame] at h
        cases hk : sameKey key new with
        | true => exact ⟨new, rfl, hnew hk⟩
        | false =>
            rw [hk] at h
            exact ih stored h hP
      · have hr' : sameKey (keyOf new) r = false := by simpa using hr
        simp only [List.map, hr', Bool.false_eq_true, if_false, List.find?]
        rw [List.find?] at h
        cases hk : sameKey key r with
        | true =>
            rw [hk] at h
            cases h
            exact ⟨r, rfl, hP⟩
        | false =>
            rw [hk] at h
            exact ih stored h hP

/-- In the world, a call that is neither a metadata write nor a deletion leaves the
finalizer of a stored record in place. -/
theorem World.holdsFinalizer_handle (c : Call) (w : World) (key : ObjectKey)
    (hu : isUpdate c = false) (hd : isDelete c = false) (hfin : w.holdsFinalizer key) :
    (World.handle c w).2.holdsFinalizer key := by
  cases c with
  | Update obj => cases hu
  | Delete obj => cases hd
  | StatusUpdate obj =>
      simp only [World.handle]
      cases hcur : w.getRun (keyOf obj) with
      | none => exact hfin
      | some cur =>
          obtain ⟨stored, hstored, hP⟩ := hfin
          dsimp only
          refine find?_map_replace_holds key { cur with Status := obj.Status }
            (fun pr => HasString pr.Finalizers PipelineRunFinalizerName = true) ?_
            w.runs stored hstored hP
          intro hk
          have hkc : keyOf cur = keyOf obj := keyOf_of_getRun w _ cur hcur
          have hkey : keyOf obj = key := by
            rw [← hkc]
            simp only [sameKey, Bool.and_eq_true, beq_iff_eq] at hk
            cases key
            simp only [keyOf, ObjectKey.mk.injEq]
            exact hk
          rw [hkey, hstored] at hcur
          cases hcur
          exact hP
  | Get k =>
      simp only [World.handle]
      cases w.getRun k <;> exact hfin
  | GetPipeline k =>
      simp only [World.handle]
      cases w.getPipeline k <;> exact hfin
  | UpdatePipeline obj =>
      simp only [World.handle]
      cases w.getPipeline { Namespace := obj.Namespace, Name := obj.Name } <;> exact hfin
  | ToJSON j => exact hfin
  | List opts => exact hfin
  | DeleteHistory j n => exact hfin
  | Build o => exact hfin
  | GetBuild o => exact hfin
  | GetNodes o => exact hfin
  | Eventf a b c d => exact hfin
  | Now => exact hfin

/-- In the world, calls that are neither metadata writes nor deletions leave the finalizer
of a stored record in place. -/
theorem World.holdsFinalizer_replay (key : ObjectKey) :
    ∀ (tr : List Event) (w : World),
      (∀ e ∈ tr, isUpdate e.call = false ∧ isDelete e.call = false) →
      w.holdsFinalizer key → (replay World.handle tr w).holdsFinalizer key := by
  intro tr
  induction tr with
  | nil => intro w _ hfin; exact hfin
  | cons e tr ih =>
      intro w hall hfin
      have he := hall e (List.mem_cons_self _ _)
      exact ih _ (fun e' he' => hall e' (List.mem_cons_of_mem _ he'))
        (World.holdsFinalizer_handle e.call w key he.1 he.2 hfin)

/-- In the world, a metadata write that carries the finalizer and is answered without
error leaves the record stored with the finalizer. -/
theorem World.holdsFinalizer_update (w : World) (obj : PipelineRun)
    (hfin : HasString obj.Finalizers PipelineRunFinalizerName = true)
    (hans : (World.handle (Call.Update obj) w).1 = none) :
    (World.handle (Call.Update obj) w).2.holdsFinalizer (keyOf obj) := by
  have hne : obj.Finalizers.isEmpty = false := by
    cases hf : obj.Finalizers with
    | nil => rw [hf] at hfin; simp [HasString] at hfin
    | cons x xs => rfl
  simp only [World.handle] at hans ⊢
  cases hcur : w.getRun (keyOf obj) with
  | none =>
      rw [hcur] at hans
      cases hans
  | some cur =>
      dsimp only
      rw [hne, Bool.and_false, if_neg (by simp)]
      exact ⟨_, getRun_replace w
        { obj with Status := cur.Status, DeletionTimestamp := cur.DeletionTimestamp } cur hcur,
        hfin⟩

/-- C21 as stated does not hold.  In the sample world, the first cycle for the buildable
record `freshRun`, which has no deletion marker and no finalizer, calls the trigger of the
external build system before it has made any write: no write that carries the finalizer
comes before that call.  And in the sample world without parent pipeline, the cycle for
`freshRun` returns without error and leaves the stored record without the finalizer. -/
theorem reconcile_finalizer_not_first :
    ¬ (∀ (d : Deps) (req : Request) (w : World) (pr : PipelineRun),
        w.getRun req.NamespacedName = some pr → IsZero pr.DeletionTimestamp = true →
        Buildable pr = true → HasString pr.Finalizers PipelineRunFinalizerName = false →
        ∀ pre e post, trace (exec World.handle (Reconcile d req) w) = pre ++ e :: post →
          (isStatusUpdate e.call = true ∨ isJenkins e.call = true) →
          ∃ e' ∈ pre, writesFinalizer e'.call = true) ∧
    ¬ (∀ (d : Deps) (req : Request) (w : World) (pr : PipelineRun) (res : Result),
        w.getRun req.NamespacedName = some pr → IsZero pr.DeletionTimestamp = true →
        Buildable pr = true → HasString pr.Finalizers PipelineRunFinalizerName = false →
        outcome (exec World.handle (Reconcile d req) w) = Outcome.returned (res, none) →
        (final (exec World.handle (Reconcile d req) w)).holdsFinalizer req.NamespacedName) := by
  constructor
  · intro hall
    obtain ⟨e', he', hfin⟩ :=
      hall sampleDeps requestA (sampleWorld [freshRun]) freshRun rfl rfl rfl rfl
        [Event.mk (Call.Get requestA.NamespacedName) (Except.ok freshRun),
         Event.mk (Call.GetPipeline { Namespace := "project1", Name := "build-a" })
           (Except.ok buildA)]
        (Event.mk (Call.Build { Pipelines := ["project1", "build-a"], Parameters := [],
                                Branch := "" }) (Except.ok run42))
        _ rfl (Or.inr rfl)
    simp only [List.mem_cons, List.not_mem_nil, or_false] at he'
    rcases he' with rfl | rfl <;> cases hfin
  · intro hall
    obtain ⟨stored, hget, hfin⟩ :=
      hall sampleDeps requestA (worldWithoutParent [freshRun]) freshRun {} rfl rfl rfl rfl rfl
    have hrun : (final (exec World.handle (Reconcile sampleDeps requestA)
        (worldWithoutParent [freshRun]))).getRun requestA.NamespacedName = some freshRun := rfl
    rw [hrun] at hget
    cases hget
    cases hfin

/-- C21, amended (the finalizer goes with the metadata write).  In every environment, for
a fetched record without deletion marker, every metadata write of the cycle carries the
finalizer; once the cycle has made a metadata write it makes no further metadata write,
no deletion and no call to the external build system, and once it has made a status
write it makes no metadata write: the metadata write comes after the calls to the build
system and before the status write.  In the world, for a stored record without deletion
marker, every metadata write of the cycle that the store answers without error leaves the
record it wrote stored with the finalizer at the end of the cycle. -/
theorem reconcile_finalizer_with_metadata_write (d : Deps) (req : Request) :
    (∀ (σ : Type) (h : Handler σ) (s : σ),
      (∀ pr, (h (Call.Get req.NamespacedName) s).1 = Except.ok pr →
        IsZero pr.DeletionTimestamp = true →
        ∀ e ∈ trace (exec h (Reconcile d req) s), isUpdate e.call = true →
          writesFinalizer e.call = true) ∧
      noneAfter isUpdate isUpdateDeleteOrJenkins (trace (exec h (Reconcile d req) s)) ∧
      noneAfter isStatusUpdate isUpdate (trace (exec h (Reconcile d req) s))) ∧
    (∀ (w : World) (pr obj : PipelineRun),
      w.getRun req.NamespacedName = some pr → IsZero pr.DeletionTimestamp = true →
      Event.mk (Call.Update obj) none ∈ trace (exec World.handle (Reconcile d req) w) →
      (final (exec World.handle (Reconcile d req) w)).holdsFinalizer (keyOf obj)) := by
  -- every metadata write on a record without deletion marker carries the finalizer
  have hcarries : ∀ (σ : Type) (h : Handler σ) (s : σ) (pr : PipelineRun),
      (h (Call.Get req.NamespacedName) s).1 = Except.ok pr →
      IsZero pr.DeletionTimestamp = true →
      ∀ e ∈ trace (exec h (Reconcile d req) s), isUpdate e.call = true →
        writesFinalizer e.call = true := by
    intro σ h s pr hget hdel e he hupd
    obtain ⟨rest, htr, hmay⟩ := reconcile_calls_exec d req h s pr hget
    rw [htr] at he
    rcases List.mem_cons.1 he with rfl | he
    · cases hupd
    · have hc := hmay e he
      unfold reconcileMay at hc
      rw [if_neg (by simp [hdel])] at hc
      have horphan : mayOrphan pr e.call → writesFinalizer e.call = true := by
        rintro (hc | ⟨obj, hc, -, -, hfin⟩ | hc | ⟨_, hc, _⟩)
        · rw [hc] at hupd; cases hupd
        · rw [hc]; exact hfin
        · rw [hc] at hupd; cases hupd
        · rw [hc] at hupd; cases hupd
      by_cases hb : Buildable pr = false
      · rw [if_pos hb] at hc
        exact hc.elim
      · rw [if_neg hb] at hc
        cases href : pr.Spec.PipelineRef with
        | none =>
            rw [href] at hc
            exact horphan hc
        | some pipelineRef =>
            rw [href] at hc
            dsimp only at hc
            by_cases hname : pipelineRef.Name = ""
            · rw [if_pos hname] at hc
              exact horphan hc
            · rw [if_neg hname] at hc
              rcases hc with hc | hc
              · rw [hc] at hupd; cases hupd
              · split at hc
                · rcases hc with ⟨_, hc, _⟩ | ⟨_, hc, _⟩ | ⟨_, _, _, _, hc⟩ | hc | hc |
                    ⟨obj, _, _, hc, -, hfin⟩ | ⟨_, _, hc, _⟩
                  · rw [hc] at hupd; cases hupd
                  · rw [hc] at hupd; cases hupd
                  · rw [hc] at hupd; cases hupd
                  · rw [hc] at hupd; cases hupd
                  · rw [hc] at hupd; cases hupd
                  · rw [hc]; exact hfin
                  · rw [hc] at hupd; cases hupd
                · rcases hc with ⟨_, hc⟩ | ⟨_, _, _, _, hc⟩ | ⟨_, hc⟩ | hc | ⟨_, hc⟩ | hc |
                    ⟨obj, _, hc, -, hfin⟩ | hc | ⟨_, _, _, hc, _⟩
                  · rw [hc] at hupd; cases hupd
                  · rw [hc] at hupd; cases hupd
                  · rw [hc] at hupd; cases hupd
                  · rw [hc] at hupd; cases hupd
                  · rw [hc] at hupd; cases hupd
                  · rw [hc] at hupd; cases hupd
                  · rw [hc]; exact hfin
                  · rw [hc] at hupd; cases hupd
                  · rw [hc] at hupd; cases hupd
  refine ⟨fun σ h s => ⟨hcarries σ h s, exec_of_all _ _ (noneAfter_update_Reconcile d req) h s,
    exec_of_all _ _ (noneAfter_status_Reconcile d req) h s⟩, ?_⟩
  intro w pr obj hstored hdel hmem
  -- the write carries the finalizer
  have hget : (World.handle (Call.Get req.NamespacedName) w).1 = Except.ok pr := by
    simp only [World.handle, hstored]
  have hfin : HasString obj.Finalizers PipelineRunFinalizerName = true :=
    hcarries World World.handle w pr hget hdel _ hmem rfl
  -- the store answered it from the state the calls before it left
  obtain ⟨pre, post, htr⟩ := List.append_of_mem hmem
  obtain ⟨hev, hfinal⟩ := exec_trace_split World.handle (Reconcile d req) w pre _ post htr
  have hans : (World.handle (Call.Update obj) (replay World.handle pre w)).1 = none := by
    have := congrArg (fun e : Event =>
      match e with
      | Event.mk (Call.Update _) r => r
      | _ => none) hev
    exact this.symm
  -- no call after it writes metadata or deletes
  have hafter := exec_of_all _ _ (noneAfter_update_Reconcile d req) World.handle w
    pre _ post htr rfl
  rw [hfinal]
  refine World.holdsFinalizer_replay _ post _ (fun e he => ?_)
    (World.holdsFinalizer_update _ obj hfin hans)
  have := hafter e he
  simp only [isUpdateDeleteOrJenkins, Bool.or_eq_false_iff] at this
  exact ⟨this.1.1, this.1.2⟩

/-- C21, amended, at the record `freshRun` in the sample world: the first cycle makes one
metadata write, which carries the finalizer and is answered without error, and the record
`project1/run-a` is stored with the finalizer at the end of the cycle. -/
theorem reconcile_finalizer_with_metadata_write_witness :
    ((sampleWorld [freshRun]).getRun requestA.NamespacedName = some freshRun ∧
      IsZero freshRun.DeletionTimestamp = true ∧
      keyOf { freshRun with
        Labels := some [(PipelineNameLabelKey, "build-a")],
        Annotations := some [(JenkinsPipelineRunIDKey, "42")],
        Finalizers := [PipelineRunFinalizerName] } = requestA.NamespacedName) ∧
    (final (exec World.handle (Reconcile sampleDeps requestA)
      (sampleWorld [freshRun]))).holdsFinalizer
        (keyOf { freshRun with
          Labels := some [(PipelineNameLabelKey, "build-a")],
          Annotations := some [(JenkinsPipelineRunIDKey, "42")],
          Finalizers := [PipelineRunFinalizerName] }) :=
  ⟨⟨rfl, rfl, rfl⟩,
    (reconcile_finalizer_with_metadata_write sampleDeps requestA).2 (sampleWorld [freshRun])
      freshRun _ rfl rfl
      (List.get_mem (trace (exec World.handle (Reconcile sampleDeps requestA)
        (sampleWorld [freshRun]))) 5 (by decide))⟩

end KsDevops
